import Mathlib

/-!
# wavecap~ : wavetable capture and playback oscillator

A shallow embedding of `src/wavecap~/wavecap~.c` and theorems about it.  The
externals blend~, folder~ and wraparound~ of the same library follow, each in
its own namespace: first all definitions, then all theorems.

Modelling conventions.

* C `float` values are elements of a linearly ordered field `F` with a floor
  function (exact arithmetic; `ℚ` is the executable instance, `ℝ` another).
* `uint32_t` values are natural numbers below `2 ^ 32`; `int` is the 32-bit
  two's complement integer, so the conversion from `uint32_t` is written out
  (`int_of_uint32`).  `long` values are integers.
* The block of floats `x->table` points to is the list `table`; `NULL` is the
  empty list, and `calloc` is assumed to succeed.
* The signal vectors handed to `wavecap_perform` are lists.  A read or a write
  outside a block, and a loop that never ends, make the embedding return
  `none`.
* `exp`, `log` and `NAN` of `<math.h>` are parameters (`libm`).
* `post` lines are console output only and are not part of the state; the
  two receivers that can call `error` return which of the two they called.
-/

set_option linter.unusedSectionVars false

namespace Wavecap

/-- The part of `<math.h>` the object uses. -/
structure libm (F : Type) where
  exp : F → F
  log : F → F
  NAN : F

/-- Which console routine a validating receiver ended with. -/
inductive pd_log where
  | post
  | error
  deriving DecidableEq

/-- Values of `enum interp_type`. -/
def truncate : Int := 0

/-- Two-sample linear interpolation. -/
def lin_2 : Int := 1

/-- Four-sample interpolation. -/
def lin_4 : Int := 2

/-- Number of interpolation types. -/
def interp_types_num : Int := 3

/-- The object `struct _wavecap` (without the Pd object header). -/
structure t_wavecap (F : Type) where
  f : F
  block_size : Int
  sample_rate : F
  nyquist_rate : F
  table_record : Int
  table_size : Nat
  table_mask : Nat
  table : List F
  table_interp : Int
  env_enabled : Int
  env_atk_ms : F
  env_dcy_ms : F
  env_atk_coeff : F
  env_dcy_coeff : F
  env_last : F
  phase : F
  phaseIncrement : F
  deriving DecidableEq

variable {F : Type} [LinearOrderedField F] [FloorRing F]

/-! ## Conversions -/

/-- The cast `(long) f`, also `(int) f`: truncation toward zero. -/
def cast_long (f : F) : Int :=
  if 0 ≤ f then ⌊f⌋ else ⌈f⌉

/-- The cast `(uint32_t) f`: truncation toward zero, reduced modulo `2 ^ 32`
(the C standard defines it for `-1 < f < 2 ^ 32` only). -/
def cast_uint32 (f : F) : Nat :=
  (cast_long f % 4294967296).toNat

/-- The conversion from `uint32_t` to `int` in `x->table_record = x->table_size`. -/
def int_of_uint32 (u : Nat) : Int :=
  if u < 2147483648 then (u : Int) else (u : Int) - 4294967296

/-- The conversion from `int` to `uint32_t` and the unsigned subtraction in
`table_size - table_record`. -/
def uint32_sub_int (u : Nat) (i : Int) : Nat :=
  (((u : Int) - i) % 4294967296).toNat

/-! ## Receivers and helpers -/

/-- The bang receiver: start recording. -/
def wavecap_table_record (x : t_wavecap F) : t_wavecap F :=
  { x with table_record := int_of_uint32 x.table_size }

/-- Release of the table block; the pointer itself is left as it is and is
overwritten by the allocation that follows. -/
def _wavecap_table_free (x : t_wavecap F) : t_wavecap F :=
  x

/-- Allocation of a zero-filled table (`calloc`), `NULL` for size zero. -/
def _wavecap_table_alloc (x : t_wavecap F) : t_wavecap F :=
  if x.table_size > 0 then
    { x with table := List.replicate x.table_size 0 }
  else
    { x with table := [] }

/-- Reset of the oscillator fields of the object. -/
def _wavecap_table_reset_phase (x : t_wavecap F) : t_wavecap F :=
  { x with phase := 0, phaseIncrement := 0 }

/-- Attack coefficient from attack time and sample rate. -/
def _wavecap_env_atk_coeff_recompute (m : libm F) (x : t_wavecap F) : t_wavecap F :=
  { x with
    env_atk_coeff := m.exp (m.log (1 / 100) / (x.env_atk_ms * x.sample_rate * (1 / 1000)))
    env_last := 0 }

/-- Decay coefficient from decay time and sample rate. -/
def _wavecap_env_dcy_coeff_recompute (m : libm F) (x : t_wavecap F) : t_wavecap F :=
  { x with
    env_dcy_coeff := m.exp (m.log (1 / 100) / (x.env_dcy_ms * x.sample_rate * (1 / 1000)))
    env_last := 0 }

/-- Receiver of `env_disable`. -/
def wavecap_env_disable (x : t_wavecap F) : t_wavecap F :=
  { x with env_enabled := 0 }

/-- Receiver of `env_enable`. -/
def wavecap_env_enable (x : t_wavecap F) : t_wavecap F :=
  { x with env_enabled := 1 }

/-- Receiver of `table_size f`. -/
def wavecap_table_size (x : t_wavecap F) (f : F) : t_wavecap F × pd_log :=
  let table_size_new : Nat := cast_uint32 f
  if table_size_new = 0 ∨ (table_size_new &&& (table_size_new - 1)) ≠ 0 then
    (x, pd_log.error)
  else if table_size_new ≠ x.table_size then
    (_wavecap_table_alloc (_wavecap_table_free
      { x with table_size := table_size_new, table_mask := table_size_new - 1 }), pd_log.post)
  else
    (x, pd_log.post)

/-- Receiver of `table_interp f`. -/
def wavecap_table_interp (x : t_wavecap F) (f : F) : t_wavecap F × pd_log :=
  let i : Int := cast_long f
  if i < 0 ∨ i ≥ interp_types_num then
    (x, pd_log.error)
  else
    ({ x with table_interp := i }, pd_log.post)

/-- Receiver of `env_atk_ms f`. -/
def wavecap_env_atk_ms (m : libm F) (x : t_wavecap F) (f : F) : t_wavecap F :=
  _wavecap_env_atk_coeff_recompute m { x with env_atk_ms := f }

/-- Receiver of `env_dcy_ms f`. -/
def wavecap_env_dcy_ms (m : libm F) (x : t_wavecap F) (f : F) : t_wavecap F :=
  _wavecap_env_dcy_coeff_recompute m { x with env_dcy_ms := f }

/-- The `dsp` callback, given the sample rate `sr` and vector size `s_n` of the
first signal. -/
def wavecap_dsp (m : libm F) (x : t_wavecap F) (sr : F) (s_n : Int) : t_wavecap F :=
  let x1 :=
    if x.sample_rate ≠ sr then
      _wavecap_env_dcy_coeff_recompute m
        (_wavecap_env_atk_coeff_recompute m
          { x with sample_rate := sr, nyquist_rate := sr / 2 })
    else x
  { x1 with block_size := s_n }

/-- The constructor `wavecap_new`. -/
def wavecap_new (m : libm F) (f : F) : t_wavecap F :=
  _wavecap_table_reset_phase (_wavecap_table_alloc
    { f := f
      block_size := -1
      sample_rate := 0
      nyquist_rate := 0
      table_record := 0
      table_size := 1024
      table_mask := 1023
      table := []
      table_interp := truncate
      env_enabled := 0
      env_atk_ms := 10
      env_dcy_ms := 500
      env_atk_coeff := m.NAN
      env_dcy_coeff := m.NAN
      env_last := 0
      phase := 0
      phaseIncrement := 0 })

/-! ## The dsp callback `wavecap_perform` -/

/-- The variables of `wavecap_perform` that its loops update.  `mem` is the
block of floats behind `x->table` (and the alias `wavetable`); `table`,
`in_table` and `in_env` are the offsets of the three moving pointers; `out` is
what has been written through `out` so far. -/
structure perform_vars (F : Type) where
  mem : List F
  table : Nat
  in_table : Nat
  in_env : Nat
  out : List F
  table_record : Int
  n_computed : Int
  env_last : F
  phase : F
  phaseIncrement : F
  deriving DecidableEq

/-- Body of the recording loop:
`*table++ = *in_table++; table_record--; *out++ = 0.0f; n_computed++;`. -/
def record_body (vec_table : List F) (s : perform_vars F) : Option (perform_vars F) :=
  match vec_table[s.in_table]? with
  | none => none
  | some v =>
    if s.table < s.mem.length then
      some { s with
        mem := s.mem.set s.table v
        table := s.table + 1
        in_table := s.in_table + 1
        table_record := s.table_record - 1
        out := s.out ++ [0]
        n_computed := s.n_computed + 1 }
    else none

/-- The loop `while (table_record > 0 && n_computed < n)`. -/
def record_loop (n : Int) (vec_table : List F) : Nat → perform_vars F → Option (perform_vars F)
  | 0, s => if s.table_record > 0 ∧ s.n_computed < n then none else some s
  | fuel + 1, s =>
    if s.table_record > 0 ∧ s.n_computed < n then
      (record_body vec_table s).bind (record_loop n vec_table fuel)
    else some s

/-- The read `*(wavetable + i)`. -/
def wavetable_read (wavetable : List F) (i : Int) : Option F :=
  if 0 ≤ i then wavetable[i.toNat]? else none

/-- The `switch (table_interp)` statement: the sample written to `out`. -/
def interpolate (table_interp : Int) (tableMask : Nat) (wavetable : List F) (phase : F) :
    Option F :=
  if table_interp = truncate then
    let longPhase : Int := cast_long phase
    let longPhase : Int := Int.land longPhase tableMask
    wavetable_read wavetable longPhase
  else if table_interp = lin_2 then
    let longPhase : Int := cast_long phase
    let longPhase : Int := Int.land longPhase tableMask
    let phaseMix : F := phase - (longPhase : F)
    match wavetable_read wavetable longPhase,
        wavetable_read wavetable (Int.land (longPhase + 1) tableMask) with
    | some xa, some xb => some (xa + phaseMix * (xb - xa))
    | _, _ => none
  else if table_interp = lin_4 then
    let truncphase : Int := cast_long phase
    let fr : F := phase - (truncphase : F)
    match wavetable_read wavetable (Int.land (truncphase - 1) tableMask),
        wavetable_read wavetable (Int.land (truncphase + 0) tableMask),
        wavetable_read wavetable (Int.land (truncphase + 1) tableMask),
        wavetable_read wavetable (Int.land (truncphase + 2) tableMask) with
    | some inm1, some in0, some inp1, some inp2 =>
      some (in0 + 1 / 2 * fr * (inp1 - inm1 +
        fr * (4 * inp1 + 2 * inm1 - 5 * in0 - inp2 +
        fr * (3 * (in0 - inp1) - inm1 + inp2))))
    | _, _, _, _ => none
  else
    some 0

/-- The loop `while (phase >= (float) table_size) phase = phase - (float) table_size;`. -/
def wrap_down_loop (size : F) : Nat → F → Option F
  | 0, phase => if phase ≥ size then none else some phase
  | fuel + 1, phase => if phase ≥ size then wrap_down_loop size fuel (phase - size) else some phase

/-- The loop `while (phase < 0.0f) phase = phase + (float) table_size;`. -/
def wrap_up_loop (size : F) : Nat → F → Option F
  | 0, phase => if phase < 0 then none else some phase
  | fuel + 1, phase => if phase < 0 then wrap_up_loop size fuel (phase + size) else some phase

/-- The two wrap loops after `phase += phaseIncrement`, run for as many rounds
as a positive size needs; `none` when a loop does not end. -/
def wrap_phase (table_size : Nat) (phase : F) : Option F :=
  (wrap_down_loop (table_size : F) ⌊phase / (table_size : F)⌋.toNat phase).bind
    fun p => wrap_up_loop (table_size : F) ⌈-p / (table_size : F)⌉.toNat p

/-- The envelope follower statement of the playback loop: the new `env_last`. -/
def envelope (x : t_wavecap F) (env_last : F) (sample : F) : F :=
  if x.env_enabled ≠ 0 then
    let env_tmp : F := |sample|
    if env_tmp > env_last then
      x.env_atk_coeff * (env_last - env_tmp) + env_tmp
    else
      x.env_dcy_coeff * (env_last - env_tmp) + env_tmp
  else
    sample

/-- Body of the playback loop. -/
def play_body (x : t_wavecap F) (vec_env : List F) (s : perform_vars F) :
    Option (perform_vars F) :=
  match vec_env[s.in_env]? with
  | none => none
  | some e =>
    let env_last : F := envelope x s.env_last e
    let phaseIncrement : F := |env_last| * (x.table_size : F)
    match interpolate x.table_interp x.table_mask s.mem s.phase with
    | none => none
    | some o =>
      match wrap_phase x.table_size (s.phase + phaseIncrement) with
      | none => none
      | some phase =>
        some { s with
          in_env := s.in_env + 1
          env_last := env_last
          phaseIncrement := phaseIncrement
          out := s.out ++ [o]
          n_computed := s.n_computed + 1
          phase := phase }

/-- The loop `while (n_computed < n)`. -/
def play_loop (x : t_wavecap F) (n : Int) (vec_env : List F) :
    Nat → perform_vars F → Option (perform_vars F)
  | 0, s => if s.n_computed < n then none else some s
  | fuel + 1, s =>
    if s.n_computed < n then
      (play_body x vec_env s).bind (play_loop x n vec_env fuel)
    else some s

/-- The `if (table_record > 0)` block: recording into the table.  Returns the
object (fields `phase`, `phaseIncrement`, `table_record` possibly assigned)
and the local variables. -/
def record_block (x : t_wavecap F) (vec_table : List F) (s : perform_vars F) :
    Option (t_wavecap F × perform_vars F) :=
  if s.table_record > 0 then
    let s1 : perform_vars F :=
      { s with table := s.table + uint32_sub_int x.table_size s.table_record }
    match record_loop x.block_size vec_table x.block_size.toNat s1 with
    | none => none
    | some s2 =>
      if s2.table_record = 0 then
        some ({ _wavecap_table_reset_phase x with table_record := s2.table_record },
          { s2 with table := 0 })
      else
        some ({ x with table_record := s2.table_record }, s2)
  else
    some (x, s)

/-- The dsp callback on the object `x`, the vector of the table inlet
`vec_table`, the vector of the envelope inlet `vec_env`; returns the object
after the call and the output vector. -/
def wavecap_perform (x : t_wavecap F) (vec_table vec_env : List F) :
    Option (t_wavecap F × List F) :=
  let n : Int := x.block_size
  let s0 : perform_vars F :=
    { mem := x.table
      table := 0
      in_table := 0
      in_env := 0
      out := []
      table_record := x.table_record
      n_computed := 0
      env_last := x.env_last
      phase := x.phase
      phaseIncrement := x.phaseIncrement }
  match record_block x vec_table s0 with
  | none => none
  | some (x1, s1) =>
    let s2 : perform_vars F := { s1 with in_env := s1.in_env + s1.n_computed.toNat }
    match play_loop x n vec_env (n - s2.n_computed).toNat s2 with
    | none => none
    | some s3 =>
      some ({ x1 with
          table := s3.mem
          env_last := s3.env_last
          phase := s3.phase
          phaseIncrement := s3.phaseIncrement }, s3.out)


/-! ## Auxiliary notions used to state the theorems -/

/-- Memory after the values `vals` have been stored one after the other from
offset `off` on (stores as in the recording loop). -/
def write_run : List F → Nat → List F → List F
  | mem, _, [] => mem
  | mem, off, v :: vals => write_run (mem.set off v) (off + 1) vals

/-- The playback loop as a function of the control samples it consumes: from
the follower memory `env_last` and the phase `phase`, one round of the loop
body per control sample (follower statement, phase increment, interpolated
sample read from `mem`, phase advance and wrap).  Returns the samples written
and the follower memory, phase and phase increment after the last round;
`phaseIncrement` is returned as it is when no sample is consumed. -/
def oscillator (x : t_wavecap F) (mem : List F) : F → F → F → List F → Option (List F × F × F × F)
  | env_last, phase, phaseIncrement, [] => some ([], env_last, phase, phaseIncrement)
  | env_last, phase, _, c :: cs =>
    match interpolate x.table_interp x.table_mask mem phase,
        wrap_phase x.table_size (phase + |envelope x env_last c| * (x.table_size : F)) with
    | some o, some p =>
      match oscillator x mem (envelope x env_last c) p
          (|envelope x env_last c| * (x.table_size : F)) cs with
      | some (os, e1, p1, q1) => some (o :: os, e1, p1, q1)
      | none => none
    | _, _ => none

/-- The two objects agree on the fields the playback loop reads. -/
def same_settings (x y : t_wavecap F) : Prop :=
  x.table_size = y.table_size ∧ x.table_mask = y.table_mask ∧
  x.table_interp = y.table_interp ∧ x.env_enabled = y.env_enabled ∧
  x.env_atk_coeff = y.env_atk_coeff ∧ x.env_dcy_coeff = y.env_dcy_coeff

/-- The table invariant: the block behind `x->table` has `table_size` floats,
the mask is `table_size - 1`, and `table_size` is a power of two that fits
`uint32_t`. -/
def table_ok (x : t_wavecap F) : Prop :=
  x.table.length = x.table_size ∧ x.table_mask = x.table_size - 1 ∧
  (∃ e : Nat, x.table_size = 2 ^ e) ∧ x.table_size < 4294967296

/-- One audio block handed over by the host: the sample rate announced for it
and the vectors of the two signal inlets.  The vector size is the length of
`vec_table`. -/
structure block (F : Type) where
  sr : F
  vec_table : List F
  vec_env : List F

/-- Both inlet vectors of a block have the same size. -/
def block_ok (b : block F) : Prop :=
  b.vec_env.length = b.vec_table.length

/-- One process call on a block: the host announces the vector size through
the `dsp` callback and then runs the dsp callback `wavecap_perform`. -/
def process (m : libm F) (x : t_wavecap F) (b : block F) : Option (t_wavecap F × List F) :=
  wavecap_perform (wavecap_dsp m x b.sr b.vec_table.length) b.vec_table b.vec_env

/-- A sequence of process calls, nothing else in between. -/
def process_all (m : libm F) : t_wavecap F → List (block F) → Option (t_wavecap F)
  | x, [] => some x
  | x, b :: bs =>
    match process m x b with
    | none => none
    | some r => process_all m r.1 bs

/-- The raw-input samples of a sequence of blocks, in order. -/
def raw_input : List (block F) → List F
  | [] => []
  | b :: bs => b.vec_table ++ raw_input bs

/-- The number of samples in a sequence of blocks. -/
def total_samples : List (block F) → Nat
  | [] => 0
  | b :: bs => b.vec_table.length + total_samples bs

/-- A concrete `<math.h>` over the rationals for the worked examples: the
values of `exp`, `log` and `NAN` play no role in the table logic. -/
def demo_libm : libm ℚ :=
  { exp := fun _ => 1 / 2, log := fun _ => -1, NAN := 0 }

/-- A freshly constructed object. -/
def demo_new : t_wavecap ℚ :=
  wavecap_new demo_libm 0

/-- The states an object can be in: constructed by `wavecap_new`, then any
sequence of messages, `dsp` callbacks and returning process calls. -/
inductive reachable (m : libm F) : t_wavecap F → Prop where
  | new (f : F) : reachable m (wavecap_new m f)
  | bang {x : t_wavecap F} : reachable m x → reachable m (wavecap_table_record x)
  | table_size {x : t_wavecap F} (f : F) :
      reachable m x → reachable m (wavecap_table_size x f).1
  | table_interp {x : t_wavecap F} (f : F) :
      reachable m x → reachable m (wavecap_table_interp x f).1
  | env_atk_ms {x : t_wavecap F} (f : F) :
      reachable m x → reachable m (wavecap_env_atk_ms m x f)
  | env_dcy_ms {x : t_wavecap F} (f : F) :
      reachable m x → reachable m (wavecap_env_dcy_ms m x f)
  | env_enable {x : t_wavecap F} : reachable m x → reachable m (wavecap_env_enable x)
  | env_disable {x : t_wavecap F} : reachable m x → reachable m (wavecap_env_disable x)
  | dsp {x : t_wavecap F} (sr : F) (s_n : Int) :
      reachable m x → reachable m (wavecap_dsp m x sr s_n)
  | perform {x x1 : t_wavecap F} (vec_table vec_env out : List F) :
      reachable m x → wavecap_perform x vec_table vec_env = some (x1, out) →
      reachable m x1

/-- An object with a table of 8 samples in the middle of a capture: 5 samples
recorded, countdown 3, block size 8. -/
def demo_capture3 : t_wavecap ℚ :=
  { wavecap_dsp demo_libm (wavecap_table_size demo_new 8).1 44100 8 with
    table_record := 3
    table := [1, 2, 3, 4, 5, 0, 0, 0] }

/-- An Idle object with the table [0, 1, 2, 3], phase 1.5, block size 1. -/
def demo_table4 : t_wavecap ℚ :=
  { wavecap_dsp demo_libm (wavecap_table_size demo_new 4).1 44100 1 with
    table := [0, 1, 2, 3]
    phase := 3 / 2 }

/-- The object after one process call of one sample with control value 1/2 on a
fresh object (table size 1024, envelope follower off): the phase is 512. -/
def demo_played : t_wavecap ℚ :=
  { wavecap_dsp demo_libm demo_new 44100 1 with
    env_last := 1 / 2
    phase := 512
    phaseIncrement := 512 }

/-- An Idle object with the envelope follower on, attack and decay coefficient
1/2 (the value `demo_libm` computes), follower memory 1, block size 3. -/
def demo_follow : t_wavecap ℚ :=
  { wavecap_env_enable (wavecap_dsp demo_libm demo_new 44100 3) with env_last := 1 }

/-- The `lin_4` expression of the `switch`, as a function of the four taps and
the fraction `fr`. -/
def lin_4_poly (inm1 in0 inp1 inp2 fr : F) : F :=
  in0 + 1 / 2 * fr * (inp1 - inm1 +
    fr * (4 * inp1 + 2 * inm1 - 5 * in0 - inp2 +
    fr * (3 * (in0 - inp1) - inm1 + inp2)))

/-- An object with a table of 8 samples in the middle of a capture: a block of
3 samples recorded after `bang`, countdown 5. -/
def demo_capture5 : t_wavecap ℚ :=
  { wavecap_dsp demo_libm (wavecap_table_record (wavecap_table_size demo_new 8).1) 44100 3 with
    table_record := 5
    table := [1, 2, 3, 0, 0, 0, 0, 0] }

end Wavecap

/-! # blend~ : blend of two signals under a control signal

A shallow embedding of `src/blend~/blend~.c`.  The signal vectors are lists, a
read outside a vector makes the embedding return `none`, and the vector size
`n` is a natural number. -/

namespace Blend

variable {F : Type} [LinearOrderedField F] [FloorRing F]

/-- The object `struct _blend` (without the Pd object header). -/
structure t_blend (F : Type) where
  gain_ctrl : F
  deriving DecidableEq

/-- The constructor `blend_new`. -/
def blend_new : t_blend F :=
  { gain_ctrl := 1 }

/-- The sample written to `out` in one round of the loop of `blend_perform`,
from the control sample `c` and the two audio samples read in that round. -/
def blend_frame (gain_ctrl c sig1 sig2 : F) : F :=
  let ctrl : F := c * gain_ctrl
  let ctrl : F := if ctrl > 1 then 1 else if ctrl < -1 then -1 else ctrl
  let a : F := ctrl + 1
  let b : F := |ctrl - 1|
  (a * sig1 + b * sig2) / 2

/-- The loop `while (n--)` of `blend_perform`; `out` is what has been written
through `out` so far. -/
def blend_loop (gain_ctrl : F) (in_ctrl in_sig1 in_sig2 : List F) :
    Nat → Nat → List F → Option (List F)
  | 0, _, out => some out
  | n + 1, sample_current_idx, out =>
    match in_ctrl[sample_current_idx]?, in_sig1[sample_current_idx]?,
        in_sig2[sample_current_idx]? with
    | some c, some sig1, some sig2 =>
      blend_loop gain_ctrl in_ctrl in_sig1 in_sig2 n (sample_current_idx + 1)
        (out ++ [blend_frame gain_ctrl c sig1 sig2])
    | _, _, _ => none

/-- The dsp callback on the object `x`, the three inlet vectors and the vector
size `n`; returns the output vector. -/
def blend_perform (x : t_blend F) (in_ctrl in_sig1 in_sig2 : List F) (n : Nat) :
    Option (List F) :=
  blend_loop x.gain_ctrl in_ctrl in_sig1 in_sig2 n 0 []

end Blend

/-! # folder~ : wave folder over two threshold signals

A shallow embedding of `src/folder~/folder~.c`, with the conventions of
blend~.  The flag `folded_current` of the loop is assigned and never read and
is left out. -/

namespace Folder

variable {F : Type} [LinearOrderedField F] [FloorRing F]

/-- The object `struct _folder` (without the Pd object header). -/
structure t_folder (F : Type) where
  gain : F
  deriving DecidableEq

/-- Receiver of `gain f`. -/
def folder_gain (x : t_folder F) (f : F) : t_folder F :=
  { x with gain := f }

/-- The constructor `folder_new`. -/
def folder_new (f : F) : t_folder F :=
  { gain := f }

/-- The sample written to `out` in one round of the loop of `folder_perform`,
from the three samples read in that round. -/
def folder_frame (gain sig lower_thresh upper_thresh : F) : F :=
  let frame_current_lower_thresh : F := lower_thresh * gain
  let frame_current_upper_thresh : F := upper_thresh * gain
  let frame_current_sig : F := sig * gain
  let frame_current_folded : F := frame_current_sig
  let below_lower_thresh : F := frame_current_lower_thresh - frame_current_sig
  let frame_current_folded : F :=
    if below_lower_thresh > 0 then frame_current_lower_thresh + below_lower_thresh
    else frame_current_folded
  let above_upper_thresh : F := frame_current_sig - frame_current_upper_thresh
  let frame_current_folded : F :=
    if above_upper_thresh > 0 then frame_current_upper_thresh - above_upper_thresh
    else frame_current_folded
  frame_current_folded

/-- The loop `while (n--)` of `folder_perform`; `out` is what has been written
through `out` so far. -/
def folder_loop (gain : F) (in_sig in_lower_thresh in_upper_thresh : List F) :
    Nat → Nat → List F → Option (List F)
  | 0, _, out => some out
  | n + 1, frame_current_idx, out =>
    match in_lower_thresh[frame_current_idx]?, in_upper_thresh[frame_current_idx]?,
        in_sig[frame_current_idx]? with
    | some lower_thresh, some upper_thresh, some sig =>
      folder_loop gain in_sig in_lower_thresh in_upper_thresh n (frame_current_idx + 1)
        (out ++ [folder_frame gain sig lower_thresh upper_thresh])
    | _, _, _ => none

/-- The dsp callback on the object `x`, the three inlet vectors and the vector
size `n`; returns the output vector. -/
def folder_perform (x : t_folder F) (in_sig in_lower_thresh in_upper_thresh : List F)
    (n : Nat) : Option (List F) :=
  folder_loop x.gain in_sig in_lower_thresh in_upper_thresh n 0 []

end Folder

/-! # wraparound~ : amplitude wraparound with optional softening

A shallow embedding of `src/wraparound~/wraparound~.c`, with the conventions
of blend~ and these additions.

* `t_int` values are integers; the conversion to `int` where a `t_int` field
  is copied into an `int` variable is written out (`int_of_long`).
* The block behind `x->soften_buffer` is the list `soften_buffer`; `NULL` is
  the empty list, and `calloc` is assumed to succeed.
* `pow (a, i)` with an integer `i` that is not negative is the power `a ^ i`;
  `NAN` is a parameter.
* A loop that never ends makes the embedding return `none`. -/

namespace Wraparound

variable {F : Type} [LinearOrderedField F] [FloorRing F]

/-- The object `struct _wraparound` (without the Pd object header). -/
structure t_wraparound (F : Type) where
  gain : F
  hard : Int
  soften_n : Int
  soften_buffer_idx : Int
  soften_buffer : List F
  soften_alpha : F
  soften_buffer_active_n : Int
  wrapped_last : Int
  deriving DecidableEq

/-- The conversion from `t_int` to `int` (32-bit two's complement). -/
def int_of_long (z : Int) : Int :=
  (z + 2147483648) % 4294967296 - 2147483648

/-- The read `buffer[i]`. -/
def buffer_read (buffer : List F) (i : Int) : Option F :=
  if 0 ≤ i then buffer[i.toNat]? else none

/-- Push of a frame onto the soften buffer. -/
def soften_buffer_push (x : t_wraparound F) (frame : F) : Option (t_wraparound F) :=
  if 0 ≤ x.soften_buffer_idx ∧ x.soften_buffer_idx.toNat < x.soften_buffer.length then
    let x1 : t_wraparound F :=
      { x with
        soften_buffer := x.soften_buffer.set x.soften_buffer_idx.toNat frame
        soften_buffer_idx := x.soften_buffer_idx + 1 }
    if x1.soften_buffer_idx ≥ x1.soften_n then
      some { x1 with soften_buffer_idx := 0 }
    else some x1
  else none

/-- The two loops of `calculate_exponential_moving_average_fast` have the same
body and differ in the condition `cond` on `i` only; the state is `i`,
`soften_buffer_idx`, `dividend`, `divisor`. -/
def ema_fast_loop (x : t_wraparound F) (cond : Int → Bool) :
    Nat → Int → Int → F → F → Option (Int × Int × F × F)
  | 0, i, soften_buffer_idx, dividend, divisor =>
    if cond i then none else some (i, soften_buffer_idx, dividend, divisor)
  | fuel + 1, i, soften_buffer_idx, dividend, divisor =>
    if cond i then
      match buffer_read x.soften_buffer soften_buffer_idx with
      | none => none
      | some frame =>
        let i_alpha : F := x.soften_alpha ^ i.toNat
        ema_fast_loop x cond fuel (i + 1) (soften_buffer_idx - 1)
          (dividend + i_alpha * frame) (divisor + i_alpha)
    else some (i, soften_buffer_idx, dividend, divisor)

/-- The average that walks the circular buffer itself. -/
def calculate_exponential_moving_average_fast (x : t_wraparound F) : Option F :=
  let soften_n : Int := int_of_long x.soften_n
  let soften_buffer_idx : Int := x.soften_buffer_idx - 1
  let soften_buffer_idx_before_add : Int := soften_buffer_idx
  match ema_fast_loop x (fun i => decide (i ≤ soften_buffer_idx_before_add))
      (soften_buffer_idx_before_add + 1).toNat 0 soften_buffer_idx 0 0 with
  | none => none
  | some (i, soften_buffer_idx, dividend, divisor) =>
    let soften_buffer_idx : Int := soften_buffer_idx + soften_n
    match ema_fast_loop x (fun i => decide (i < soften_n)) (soften_n - i).toNat i
        soften_buffer_idx dividend divisor with
    | none => none
    | some (_, _, dividend, divisor) => some (dividend / divisor)

/-- Receiver of `hard`. -/
def wraparound_hard (x : t_wraparound F) : t_wraparound F :=
  { x with hard := 1 }

/-- Receiver of `gain f`. -/
def wraparound_gain (x : t_wraparound F) (f : F) : t_wraparound F :=
  { x with gain := f }

/-- The constructor `wraparound_new`. -/
def wraparound_new (f : F) : t_wraparound F :=
  { gain := f
    hard := 1
    soften_n := 0
    soften_buffer_idx := 0
    soften_buffer := []
    soften_alpha := 0
    soften_buffer_active_n := 0
    wrapped_last := 0 }

/-- The loop `while (frame < -1.0f) { frame += 2.0f; wrapped_current = 1; }`. -/
def wrap_low_loop : Nat → F → Int → Option (F × Int)
  | 0, frame, wrapped_current => if frame < -1 then none else some (frame, wrapped_current)
  | fuel + 1, frame, wrapped_current =>
    if frame < -1 then wrap_low_loop fuel (frame + 2) 1 else some (frame, wrapped_current)

/-- The loop `while (frame > 1.0f) { frame -= 2.0f; wrapped_current = 1; }`. -/
def wrap_high_loop : Nat → F → Int → Option (F × Int)
  | 0, frame, wrapped_current => if frame > 1 then none else some (frame, wrapped_current)
  | fuel + 1, frame, wrapped_current =>
    if frame > 1 then wrap_high_loop fuel (frame - 2) 1 else some (frame, wrapped_current)

/-- The statements `wrapped_current = 0;` and the two wrap loops, run for as
many rounds as the frame needs: the wrapped frame and `wrapped_current`. -/
def wrap_frame (frame : F) : Option (F × Int) :=
  match wrap_low_loop ⌈(-1 - frame) / 2⌉.toNat frame 0 with
  | none => none
  | some (frame, wrapped_current) =>
    wrap_high_loop ⌈(frame - 1) / 2⌉.toNat frame wrapped_current

/-- The loop `while (n--)` of the hard branch; `out` is what has been written
through `out` so far, the last component is `wrapped_current`. -/
def hard_loop (gain : F) (vec_in : List F) : Nat → Nat → List F → Int → Option (List F × Int)
  | 0, _, out, wrapped_current => some (out, wrapped_current)
  | n + 1, frame_current_idx, out, _ =>
    match vec_in[frame_current_idx]? with
    | none => none
    | some s =>
      match wrap_frame (s * gain) with
      | none => none
      | some (frame_current, wrapped_current) =>
        hard_loop gain vec_in n (frame_current_idx + 1) (out ++ [frame_current])
          wrapped_current

/-- The loop `while (n--)` of the soften branch, on the object, the output
written so far, `wrapped_last` and `wrapped_current`. -/
def soften_loop (gain : F) (soften_n : Int) (vec_in : List F) :
    Nat → Nat → t_wraparound F → List F → Int → Int → Option (t_wraparound F × List F × Int)
  | 0, _, x, out, _, wrapped_current => some (x, out, wrapped_current)
  | n + 1, frame_current_idx, x, out, wrapped_last, _ =>
    match vec_in[frame_current_idx]? with
    | none => none
    | some s =>
      match wrap_frame (s * gain) with
      | none => none
      | some (frame_current_wrapped, wrapped_current) =>
        match soften_buffer_push x frame_current_wrapped with
        | none => none
        | some x1 =>
          let x2 : t_wraparound F :=
            if Int.xor wrapped_current wrapped_last ≠ 0 then
              { x1 with soften_buffer_active_n := 0 }
            else x1
          if x2.soften_buffer_active_n < soften_n then
            match calculate_exponential_moving_average_fast x2 with
            | none => none
            | some frame_current =>
              soften_loop gain soften_n vec_in n (frame_current_idx + 1)
                { x2 with soften_buffer_active_n := x2.soften_buffer_active_n + 1 }
                (out ++ [frame_current]) wrapped_current wrapped_current
          else
            soften_loop gain soften_n vec_in n (frame_current_idx + 1) x2
              (out ++ [frame_current_wrapped]) wrapped_current wrapped_current

/-- The dsp callback on the object `x`, the inlet vector `vec_in` and the
vector size `n`; returns the object after the call and the output vector. -/
def wraparound_perform (x : t_wraparound F) (vec_in : List F) (n : Nat) :
    Option (t_wraparound F × List F) :=
  let gain : F := x.gain
  let wrapped_last : Int := int_of_long x.wrapped_last
  let hard : Int := int_of_long x.hard
  let soften_n : Int := int_of_long x.soften_n
  if hard ≠ 0 then
    match hard_loop gain vec_in n 0 [] 0 with
    | none => none
    | some (out, wrapped_current) => some ({ x with wrapped_last := wrapped_current }, out)
  else
    match soften_loop gain soften_n vec_in n 0 x [] wrapped_last 0 with
    | none => none
    | some (x1, out, wrapped_current) =>
      some ({ x1 with wrapped_last := wrapped_current }, out)

/-! ## Auxiliary notions used to state the theorems -/

end Wraparound

/-! # wavecap~ : theorems -/

namespace Wavecap

variable {F : Type} [LinearOrderedField F] [FloorRing F]

/-! ## Bounds of the masked index -/

theorem ldiff_le_left (m k : Nat) : Nat.ldiff m k ≤ m := by
  have h : Nat.ldiff m k &&& m = Nat.ldiff m k := by
    apply Nat.eq_of_testBit_eq
    intro i
    rw [Nat.testBit_and, Nat.testBit_ldiff]
    cases Nat.testBit m i <;> cases Nat.testBit k i <;> rfl
  calc Nat.ldiff m k = Nat.ldiff m k &&& m := h.symm
    _ ≤ m := Nat.and_le_right

theorem land_mask_bounds (a : Int) (m : Nat) :
    0 ≤ Int.land a m ∧ Int.land a m ≤ m := by
  cases a with
  | ofNat n =>
    show 0 ≤ ((n &&& m : Nat) : Int) ∧ ((n &&& m : Nat) : Int) ≤ m
    exact ⟨Int.ofNat_nonneg _, Int.ofNat_le.mpr Nat.and_le_right⟩
  | negSucc n =>
    show 0 ≤ ((Nat.ldiff m n : Nat) : Int) ∧ ((Nat.ldiff m n : Nat) : Int) ≤ m
    exact ⟨Int.ofNat_nonneg _, Int.ofNat_le.mpr (ldiff_le_left m n)⟩

theorem wavetable_read_land (wavetable : List F) (a : Int) (m : Nat)
    (h : m < wavetable.length) :
    ∃ v, wavetable_read wavetable (Int.land a m) = some v := by
  obtain ⟨h0, h1⟩ := land_mask_bounds a m
  have hlt : (Int.land a m).toNat < wavetable.length := by omega
  refine ⟨wavetable[(Int.land a m).toNat], ?_⟩
  simp [wavetable_read, h0, List.getElem?_eq_getElem hlt]

theorem interpolate_total (table_interp : Int) (m : Nat) (wavetable : List F) (phase : F)
    (h : m < wavetable.length) :
    ∃ v, interpolate table_interp m wavetable phase = some v := by
  unfold interpolate
  split_ifs with h0 h1 h2
  · exact wavetable_read_land wavetable _ m h
  · obtain ⟨a, ha⟩ := wavetable_read_land wavetable (cast_long phase) m h
    obtain ⟨b, hb⟩ := wavetable_read_land wavetable (Int.land (cast_long phase) m + 1) m h
    simp only [ha, hb]
    exact ⟨_, rfl⟩
  · obtain ⟨a, ha⟩ := wavetable_read_land wavetable (cast_long phase - 1) m h
    obtain ⟨b, hb⟩ := wavetable_read_land wavetable (cast_long phase + 0) m h
    obtain ⟨c, hc⟩ := wavetable_read_land wavetable (cast_long phase + 1) m h
    obtain ⟨d, hd⟩ := wavetable_read_land wavetable (cast_long phase + 2) m h
    simp only [ha, hb, hc, hd]
    exact ⟨_, rfl⟩
  · exact ⟨0, rfl⟩

/-! ## The wrap loops end for a positive size -/

theorem wrap_down_loop_spec (size : F) :
    ∀ (fuel : Nat) (phase : F), phase < size * (fuel + 1) →
      ∃ j : Nat, wrap_down_loop size fuel phase = some (phase - j * size) ∧
        phase - j * size < size ∧ (j = 0 ∨ 0 ≤ phase - j * size) := by
  intro fuel
  induction fuel with
  | zero =>
    intro phase h
    have hlt : phase < size := by simpa using h
    exact ⟨0, by simp [wrap_down_loop, not_le.mpr hlt], by simpa using hlt, Or.inl rfl⟩
  | succ k ih =>
    intro phase h
    by_cases hc : phase ≥ size
    · have h2 : phase - size < size * (k + 1) := by
        push_cast at h
        linarith
      obtain ⟨j, hj, hlt, hnn⟩ := ih (phase - size) h2
      refine ⟨j + 1, ?_, ?_, Or.inr ?_⟩
      · rw [wrap_down_loop, if_pos hc, hj]
        congr 1
        push_cast
        ring
      · have : phase - ((j + 1 : Nat) : F) * size = phase - size - j * size := by
          push_cast
          ring
        rw [this]
        exact hlt
      · have : phase - ((j + 1 : Nat) : F) * size = phase - size - j * size := by
          push_cast
          ring
        rw [this]
        rcases hnn with h0 | h0
        · subst h0
          simp only [Nat.cast_zero, zero_mul, sub_zero]
          linarith
        · exact h0
    · have hlt : phase < size := not_le.mp hc
      exact ⟨0, by simp [wrap_down_loop, hc], by simpa using hlt, Or.inl rfl⟩

theorem wrap_up_loop_spec (size : F) :
    ∀ (fuel : Nat) (phase : F), -phase ≤ size * fuel →
      ∃ j : Nat, wrap_up_loop size fuel phase = some (phase + j * size) ∧
        0 ≤ phase + j * size ∧ (j = 0 ∨ phase + j * size < size) := by
  intro fuel
  induction fuel with
  | zero =>
    intro phase h
    have hnn : 0 ≤ phase := by
      simp only [Nat.cast_zero, mul_zero] at h
      linarith
    exact ⟨0, by simp [wrap_up_loop, not_lt.mpr hnn], by simpa using hnn, Or.inl rfl⟩
  | succ k ih =>
    intro phase h
    by_cases hc : phase < 0
    · have h2 : -(phase + size) ≤ size * k := by
        push_cast at h
        linarith
      obtain ⟨j, hj, hnn, hlt⟩ := ih (phase + size) h2
      have e : phase + ((j + 1 : Nat) : F) * size = phase + size + j * size := by
        push_cast
        ring
      refine ⟨j + 1, ?_, ?_, Or.inr ?_⟩
      · rw [wrap_up_loop, if_pos hc, hj, e]
      · rw [e]
        exact hnn
      · rw [e]
        rcases hlt with h0 | h0
        · subst h0
          simp only [Nat.cast_zero, zero_mul, add_zero]
          linarith
        · exact h0
    · have hnn : 0 ≤ phase := not_lt.mp hc
      exact ⟨0, by simp [wrap_up_loop, hc], by simpa using hnn, Or.inl rfl⟩

theorem wrap_phase_spec (table_size : Nat) (hs : 0 < table_size) (phase : F) :
    ∃ p : F, wrap_phase table_size phase = some p ∧ 0 ≤ p ∧ p < table_size ∧
      ∃ z : Int, p = phase + z * table_size := by
  have hpos : (0 : F) < (table_size : F) := by exact_mod_cast hs
  have hfuel : phase < (table_size : F) * ((⌊phase / (table_size : F)⌋.toNat : F) + 1) := by
    have h1 : phase / (table_size : F) < (⌊phase / (table_size : F)⌋ : F) + 1 :=
      Int.lt_floor_add_one _
    have h2 : (⌊phase / (table_size : F)⌋ : F) ≤ (⌊phase / (table_size : F)⌋.toNat : F) := by
      have := Int.self_le_toNat ⌊phase / (table_size : F)⌋
      exact_mod_cast this
    have h3 : phase / (table_size : F) < (⌊phase / (table_size : F)⌋.toNat : F) + 1 := by
      linarith
    rw [div_lt_iff₀ hpos] at h3
    linarith
  obtain ⟨j, hj, hlt, hnn⟩ := wrap_down_loop_spec (table_size : F) _ phase hfuel
  set p1 := phase - j * (table_size : F) with hp1
  have hfuel2 : -p1 ≤ (table_size : F) * (⌈-p1 / (table_size : F)⌉.toNat : F) := by
    have h1 : -p1 / (table_size : F) ≤ (⌈-p1 / (table_size : F)⌉ : F) := Int.le_ceil _
    have h2 : (⌈-p1 / (table_size : F)⌉ : F) ≤ (⌈-p1 / (table_size : F)⌉.toNat : F) := by
      have := Int.self_le_toNat ⌈-p1 / (table_size : F)⌉
      exact_mod_cast this
    have h3 : -p1 / (table_size : F) ≤ (⌈-p1 / (table_size : F)⌉.toNat : F) := by
      linarith
    rw [div_le_iff₀ hpos] at h3
    linarith
  obtain ⟨i, hi, hnn2, hlt2⟩ := wrap_up_loop_spec (table_size : F) _ p1 hfuel2
  refine ⟨p1 + i * (table_size : F), ?_, hnn2, ?_, (i : Int) - j, ?_⟩
  · simp only [wrap_phase, hj, Option.some_bind]
    exact hi
  · rcases hlt2 with h0 | h0
    · subst h0
      simpa using hlt
    · exact h0
  · rw [hp1]
    push_cast
    ring

/-! ## Stores of a recording run -/

theorem write_run_length (vals : List F) : ∀ (mem : List F) (off : Nat),
    (write_run mem off vals).length = mem.length := by
  induction vals with
  | nil => intro mem off; rfl
  | cons v vs ih => intro mem off; simp [write_run, ih]

theorem write_run_append (a : List F) : ∀ (mem : List F) (off : Nat) (b : List F),
    write_run mem off (a ++ b) = write_run (write_run mem off a) (off + a.length) b := by
  induction a with
  | nil => intro mem off b; simp [write_run]
  | cons v vs ih =>
    intro mem off b
    rw [List.cons_append, write_run, write_run, ih, List.length_cons,
      show off + 1 + vs.length = off + (vs.length + 1) by omega]

theorem write_run_getElem? (vals : List F) : ∀ (mem : List F) (off j : Nat),
    off + vals.length ≤ mem.length →
    (write_run mem off vals)[j]? =
      if off ≤ j ∧ j < off + vals.length then vals[j - off]? else mem[j]? := by
  induction vals with
  | nil =>
    intro mem off j _
    rw [if_neg (fun c => by simp only [List.length_nil] at c; omega)]
    rfl
  | cons v vs ih =>
    intro mem off j h
    simp only [List.length_cons] at h
    rw [write_run, ih (mem.set off v) (off + 1) j (by simp; omega)]
    by_cases h1 : off + 1 ≤ j
    · have e : j - off = (j - (off + 1)) + 1 := by omega
      by_cases h2 : j < off + 1 + vs.length
      · rw [if_pos ⟨h1, h2⟩, if_pos ⟨by omega, by simp only [List.length_cons]; omega⟩, e,
          List.getElem?_cons_succ]
      · rw [if_neg (fun c => h2 c.2),
          if_neg (fun c => h2 (by have := c.2; simp only [List.length_cons] at this; omega))]
        rw [List.getElem?_set_ne (by omega)]
    · rw [if_neg (fun c => h1 c.1)]
      by_cases h3 : off = j
      · subst h3
        rw [if_pos ⟨le_refl _, by simp⟩]
        simp only [Nat.sub_self, List.getElem?_cons_zero]
        rw [List.getElem?_set_self (by omega)]
      · rw [if_neg (fun c => by omega), List.getElem?_set_ne h3]

theorem write_run_all (vals mem : List F) (h : vals.length = mem.length) :
    write_run mem 0 vals = vals := by
  apply List.ext_getElem?
  intro j
  rw [write_run_getElem? vals mem 0 j (by omega)]
  by_cases hj : j < vals.length
  · rw [if_pos ⟨Nat.zero_le _, by omega⟩, Nat.sub_zero]
  · rw [if_neg (fun c => hj (by omega))]
    rw [List.getElem?_eq_none (by omega), List.getElem?_eq_none (by omega)]

/-! ## The recording loop -/

theorem record_loop_spec (n : Int) (vec_table : List F) :
    ∀ (k fuel : Nat) (s : perform_vars F),
      (k ≠ 0 → (k : Int) ≤ s.table_record ∧ (k : Int) ≤ n - s.n_computed) →
      (s.table_record ≤ k ∨ n - s.n_computed ≤ k) →
      s.in_table + k ≤ vec_table.length → s.table + k ≤ s.mem.length → k ≤ fuel →
      record_loop n vec_table fuel s = some
        { s with
          mem := write_run s.mem s.table ((vec_table.drop s.in_table).take k)
          table := s.table + k
          in_table := s.in_table + k
          table_record := s.table_record - k
          out := s.out ++ List.replicate k 0
          n_computed := s.n_computed + k } := by
  intro k
  induction k with
  | zero =>
    intro fuel s _ h3 _ _ _
    have hc : ¬ (s.table_record > 0 ∧ s.n_computed < n) := by
      rintro ⟨c1, c2⟩
      simp only [Nat.cast_zero] at h3
      omega
    cases fuel <;> simp [record_loop, hc, write_run]
  | succ k ih =>
    intro fuel s h12 h3 h4 h5 h6
    obtain ⟨h1, h2⟩ := h12 (Nat.succ_ne_zero k)
    push_cast at h1 h2 h3
    have hc : s.table_record > 0 ∧ s.n_computed < n := by constructor <;> omega
    obtain ⟨fuel, rfl⟩ : ∃ f, fuel = f + 1 := ⟨fuel - 1, by omega⟩
    have hin : s.in_table < vec_table.length := by omega
    have hmem : s.table < s.mem.length := by omega
    rw [record_loop, if_pos hc]
    simp only [record_body, List.getElem?_eq_getElem hin, if_pos hmem, Option.some_bind]
    rw [ih fuel _ (fun _ => by dsimp only; omega) (by dsimp only; omega)
      (by dsimp only; omega) (by simp only [List.length_set]; omega) (by omega)]
    simp only [Option.some.injEq, perform_vars.mk.injEq, and_true, true_and]
    refine ⟨?_, by omega, by omega, ?_, by omega, by omega⟩
    · rw [List.drop_eq_getElem_cons hin, List.take_succ_cons, write_run]
    · rw [List.append_assoc, List.replicate_succ]
      rfl

/-! ## The playback loop -/

theorem play_body_spec (x : t_wavecap F) (vec_env : List F) (s : perform_vars F)
    (hsize : 0 < x.table_size) (hmask : x.table_mask < s.mem.length)
    (henv : s.in_env < vec_env.length) :
    ∃ (e p q o : F), 0 ≤ p ∧ p < x.table_size ∧
      play_body x vec_env s = some
        { s with
          in_env := s.in_env + 1
          env_last := e
          phaseIncrement := q
          out := s.out ++ [o]
          n_computed := s.n_computed + 1
          phase := p } := by
  obtain ⟨o, ho⟩ := interpolate_total x.table_interp x.table_mask s.mem s.phase hmask
  obtain ⟨p, hp, hp0, hp1, -⟩ := wrap_phase_spec x.table_size hsize
    (s.phase + |envelope x s.env_last vec_env[s.in_env]| * (x.table_size : F))
  refine ⟨envelope x s.env_last vec_env[s.in_env], p,
    |envelope x s.env_last vec_env[s.in_env]| * (x.table_size : F), o, hp0, hp1, ?_⟩
  simp only [play_body, List.getElem?_eq_getElem henv, ho, hp]

theorem play_loop_spec (x : t_wavecap F) (n : Int) (vec_env : List F)
    (hsize : 0 < x.table_size) :
    ∀ (fuel : Nat) (s : perform_vars F),
      x.table_mask < s.mem.length → n - s.n_computed ≤ fuel →
      (s.n_computed < n → s.in_env + (n - s.n_computed).toNat ≤ vec_env.length) →
      ∃ (e p q : F) (o : List F), o.length = (n - s.n_computed).toNat ∧
        (s.n_computed < n → 0 ≤ p ∧ p < x.table_size) ∧
        (¬ s.n_computed < n → e = s.env_last ∧ p = s.phase ∧ q = s.phaseIncrement) ∧
        play_loop x n vec_env fuel s = some
          { s with
            in_env := s.in_env + (n - s.n_computed).toNat
            env_last := e
            phaseIncrement := q
            out := s.out ++ o
            n_computed := s.n_computed + (n - s.n_computed).toNat
            phase := p } := by
  intro fuel
  induction fuel with
  | zero =>
    intro s _ hf _
    have hc : ¬ s.n_computed < n := by
      simp only [Nat.cast_zero] at hf
      omega
    have h0 : (n - s.n_computed).toNat = 0 := by omega
    refine ⟨s.env_last, s.phase, s.phaseIncrement, [], by simp [h0], fun c => absurd c hc,
      fun _ => ⟨rfl, rfl, rfl⟩, ?_⟩
    simp [play_loop, hc, h0]
  | succ k ih =>
    intro s hmask hf henv
    by_cases hc : s.n_computed < n
    · obtain ⟨j, hj⟩ : ∃ j : Nat, (n - s.n_computed).toNat = j + 1 :=
        ⟨(n - s.n_computed).toNat - 1, by omega⟩
      have henv2 := henv hc
      obtain ⟨e1, p1, q1, o1, hp0, hp1, hb⟩ :=
        play_body_spec x vec_env s hsize hmask (by omega)
      rw [play_loop, if_pos hc, hb, Option.some_bind]
      have hj2 : (n - (s.n_computed + 1)).toNat = j := by omega
      obtain ⟨e, p, q, o, hlen, hrun, hstop, hl⟩ := ih
        { s with
          in_env := s.in_env + 1
          env_last := e1
          phaseIncrement := q1
          out := s.out ++ [o1]
          n_computed := s.n_computed + 1
          phase := p1 } hmask
        (by dsimp only; push_cast at hf; omega) (fun _ => by dsimp only; omega)
      dsimp only at hlen hrun hstop hl
      refine ⟨e, p, q, o1 :: o, by simp [hlen, hj, hj2], fun _ => ?_, fun c => absurd hc c, ?_⟩
      · by_cases hc2 : s.n_computed + 1 < n
        · exact hrun hc2
        · obtain ⟨-, h2, -⟩ := hstop hc2
          rw [h2]
          exact ⟨hp0, hp1⟩
      · rw [hl]
        simp only [Option.some.injEq, perform_vars.mk.injEq, and_true, true_and,
          List.append_assoc, List.singleton_append, hj, hj2]
        refine ⟨by omega, by push_cast; omega⟩
    · have h0 : (n - s.n_computed).toNat = 0 := by omega
      refine ⟨s.env_last, s.phase, s.phaseIncrement, [], by simp [h0], fun c => absurd c hc,
        fun _ => ⟨rfl, rfl, rfl⟩, ?_⟩
      simp [play_loop, hc, h0]

theorem play_body_sim (x y : t_wavecap F) (hxy : same_settings x y) (ve ve2 : List F)
    (s t : perform_vars F) (hmem : s.mem = t.mem) (henv : s.env_last = t.env_last)
    (hphase : s.phase = t.phase) (hdrop : ve.drop s.in_env = ve2.drop t.in_env) :
    (play_body x ve s = none ∧ play_body y ve2 t = none) ∨
    ∃ (e p q o : F),
      play_body x ve s = some
        { s with
          in_env := s.in_env + 1
          env_last := e
          phaseIncrement := q
          out := s.out ++ [o]
          n_computed := s.n_computed + 1
          phase := p } ∧
      play_body y ve2 t = some
        { t with
          in_env := t.in_env + 1
          env_last := e
          phaseIncrement := q
          out := t.out ++ [o]
          n_computed := t.n_computed + 1
          phase := p } := by
  obtain ⟨h1, h2, h3, h4, h5, h6⟩ := hxy
  have hget : ve[s.in_env]? = ve2[t.in_env]? := by
    have := congrArg (fun l : List F => l[0]?) hdrop
    simpa [List.getElem?_drop] using this
  have henvl : ∀ a b : F, envelope x a b = envelope y a b := by
    intro a b
    simp only [envelope, h4, h5, h6]
  unfold play_body
  rw [hget, hmem, henv, hphase, h1, h2, h3]
  cases ve2[t.in_env]? with
  | none => exact Or.inl ⟨rfl, rfl⟩
  | some e =>
    dsimp only
    rw [henvl]
    cases interpolate y.table_interp y.table_mask t.mem t.phase with
    | none => exact Or.inl ⟨rfl, rfl⟩
    | some o =>
      dsimp only
      cases wrap_phase y.table_size
          (t.phase + |envelope y t.env_last e| * (y.table_size : F)) with
      | none => exact Or.inl ⟨rfl, rfl⟩
      | some p => exact Or.inr ⟨_, _, _, _, rfl, rfl⟩

theorem play_loop_sim (x y : t_wavecap F) (hxy : same_settings x y) (n n2 : Int)
    (ve ve2 : List F) :
    ∀ (fuel : Nat) (s t : perform_vars F), s.mem = t.mem → s.env_last = t.env_last →
      s.phase = t.phase → s.phaseIncrement = t.phaseIncrement →
      n - s.n_computed = n2 - t.n_computed → ve.drop s.in_env = ve2.drop t.in_env →
      (play_loop x n ve fuel s = none ∧ play_loop y n2 ve2 fuel t = none) ∨
      ∃ (s1 t1 : perform_vars F) (o : List F),
        play_loop x n ve fuel s = some s1 ∧ play_loop y n2 ve2 fuel t = some t1 ∧
        s1.out = s.out ++ o ∧ t1.out = t.out ++ o ∧ s1.mem = t1.mem ∧
        s1.env_last = t1.env_last ∧ s1.phase = t1.phase ∧
        s1.phaseIncrement = t1.phaseIncrement ∧
        s1.table_record = s.table_record ∧ t1.table_record = t.table_record := by
  intro fuel
  induction fuel with
  | zero =>
    intro s t hm he hp hq hn _
    by_cases hc : s.n_computed < n
    · have hc2 : t.n_computed < n2 := by omega
      exact Or.inl ⟨by simp [play_loop, hc], by simp [play_loop, hc2]⟩
    · have hc2 : ¬ t.n_computed < n2 := by omega
      exact Or.inr ⟨s, t, [], by simp [play_loop, hc], by simp [play_loop, hc2], by simp,
        by simp, hm, he, hp, hq, rfl, rfl⟩
  | succ k ih =>
    intro s t hm he hp hq hn hd
    by_cases hc : s.n_computed < n
    · have hc2 : t.n_computed < n2 := by omega
      rw [play_loop, if_pos hc, play_loop, if_pos hc2]
      rcases play_body_sim x y hxy ve ve2 s t hm he hp hd with ⟨hb1, hb2⟩ | ⟨e, p, q, o, hb1, hb2⟩
      · exact Or.inl ⟨by rw [hb1]; rfl, by rw [hb2]; rfl⟩
      · rw [hb1, hb2, Option.some_bind, Option.some_bind]
        have hd2 : ve.drop (s.in_env + 1) = ve2.drop (t.in_env + 1) := by
          rw [← List.drop_drop, ← List.drop_drop, hd]
        rcases ih
          { s with
            in_env := s.in_env + 1
            env_last := e
            phaseIncrement := q
            out := s.out ++ [o]
            n_computed := s.n_computed + 1
            phase := p }
          { t with
            in_env := t.in_env + 1
            env_last := e
            phaseIncrement := q
            out := t.out ++ [o]
            n_computed := t.n_computed + 1
            phase := p } hm rfl rfl rfl (by dsimp only; omega) hd2 with
          ⟨hl1, hl2⟩ | ⟨s1, t1, o2, hl1, hl2, ho1, ho2, hrest⟩
        · exact Or.inl ⟨hl1, hl2⟩
        · refine Or.inr ⟨s1, t1, o :: o2, hl1, hl2, ?_, ?_, hrest⟩
          · rw [ho1]; simp
          · rw [ho2]; simp
    · have hc2 : ¬ t.n_computed < n2 := by omega
      exact Or.inr ⟨s, t, [], by simp [play_loop, hc], by simp [play_loop, hc2], by simp,
        by simp, hm, he, hp, hq, rfl, rfl⟩

/-! ## One call of `wavecap_perform` -/

theorem uint32_sub_int_eq (u : Nat) (i : Int) (h0 : 0 ≤ i) (h1 : i ≤ u) (h2 : u < 4294967296) :
    uint32_sub_int u i = u - i.toNat := by
  unfold uint32_sub_int
  rw [Int.emod_eq_of_lt (by omega) (by omega)]
  omega

/-- A call is in its recording part for `k = min table_record n` samples and
in its playback part, started from the entry values of `env_last`, `phase` and
`phaseIncrement`, for the others. -/
theorem perform_eq (x : t_wavecap F) (vec_table vec_env : List F)
    (h : x.table_record ≤ 0 ∨ (x.table_record ≤ x.table_size ∧ x.table_size < 4294967296 ∧
      x.table.length = x.table_size ∧
      min x.table_record.toNat x.block_size.toNat ≤ vec_table.length)) :
    ∃ T I : Nat,
      wavecap_perform x vec_table vec_env =
        (play_loop x x.block_size vec_env
          (x.block_size - (min x.table_record.toNat x.block_size.toNat : Nat)).toNat
          { mem := write_run x.table (x.table_size - x.table_record.toNat)
              (vec_table.take (min x.table_record.toNat x.block_size.toNat))
            table := T
            in_table := I
            in_env := min x.table_record.toNat x.block_size.toNat
            out := List.replicate (min x.table_record.toNat x.block_size.toNat) 0
            table_record := x.table_record - (min x.table_record.toNat x.block_size.toNat : Nat)
            n_computed := (min x.table_record.toNat x.block_size.toNat : Nat)
            env_last := x.env_last
            phase := x.phase
            phaseIncrement := x.phaseIncrement }).map
          fun s3 =>
            ({ x with
                table_record :=
                  x.table_record - (min x.table_record.toNat x.block_size.toNat : Nat)
                table := s3.mem
                env_last := s3.env_last
                phase := s3.phase
                phaseIncrement := s3.phaseIncrement }, s3.out) := by
  by_cases hr : 0 < x.table_record
  · obtain ⟨h1, h2, h3, h4⟩ : x.table_record ≤ x.table_size ∧ x.table_size < 4294967296 ∧
        x.table.length = x.table_size ∧
        min x.table_record.toNat x.block_size.toNat ≤ vec_table.length := by
      rcases h with h | h
      · omega
      · exact h
    set k := min x.table_record.toNat x.block_size.toNat with hk
    have hoff : uint32_sub_int x.table_size x.table_record = x.table_size - x.table_record.toNat :=
      uint32_sub_int_eq _ _ (by omega) h1 h2
    have hloop := record_loop_spec x.block_size vec_table k x.block_size.toNat
      { mem := x.table
        table := 0 + uint32_sub_int x.table_size x.table_record
        in_table := 0
        in_env := 0
        out := []
        table_record := x.table_record
        n_computed := 0
        env_last := x.env_last
        phase := x.phase
        phaseIncrement := x.phaseIncrement }
      (fun _ => by dsimp only; omega) (by dsimp only; omega) (by dsimp only; omega)
      (by dsimp only; omega) (by omega)
    dsimp only at hloop
    by_cases hz : x.table_record - (k : Int) = 0
    · refine ⟨0, 0 + k, ?_⟩
      simp only [wavecap_perform, record_block, if_pos hr, hloop, if_pos hz,
        _wavecap_table_reset_phase]
      simp only [hoff, Nat.zero_add, List.drop_zero, List.nil_append, Int.toNat_ofNat,
        zero_add]
      cases play_loop x x.block_size vec_env (x.block_size - (k : Int)).toNat _ <;> rfl
    · refine ⟨0 + uint32_sub_int x.table_size x.table_record + k, 0 + k, ?_⟩
      simp only [wavecap_perform, record_block, if_pos hr, hloop, if_neg hz]
      simp only [hoff, Nat.zero_add, List.drop_zero, List.nil_append, Int.toNat_ofNat,
        zero_add]
      cases play_loop x x.block_size vec_env (x.block_size - (k : Int)).toNat _ <;> rfl
  · have hk : min x.table_record.toNat x.block_size.toNat = 0 := by omega
    refine ⟨0, 0, ?_⟩
    simp only [wavecap_perform, record_block, if_neg hr, hk, Nat.cast_zero, sub_zero,
      List.take_zero, write_run, List.replicate_zero, Int.toNat_zero, Nat.add_zero]
    cases play_loop x x.block_size vec_env x.block_size.toNat _ <;> rfl

theorem table_ok_pos (x : t_wavecap F) (h : table_ok x) :
    0 < x.table_size ∧ x.table_mask < x.table_size := by
  obtain ⟨-, h2, ⟨e, h3⟩, -⟩ := h
  have : 0 < x.table_size := by
    rw [h3]
    exact Nat.pos_pow_of_pos e (by decide)
  exact ⟨this, by omega⟩

/-- A call on a well-formed object whose countdown does not exceed the table
size returns, and this is what it returns. -/
theorem perform_spec (x : t_wavecap F) (vec_table vec_env : List F)
    (hsize : 0 < x.table_size) (hmask : x.table_mask < x.table_size)
    (hlen : x.table.length = x.table_size) (h32 : x.table_size < 4294967296)
    (hrec : x.table_record ≤ x.table_size)
    (hvt : min x.table_record.toNat x.block_size.toNat ≤ vec_table.length)
    (hve : x.table_record.toNat < x.block_size.toNat → x.block_size.toNat ≤ vec_env.length) :
    ∃ (e p q : F) (o : List F),
      o.length = x.block_size.toNat - min x.table_record.toNat x.block_size.toNat ∧
      (x.table_record.toNat < x.block_size.toNat → 0 ≤ p ∧ p < x.table_size) ∧
      (¬ x.table_record.toNat < x.block_size.toNat →
        e = x.env_last ∧ p = x.phase ∧ q = x.phaseIncrement) ∧
      wavecap_perform x vec_table vec_env = some
        ({ x with
            table_record :=
              x.table_record - (min x.table_record.toNat x.block_size.toNat : Nat)
            table := write_run x.table (x.table_size - x.table_record.toNat)
              (vec_table.take (min x.table_record.toNat x.block_size.toNat))
            env_last := e
            phase := p
            phaseIncrement := q },
          List.replicate (min x.table_record.toNat x.block_size.toNat) 0 ++ o) := by
  obtain ⟨T, I, heq⟩ := perform_eq x vec_table vec_env (Or.inr ⟨hrec, h32, hlen, hvt⟩)
  set k := min x.table_record.toNat x.block_size.toNat with hk
  have hwl : (write_run x.table (x.table_size - x.table_record.toNat)
      (vec_table.take k)).length = x.table_size := by
    rw [write_run_length, hlen]
  obtain ⟨e, p, q, o, hlen2, hrun, hstop, hl⟩ := play_loop_spec x x.block_size vec_env hsize
    (x.block_size - (k : Int)).toNat
    { mem := write_run x.table (x.table_size - x.table_record.toNat) (vec_table.take k)
      table := T
      in_table := I
      in_env := k
      out := List.replicate k 0
      table_record := x.table_record - (k : Int)
      n_computed := (k : Int)
      env_last := x.env_last
      phase := x.phase
      phaseIncrement := x.phaseIncrement }
    (by dsimp only; omega) (by dsimp only; omega) (fun c => by dsimp only at c ⊢; omega)
  dsimp only at hlen2 hrun hstop hl
  refine ⟨e, p, q, o, by omega, fun c => hrun (by omega), fun c => hstop (by omega), ?_⟩
  rw [heq, hl]
  rfl

/-! ## Sequences of process calls -/

theorem wavecap_dsp_frame (m : libm F) (x : t_wavecap F) (sr : F) (s_n : Int) :
    (wavecap_dsp m x sr s_n).block_size = s_n ∧
    (wavecap_dsp m x sr s_n).table_record = x.table_record ∧
    (wavecap_dsp m x sr s_n).table_size = x.table_size ∧
    (wavecap_dsp m x sr s_n).table_mask = x.table_mask ∧
    (wavecap_dsp m x sr s_n).table = x.table ∧
    (wavecap_dsp m x sr s_n).table_interp = x.table_interp ∧
    (wavecap_dsp m x sr s_n).phase = x.phase := by
  unfold wavecap_dsp _wavecap_env_dcy_coeff_recompute _wavecap_env_atk_coeff_recompute
  split_ifs <;> simp

theorem take_raw_input (vt rest : List F) (r : Nat) :
    (vt ++ rest).take (min r (vt.length + rest.length)) =
      vt.take (min r vt.length) ++ rest.take (min (r - min r vt.length) rest.length) := by
  rw [List.take_append_eq_append_take]
  by_cases h : r ≤ vt.length
  · rw [min_eq_left h, min_eq_left (by omega : r ≤ vt.length + rest.length)]
    simp [Nat.sub_eq_zero_of_le h]
  · have h2 : vt.length ≤ r := by omega
    rw [min_eq_right h2, List.take_of_length_le (by omega : vt.length ≤ min r (vt.length + rest.length)),
      List.take_of_length_le (le_refl _)]
    congr 2
    omega

theorem raw_input_length (blocks : List (block F)) :
    (raw_input blocks).length = total_samples blocks := by
  induction blocks with
  | nil => rfl
  | cons b bs ih => simp [raw_input, total_samples, ih]

/-- A sequence of process calls on a well-formed object whose countdown does
not exceed the table size: all calls return, the countdown has dropped by the
number `k` of samples recorded, and the table holds the first `k` raw-input
samples in the window that starts at `table_size - table_record`. -/
theorem process_all_spec (m : libm F) :
    ∀ (blocks : List (block F)) (x : t_wavecap F),
      0 < x.table_size → x.table_mask < x.table_size → x.table.length = x.table_size →
      x.table_size < 4294967296 → x.table_record ≤ x.table_size →
      (∀ b ∈ blocks, block_ok b) →
      ∃ x1 : t_wavecap F, process_all m x blocks = some x1 ∧
        x1.table_record = x.table_record - (min x.table_record.toNat (total_samples blocks) : Nat) ∧
        x1.table = write_run x.table (x.table_size - x.table_record.toNat)
          ((raw_input blocks).take (min x.table_record.toNat (total_samples blocks))) ∧
        x1.table_size = x.table_size ∧ x1.table_mask = x.table_mask ∧
        x1.table_interp = x.table_interp := by
  intro blocks
  induction blocks with
  | nil =>
    intro x _ _ _ _ _ _
    exact ⟨x, rfl, by simp [total_samples], by simp [total_samples, raw_input, write_run],
      rfl, rfl, rfl⟩
  | cons b bs ih =>
    intro x hsize hmask hlen h32 hrec hb
    obtain ⟨d1, d2, d3, d4, d5, d6, -⟩ := wavecap_dsp_frame m x b.sr b.vec_table.length
    have hbok : b.vec_env.length = b.vec_table.length := hb b (List.mem_cons_self _ _)
    obtain ⟨e, p, q, o, -, -, -, hp⟩ := perform_spec (wavecap_dsp m x b.sr b.vec_table.length)
      b.vec_table b.vec_env (by rw [d3]; exact hsize) (by rw [d3, d4]; exact hmask)
      (by rw [d3, d5]; exact hlen) (by rw [d3]; exact h32) (by rw [d2, d3]; exact hrec)
      (by rw [d1, d2]; simp) (fun _ => by rw [d1, hbok]; simp)
    rw [d1, d2, d3, d5] at hp
    simp only [Int.toNat_ofNat] at hp
    set k := min x.table_record.toNat b.vec_table.length with hk
    obtain ⟨x2, out, hp2, hr2, ht2, hs2, hm2, hi2⟩ :
        ∃ (x2 : t_wavecap F) (out : List F),
          wavecap_perform (wavecap_dsp m x b.sr b.vec_table.length) b.vec_table b.vec_env =
            some (x2, out) ∧
          x2.table_record = x.table_record - (k : Int) ∧
          x2.table = write_run x.table (x.table_size - x.table_record.toNat)
            (b.vec_table.take k) ∧
          x2.table_size = x.table_size ∧ x2.table_mask = x.table_mask ∧
          x2.table_interp = x.table_interp :=
      ⟨_, _, hp, rfl, rfl, rfl, d4, d6⟩
    obtain ⟨x1, hx1, hr1, ht1, hs1, hm1, hi1⟩ := ih x2
      (by rw [hs2]; exact hsize) (by rw [hs2, hm2]; exact hmask)
      (by rw [ht2, write_run_length, hs2]; exact hlen) (by rw [hs2]; exact h32)
      (by rw [hr2, hs2]; omega) (fun c hc => hb c (List.mem_cons_of_mem _ hc))
    have hklen : (b.vec_table.take k).length = k := by
      rw [List.length_take]
      omega
    have hmin : min x2.table_record.toNat (total_samples bs) =
        min (x.table_record.toNat - k) (total_samples bs) := by
      rw [hr2]
      congr 1
      omega
    refine ⟨x1, ?_, ?_, ?_, by rw [hs1, hs2], by rw [hm1, hm2], by rw [hi1, hi2]⟩
    · simp only [process_all, process, hp2]
      exact hx1
    · rw [hr1, hmin, hr2]
      simp only [total_samples]
      omega
    · rw [ht1, ht2, hs2, hmin]
      simp only [total_samples, raw_input]
      rw [← raw_input_length bs, take_raw_input, write_run_append, hklen, ← hk]
      congr 1
      rw [hr2]
      omega

/-! ## The receiver `table_size` -/

theorem pow_two_and_pred (e : Nat) : 2 ^ e &&& (2 ^ e - 1) = 0 := by
  rw [Nat.and_pow_two_sub_one_eq_mod, Nat.mod_self]

theorem pow_two_of_and_pred :
    ∀ n : Nat, 0 < n → n &&& (n - 1) = 0 → ∃ e : Nat, n = 2 ^ e := by
  intro n
  induction n using Nat.strong_induction_on with
  | _ n ih =>
    intro hpos h
    by_cases h1 : n = 1
    · exact ⟨0, by simpa using h1⟩
    · have hdiv : n / 2 &&& (n - 1) / 2 = 0 := by
        rw [← Nat.and_div_two, h]
      rcases Nat.even_or_odd n with ⟨m, hm⟩ | ⟨m, hm⟩
      · have e1 : n / 2 = m := by omega
        have e2 : (n - 1) / 2 = m - 1 := by omega
        rw [e1, e2] at hdiv
        obtain ⟨e, he⟩ := ih m (by omega) (by omega) hdiv
        exact ⟨e + 1, by rw [pow_succ, ← he]; omega⟩
      · have e1 : n / 2 = m := by omega
        have e2 : (n - 1) / 2 = m := by omega
        rw [e1, e2, Nat.and_self] at hdiv
        omega

/-- The guard of `wavecap_table_size` holds exactly for the sizes that are
zero or not a power of two. -/
theorem size_guard_iff (n : Nat) :
    (n = 0 ∨ (n &&& (n - 1)) ≠ 0) ↔ (n = 0 ∨ ¬ ∃ e : Nat, n = 2 ^ e) := by
  constructor
  · rintro (h | h)
    · exact Or.inl h
    · refine Or.inr ?_
      rintro ⟨e, he⟩
      exact h (by rw [he]; exact pow_two_and_pred e)
  · rintro (h | h)
    · exact Or.inl h
    · by_cases h0 : n = 0
      · exact Or.inl h0
      · exact Or.inr fun hz => h (pow_two_of_and_pred n (Nat.pos_of_ne_zero h0) hz)

theorem cast_uint32_lt (f : F) : cast_uint32 f < 4294967296 := by
  unfold cast_uint32
  have h1 : cast_long f % 4294967296 < 4294967296 := Int.emod_lt_of_pos _ (by decide)
  have h2 : 0 ≤ cast_long f % 4294967296 := Int.emod_nonneg _ (by decide)
  omega

theorem table_size_reject (x : t_wavecap F) (f : F)
    (h : cast_uint32 f = 0 ∨ ¬ ∃ e : Nat, cast_uint32 f = 2 ^ e) :
    wavecap_table_size x f = (x, pd_log.error) := by
  unfold wavecap_table_size
  exact if_pos ((size_guard_iff _).mpr h)

theorem table_size_accept (x : t_wavecap F) (f : F) (e : Nat) (h : cast_uint32 f = 2 ^ e) :
    wavecap_table_size x f =
      if 2 ^ e ≠ x.table_size then
        ({ x with
            table_size := 2 ^ e
            table_mask := 2 ^ e - 1
            table := List.replicate (2 ^ e) 0 }, pd_log.post)
      else (x, pd_log.post) := by
  have hpos : 0 < 2 ^ e := Nat.pos_pow_of_pos e (by decide)
  have hg : ¬ (cast_uint32 f = 0 ∨ (cast_uint32 f &&& (cast_uint32 f - 1)) ≠ 0) := by
    rw [size_guard_iff, h]
    rintro (h0 | h0)
    · omega
    · exact h0 ⟨e, rfl⟩
  rw [h] at hg
  unfold wavecap_table_size
  simp only [h, if_neg hg, _wavecap_table_alloc, _wavecap_table_free, gt_iff_lt, hpos, if_true]

theorem table_size_record (x : t_wavecap F) (f : F) :
    (wavecap_table_size x f).1.table_record = x.table_record := by
  unfold wavecap_table_size _wavecap_table_alloc _wavecap_table_free
  dsimp only
  split_ifs <;> rfl

/-! ## What a returning call leaves untouched -/

theorem record_loop_frame (n : Int) (vec_table : List F) :
    ∀ (fuel : Nat) (s s1 : perform_vars F), record_loop n vec_table fuel s = some s1 →
      s1.mem.length = s.mem.length := by
  intro fuel
  induction fuel with
  | zero =>
    intro s s1 h
    unfold record_loop at h
    split_ifs at h
    cases h
    rfl
  | succ k ih =>
    intro s s1 h
    unfold record_loop at h
    split_ifs at h with hc
    · unfold record_body at h
      cases hv : vec_table[s.in_table]? with
      | none => simp [hv] at h
      | some v =>
        by_cases hm : s.table < s.mem.length
        · simp only [hv, if_pos hm, Option.some_bind] at h
          have := ih _ _ h
          simpa using this
        · simp [hv, hm] at h
    · cases h
      rfl

theorem play_body_frame (x : t_wavecap F) (vec_env : List F) (s s1 : perform_vars F)
    (h : play_body x vec_env s = some s1) : s1.mem = s.mem := by
  unfold play_body at h
  cases hv : vec_env[s.in_env]? with
  | none => simp [hv] at h
  | some e =>
    simp only [hv] at h
    cases hi : interpolate x.table_interp x.table_mask s.mem s.phase with
    | none => simp [hi] at h
    | some o =>
      simp only [hi] at h
      cases hw : wrap_phase x.table_size
          (s.phase + |envelope x s.env_last e| * (x.table_size : F)) with
      | none => simp [hw] at h
      | some p =>
        simp only [hw, Option.some.injEq] at h
        rw [← h]

theorem play_loop_frame (x : t_wavecap F) (n : Int) (vec_env : List F) :
    ∀ (fuel : Nat) (s s1 : perform_vars F), play_loop x n vec_env fuel s = some s1 →
      s1.mem = s.mem := by
  intro fuel
  induction fuel with
  | zero =>
    intro s s1 h
    unfold play_loop at h
    split_ifs at h
    cases h
    rfl
  | succ k ih =>
    intro s s1 h
    unfold play_loop at h
    split_ifs at h with hc
    · cases hb : play_body x vec_env s with
      | none => simp [hb] at h
      | some s2 =>
        simp only [hb, Option.some_bind] at h
        rw [ih _ _ h, play_body_frame x vec_env s s2 hb]
    · cases h
      rfl

theorem record_block_frame (x x2 : t_wavecap F) (vec_table : List F) (s s2 : perform_vars F)
    (h : record_block x vec_table s = some (x2, s2)) :
    s2.mem.length = s.mem.length ∧ x2.table_size = x.table_size ∧
    x2.table_mask = x.table_mask ∧ x2.table_interp = x.table_interp ∧
    x2.block_size = x.block_size := by
  unfold record_block at h
  split_ifs at h with hc
  · dsimp only at h
    split at h
    · cases h
    · rename_i s3 hl
      have hlen := record_loop_frame _ _ _ _ _ hl
      dsimp only at hlen
      split_ifs at h with hz
      · simp only [Option.some.injEq, Prod.mk.injEq] at h
        obtain ⟨h1, h2⟩ := h
        subst h1 h2
        exact ⟨hlen, rfl, rfl, rfl, rfl⟩
      · simp only [Option.some.injEq, Prod.mk.injEq] at h
        obtain ⟨h1, h2⟩ := h
        subst h1 h2
        exact ⟨hlen, rfl, rfl, rfl, rfl⟩
  · simp only [Option.some.injEq, Prod.mk.injEq] at h
    obtain ⟨h1, h2⟩ := h
    subst h1 h2
    exact ⟨rfl, rfl, rfl, rfl, rfl⟩

/-- A returning call changes at most the countdown, the contents (not the
length) of the table, and the three fields `env_last`, `phase`,
`phaseIncrement`. -/
theorem perform_frame (x x1 : t_wavecap F) (vec_table vec_env out : List F)
    (h : wavecap_perform x vec_table vec_env = some (x1, out)) :
    x1.table.length = x.table.length ∧ x1.table_size = x.table_size ∧
    x1.table_mask = x.table_mask ∧ x1.table_interp = x.table_interp ∧
    x1.block_size = x.block_size := by
  unfold wavecap_perform at h
  dsimp only at h
  cases hr : record_block x vec_table
      { mem := x.table, table := 0, in_table := 0, in_env := 0, out := [],
        table_record := x.table_record, n_computed := 0, env_last := x.env_last,
        phase := x.phase, phaseIncrement := x.phaseIncrement } with
  | none => simp [hr] at h
  | some r =>
    obtain ⟨x2, s2⟩ := r
    simp only [hr] at h
    have hx2 := record_block_frame x x2 vec_table _ s2 hr
    dsimp only at hx2
    cases hp : play_loop x x.block_size vec_env (x.block_size - s2.n_computed).toNat
        { s2 with in_env := s2.in_env + s2.n_computed.toNat } with
    | none => simp [hp] at h
    | some s3 =>
      simp only [hp, Option.some.injEq, Prod.mk.injEq] at h
      have hmem := play_loop_frame _ _ _ _ _ _ hp
      obtain ⟨h1, -⟩ := h
      subst h1
      dsimp only
      rw [hmem]
      exact hx2

theorem reachable_table_ok (m : libm F) (x : t_wavecap F) (h : reachable m x) : table_ok x := by
  induction h with
  | new f =>
    exact ⟨List.length_replicate 1024 0, rfl, ⟨10, rfl⟩,
      show (1024 : Nat) < 4294967296 by decide⟩
  | bang _ ih => exact ih
  | @table_size x f _ ih =>
    by_cases hg : cast_uint32 f = 0 ∨ ¬ ∃ e : Nat, cast_uint32 f = 2 ^ e
    · rw [table_size_reject x f hg]
      exact ih
    · obtain ⟨e, he⟩ : ∃ e : Nat, cast_uint32 f = 2 ^ e := by
        by_contra hc
        exact hg (Or.inr hc)
      rw [table_size_accept x f e he]
      split_ifs with hne
      · exact ⟨by simp, rfl, ⟨e, rfl⟩, by rw [← he]; exact cast_uint32_lt f⟩
      · exact ih
  | @table_interp x f _ ih =>
    unfold wavecap_table_interp
    dsimp only
    split_ifs
    · exact ih
    · exact ih
  | env_atk_ms f _ ih => exact ih
  | env_dcy_ms f _ ih => exact ih
  | env_enable _ ih => exact ih
  | env_disable _ ih => exact ih
  | @dsp x sr s_n _ ih =>
    obtain ⟨-, -, d3, d4, d5, -, -⟩ := wavecap_dsp_frame m x sr s_n
    unfold table_ok
    rw [d3, d4, d5]
    exact ih
  | @perform x x1 vt ve out _ hp ih =>
    obtain ⟨p1, p2, p3, -, -⟩ := perform_frame x x1 vt ve out hp
    unfold table_ok
    rw [p1, p2, p3]
    exact ih

/-! ## Claims about recording -/

theorem table_record_after_bang (x : t_wavecap F) (h32 : x.table_size < 4294967296) :
    (wavecap_table_record x).table_record ≤ x.table_size ∧
    (x.table_size < 2147483648 → (wavecap_table_record x).table_record = x.table_size) ∧
    (¬ x.table_size < 2147483648 → (wavecap_table_record x).table_record < 0) := by
  unfold wavecap_table_record int_of_uint32
  dsimp only
  split_ifs with h
  · exact ⟨le_refl _, fun _ => rfl, fun c => absurd h c⟩
  · exact ⟨by omega, fun c => absurd c h, fun _ => by omega⟩

/-- The countdown of a capture on a table of size N < 2 ^ 31 (a power of two
by `table_ok`, so every power of two from 2 to 2 ^ 30 is covered): after
`bang` and any sequence of process calls with block sizes n_1, ..., n_j, every
call returns and the countdown is `N - min N (n_1 + ... + n_j)`; it is back at
0 exactly when N samples or more have been processed.  This is the statement
of C1 for every table size but 2 ^ 31. -/
theorem capture_countdown (m : libm F) (x : t_wavecap F) (blocks : List (block F))
    (hok : table_ok x) (h31 : x.table_size < 2147483648)
    (hb : ∀ b ∈ blocks, block_ok b) :
    ∃ x1 : t_wavecap F, process_all m (wavecap_table_record x) blocks = some x1 ∧
      x1.table_record =
        (x.table_size : Int) - (min x.table_size (total_samples blocks) : Nat) ∧
      (x1.table_record = 0 ↔ x.table_size ≤ total_samples blocks) := by
  obtain ⟨hpos, hmask⟩ := table_ok_pos x hok
  obtain ⟨hlen, -, -, h32⟩ := hok
  obtain ⟨hle, heq, -⟩ := table_record_after_bang x h32
  have hr := heq h31
  obtain ⟨x1, hx1, hrec, -⟩ := process_all_spec m blocks (wavecap_table_record x)
    hpos hmask hlen h32 hle hb
  rw [hr, Int.toNat_ofNat] at hrec
  refine ⟨x1, hx1, hrec, ?_⟩
  rw [hrec]
  omega

/-- Worked example for `capture_countdown`: a table of 4 samples and the
blocks of 3 and 3 samples. -/
theorem capture_countdown_example :
    ∃ x1 : t_wavecap ℚ,
      process_all demo_libm (wavecap_table_record (wavecap_table_size demo_new 4).1)
        [{ sr := 44100, vec_table := [1, 2, 3], vec_env := [0, 0, 0] },
         { sr := 44100, vec_table := [4, 5, 6], vec_env := [0, 0, 0] }] = some x1 ∧
      x1.table_record = ((wavecap_table_size demo_new 4).1.table_size : Int) -
        (min (wavecap_table_size demo_new 4).1.table_size
          (total_samples
            [({ sr := 44100, vec_table := [1, 2, 3], vec_env := [0, 0, 0] } : block ℚ),
             { sr := 44100, vec_table := [4, 5, 6], vec_env := [0, 0, 0] }]) : Nat) ∧
      (x1.table_record = 0 ↔ (wavecap_table_size demo_new 4).1.table_size ≤
        total_samples
          [({ sr := 44100, vec_table := [1, 2, 3], vec_env := [0, 0, 0] } : block ℚ),
           { sr := 44100, vec_table := [4, 5, 6], vec_env := [0, 0, 0] }]) :=
  capture_countdown demo_libm (wavecap_table_size demo_new 4).1 _
    (reachable_table_ok demo_libm _ (reachable.table_size 4 (reachable.new 0)))
    (by decide!)
    (by
      intro b hb
      simp only [List.mem_cons, List.mem_singleton, List.not_mem_nil, or_false] at hb
      rcases hb with rfl | rfl <;> rfl)

/-- C1, the code at the failing input: the table size N = 2 ^ 31, which
`table_size` accepts.  `bang` assigns the `uint32_t` size to the `int`
countdown, which makes it -2 ^ 31, so no sample is ever recorded, and after a
process call of one sample the countdown is not N - min N 1. -/
theorem C1_countdown_overflow :
    table_ok (wavecap_table_size demo_new 2147483648).1 ∧
    (wavecap_table_size demo_new 2147483648).1.table_size = 2 ^ 31 ∧
    ∃ x1 : t_wavecap ℚ,
      process_all demo_libm (wavecap_table_record (wavecap_table_size demo_new 2147483648).1)
        [{ sr := 44100, vec_table := [1], vec_env := [0] }] = some x1 ∧
      x1.table_record = -2147483648 ∧
      x1.table_record ≠ ((2 ^ 31 : Nat) : Int) - (min (2 ^ 31) 1 : Nat) := by
  have hok : table_ok (wavecap_table_size demo_new 2147483648).1 :=
    reachable_table_ok demo_libm _ (reachable.table_size 2147483648 (reachable.new 0))
  have hsz : (wavecap_table_size demo_new 2147483648).1.table_size = 2 ^ 31 := by
    rw [table_size_accept demo_new 2147483648 31 (by decide!), if_pos (by decide!)]
  obtain ⟨hpos, hmask⟩ := table_ok_pos _ hok
  obtain ⟨hle, -, hneg⟩ := table_record_after_bang _ hok.2.2.2
  have hrec : (wavecap_table_record (wavecap_table_size demo_new 2147483648).1).table_record =
      -2147483648 := by
    show int_of_uint32 (wavecap_table_size demo_new 2147483648).1.table_size = -2147483648
    rw [hsz]
    decide
  obtain ⟨x1, hx1, hr1, -⟩ := process_all_spec demo_libm
    [{ sr := 44100, vec_table := [1], vec_env := [0] }]
    (wavecap_table_record (wavecap_table_size demo_new 2147483648).1)
    hpos hmask hok.1 hok.2.2.2 hle
    (by
      intro b hb
      simp only [List.mem_singleton] at hb
      subst hb
      rfl)
  rw [hrec] at hr1
  have hx : x1.table_record = -2147483648 := by
    rw [hr1]
    decide
  exact ⟨hok, hsz, x1, hx1, hx, by rw [hx]; decide⟩

/-- C2, the code at the failing input.  A table of 2 samples is played for
one sample with control value 1/2, which leaves the phase at 1.  After `bang`,
a block of 3 samples records 7 and 9 and plays one sample: that sample is
9 = table[1], read at the phase 1 from before the capture (phase 0 would give
7), and the stored phase is 1.  A block of 2 samples ends the capture exactly
at the end of the block, and the stored phase is 1 again, not 0. -/
theorem C2_phase_not_reset :
    ((process demo_libm (wavecap_table_size demo_new 2).1
        { sr := 44100, vec_table := [0], vec_env := [1 / 2] }).bind
      fun r => (process demo_libm (wavecap_table_record r.1)
        { sr := 44100, vec_table := [7, 9, 0], vec_env := [0, 0, 0] }).map
        fun r2 => (r.1.phase, r2.1.table_record, r2.1.table, r2.2, r2.1.phase)) =
      some (1, 0, [7, 9], [0, 0, 9], 1) ∧
    ((process demo_libm (wavecap_table_size demo_new 2).1
        { sr := 44100, vec_table := [0], vec_env := [1 / 2] }).bind
      fun r => (process demo_libm (wavecap_table_record r.1)
        { sr := 44100, vec_table := [7, 9], vec_env := [0, 0] }).map
        fun r2 => (r.1.phase, r2.1.table_record, r2.1.table, r2.2, r2.1.phase)) =
      some (1, 0, [7, 9], [0, 0], 1) := by
  decide!

/-- The split of a block: a process call on a block of `n` samples, entered
with countdown `table_record` (not above the table size, so that the recording
window lies in the table), returns `n` output samples; with `k = min table_record n` the first
`k` are 0; the call is the recording call on the first `k` raw-input samples
(no control input read, output `k` zeros) followed by the playback call on
`vec_env[k..n-1]` (no raw input read), which yields the last `n - k` output
samples and the final object; and the control samples `vec_env[0..k-1]`
influence neither the output nor the final object. -/
theorem block_split (x : t_wavecap F) (vec_table vec_env : List F) (n : Nat)
    (hok : table_ok x) (hrec : x.table_record ≤ x.table_size)
    (hn : x.block_size = n) (hvt : vec_table.length = n) (hve : vec_env.length = n) :
    ∃ (x1 xc : t_wavecap F) (out : List F),
      wavecap_perform x vec_table vec_env = some (x1, out) ∧
      out.length = n ∧
      (∀ i : Nat, i < min x.table_record.toNat n → out[i]? = some 0) ∧
      wavecap_perform { x with block_size := (min x.table_record.toNat n : Nat) } vec_table [] =
        some (xc, List.replicate (min x.table_record.toNat n) 0) ∧
      wavecap_perform { xc with block_size := (n - min x.table_record.toNat n : Nat) } []
          (vec_env.drop (min x.table_record.toNat n)) =
        some ({ x1 with block_size := (n - min x.table_record.toNat n : Nat) },
          out.drop (min x.table_record.toNat n)) ∧
      ∀ vec_env2 : List F,
        vec_env2.drop (min x.table_record.toNat n) = vec_env.drop (min x.table_record.toNat n) →
        wavecap_perform x vec_table vec_env2 = some (x1, out) := by
  obtain ⟨hpos, hmask⟩ := table_ok_pos x hok
  obtain ⟨hlen, -, -, h32⟩ := hok
  have hbs : x.block_size.toNat = n := by rw [hn, Int.toNat_ofNat]
  -- the whole call
  obtain ⟨e, p, q, o, holen, -, -, hsome⟩ := perform_spec x vec_table vec_env hpos hmask hlen h32
    hrec (by rw [hbs, hvt]; exact min_le_right _ _) (fun _ => by rw [hbs, hve])
  obtain ⟨T, I, hfull⟩ := perform_eq x vec_table vec_env
    (Or.inr ⟨hrec, h32, hlen, by rw [hbs, hvt]; exact min_le_right _ _⟩)
  rw [hbs] at holen hsome hfull
  set k := min x.table_record.toNat n with hk
  have hkn : k ≤ n := min_le_right _ _
  -- the recording call
  obtain ⟨ea, pa, qa, oa, hoalen, -, hastop, hasome⟩ := perform_spec
    { x with block_size := (k : Int) } vec_table [] hpos hmask hlen h32 hrec
    (by dsimp only; rw [Int.toNat_ofNat, hvt]; omega)
    (fun c => by dsimp only at c; rw [Int.toNat_ofNat] at c; omega)
  dsimp only at hoalen hastop hasome
  rw [Int.toNat_ofNat] at hoalen hastop hasome
  have hkk : min x.table_record.toNat k = k := by omega
  rw [hkk] at hoalen hasome
  obtain ⟨rfl, rfl, rfl⟩ := hastop (by omega)
  have hoa : oa = [] := List.length_eq_zero.mp (by omega)
  rw [hoa, List.append_nil] at hasome
  -- the playback call that follows it
  have hk2 : min (x.table_record - (k : Int)).toNat (n - k) = 0 := by omega
  obtain ⟨T2, I2, hplay⟩ := perform_eq
    { x with
      block_size := ((n - k : Nat) : Int)
      table_record := x.table_record - (k : Int)
      table := write_run x.table (x.table_size - x.table_record.toNat) (vec_table.take k) }
    [] (vec_env.drop k)
    (by
      dsimp only
      by_cases hz : x.table_record - (k : Int) ≤ 0
      · exact Or.inl hz
      · refine Or.inr ⟨by omega, h32, by rw [write_run_length, hlen], ?_⟩
        rw [Int.toNat_ofNat, hk2]
        exact Nat.zero_le _)
  dsimp only at hplay
  rw [Int.toNat_ofNat, hk2] at hplay
  simp only [List.take_zero, write_run, List.replicate_zero, Nat.cast_zero, sub_zero] at hplay
  have hf1 : (x.block_size - (k : Int)).toNat = n - k := by omega
  have hf2 : ((n - k : Nat) : Int).toNat = n - k := Int.toNat_ofNat _
  rw [hf1] at hfull
  rw [hf2] at hplay
  -- the playback loop of the whole call against the loop of the playback call
  rcases play_loop_sim x
      { x with
        block_size := ((n - k : Nat) : Int)
        table_record := x.table_record - (k : Int)
        table := write_run x.table (x.table_size - x.table_record.toNat) (vec_table.take k) }
      ⟨rfl, rfl, rfl, rfl, rfl, rfl⟩ x.block_size
      ((n - k : Nat) : Int) vec_env (vec_env.drop k) (n - k)
      { mem := write_run x.table (x.table_size - x.table_record.toNat) (vec_table.take k)
        table := T
        in_table := I
        in_env := k
        out := List.replicate k 0
        table_record := x.table_record - (k : Int)
        n_computed := (k : Int)
        env_last := x.env_last
        phase := x.phase
        phaseIncrement := x.phaseIncrement }
      { mem := write_run x.table (x.table_size - x.table_record.toNat) (vec_table.take k)
        table := T2
        in_table := I2
        in_env := 0
        out := []
        table_record := x.table_record - (k : Int)
        n_computed := 0
        env_last := x.env_last
        phase := x.phase
        phaseIncrement := x.phaseIncrement }
      rfl rfl rfl rfl (by dsimp only; omega) rfl with
    ⟨hnone, -⟩ | ⟨s1, t1, o2, hs1, ht1, hso, hto, hmem, henv, hph, hpi, -, -⟩
  · rw [hnone] at hfull
    rw [hfull] at hsome
    cases hsome
  rw [hs1] at hfull
  rw [hfull] at hsome
  simp only [Option.map_some', Option.some.injEq, Prod.mk.injEq, t_wavecap.mk.injEq, true_and,
    and_true] at hsome
  obtain ⟨⟨hm1, he1, hp1, hq1⟩, ho1⟩ := hsome
  dsimp only at hso hto
  rw [List.nil_append] at hto
  have hoo : o = o2 := by
    rw [hso] at ho1
    exact (List.append_cancel_left ho1).symm
  refine ⟨_, _, _, hfull.trans (by rw [Option.map_some']), ?_, ?_, hasome, ?_, ?_⟩
  · rw [hso, List.length_append, List.length_replicate, ← hoo, holen]
    omega
  · intro i hi
    rw [hso, List.getElem?_append_left (by rw [List.length_replicate]; exact hi),
      List.getElem?_replicate, if_pos hi]
  · dsimp only
    rw [hplay, ht1, Option.map_some', ← hmem, ← henv, ← hph, ← hpi, hto, hso,
      List.drop_left' (List.length_replicate _ _)]
  · intro vec_env2 hd
    obtain ⟨T3, I3, hfull2⟩ := perform_eq x vec_table vec_env2
      (Or.inr ⟨hrec, h32, hlen, by rw [hbs, hvt]; exact min_le_right _ _⟩)
    rw [hbs, hf1] at hfull2
    rcases play_loop_sim x x ⟨rfl, rfl, rfl, rfl, rfl, rfl⟩ x.block_size x.block_size
        vec_env vec_env2 (n - k)
        { mem := write_run x.table (x.table_size - x.table_record.toNat) (vec_table.take k)
          table := T
          in_table := I
          in_env := k
          out := List.replicate k 0
          table_record := x.table_record - (k : Int)
          n_computed := (k : Int)
          env_last := x.env_last
          phase := x.phase
          phaseIncrement := x.phaseIncrement }
        { mem := write_run x.table (x.table_size - x.table_record.toNat) (vec_table.take k)
          table := T3
          in_table := I3
          in_env := k
          out := List.replicate k 0
          table_record := x.table_record - (k : Int)
          n_computed := (k : Int)
          env_last := x.env_last
          phase := x.phase
          phaseIncrement := x.phaseIncrement }
        rfl rfl rfl rfl rfl hd.symm with
      ⟨hnone, -⟩ | ⟨s3, t3, o3, hs3, ht3, hso3, hto3, hmem3, henv3, hph3, hpi3, -, -⟩
    · rw [hs1] at hnone
      cases hnone
    · rw [hs1] at hs3
      cases hs3
      dsimp only at hso3 hto3
      rw [hfull2, ht3, Option.map_some', ← hmem3, ← henv3, ← hph3, ← hpi3, hto3, hso3]


/-- Worked example for `block_split`: a block of 8 samples entered with
countdown 3 on a table of 8 samples gives three zeros and five samples that
depend on the control samples 3..7 only. -/
theorem block_split_example :
    ∃ (x1 : t_wavecap ℚ) (out : List ℚ),
      wavecap_perform demo_capture3 [6, 7, 8, 9, 10, 11, 12, 13]
        [1, 1, 1, 1 / 8, 1 / 8, 1 / 8, 1 / 8, 1 / 8] = some (x1, out) ∧
      out.length = 8 ∧
      (∀ i : Nat, i < 3 → out[i]? = some 0) ∧
      ∀ vec_env2 : List ℚ,
        vec_env2.drop 3 = [1 / 8, 1 / 8, 1 / 8, 1 / 8, 1 / 8] →
        wavecap_perform demo_capture3 [6, 7, 8, 9, 10, 11, 12, 13] vec_env2 = some (x1, out) := by
  have h := block_split demo_capture3 [6, 7, 8, 9, 10, 11, 12, 13]
    [1, 1, 1, 1 / 8, 1 / 8, 1 / 8, 1 / 8, 1 / 8] 8
    ⟨rfl, rfl, ⟨3, rfl⟩, by decide!⟩ (by decide!) rfl rfl rfl
  have hk : min demo_capture3.table_record.toNat 8 = 3 := by decide!
  rw [hk] at h
  obtain ⟨x1, xc, out, h1, h2, h3, -, -, h6⟩ := h
  exact ⟨x1, out, h1, h2, h3, h6⟩

/-- C4: after `bang` and any sequence of process calls on a well-formed
object, with `k` the number of raw-input samples recorded so far (the smaller
of the countdown set by `bang` and the number of samples processed; it is
`min N total` for N < 2 ^ 31), the table has its length N unchanged,
`table[j]` is the `j`-th raw-input sample for `j < k`, `table[j]` is what it
was before the capture for `k ≤ j < N`, and once N samples have been recorded
the table is exactly the first N raw-input samples. -/
theorem C4_table_contents (m : libm F) (x : t_wavecap F) (blocks : List (block F))
    (hok : table_ok x) (hb : ∀ b ∈ blocks, block_ok b) :
    ∃ x1 : t_wavecap F, process_all m (wavecap_table_record x) blocks = some x1 ∧
      x1.table.length = x.table_size ∧
      (x.table_size < 2147483648 →
        min (wavecap_table_record x).table_record.toNat (total_samples blocks) =
          min x.table_size (total_samples blocks)) ∧
      (∀ j : Nat, j < min (wavecap_table_record x).table_record.toNat (total_samples blocks) →
        x1.table[j]? = (raw_input blocks)[j]?) ∧
      (∀ j : Nat, min (wavecap_table_record x).table_record.toNat (total_samples blocks) ≤ j →
        j < x.table_size → x1.table[j]? = x.table[j]?) ∧
      (x.table_size < 2147483648 → x.table_size ≤ total_samples blocks →
        x1.table = (raw_input blocks).take x.table_size) := by
  obtain ⟨hpos, hmask⟩ := table_ok_pos x hok
  obtain ⟨hlen, -, -, h32⟩ := hok
  obtain ⟨hle, heq, hneg⟩ := table_record_after_bang x h32
  obtain ⟨x1, hx1, -, htab, -⟩ := process_all_spec m blocks (wavecap_table_record x)
    hpos hmask hlen h32 hle hb
  have hts : (wavecap_table_record x).table_size = x.table_size := rfl
  have htb : (wavecap_table_record x).table = x.table := rfl
  rw [hts, htb] at htab
  set k := min (wavecap_table_record x).table_record.toNat (total_samples blocks) with hk
  have hvals : ((raw_input blocks).take k).length = k := by
    rw [List.length_take, raw_input_length]
    omega
  have hoff : x.table_size - (wavecap_table_record x).table_record.toNat + k ≤
      x.table.length := by omega
  have hoff0 : k ≠ 0 → x.table_size - (wavecap_table_record x).table_record.toNat = 0 := by
    intro hk0
    by_cases h31 : x.table_size < 2147483648
    · rw [heq h31]
      omega
    · have := hneg h31
      omega
  refine ⟨x1, hx1, by rw [htab, write_run_length, hlen], fun h31 => ?_, fun j hj => ?_,
    fun j hj hjn => ?_, fun h31 hfull => ?_⟩
  · rw [hk, heq h31, Int.toNat_ofNat]
  · rw [htab, write_run_getElem? _ _ _ _ (by rw [hvals]; exact hoff), hvals,
      hoff0 (by omega), if_pos ⟨Nat.zero_le _, by omega⟩, Nat.sub_zero, List.getElem?_take]
    exact if_pos hj
  · rw [htab, write_run_getElem? _ _ _ _ (by rw [hvals]; exact hoff), hvals]
    by_cases hk0 : k = 0
    · rw [if_neg (fun c => by omega)]
    · rw [hoff0 hk0, if_neg (fun c => by omega)]
  · have hkN : k = x.table_size := by
      rw [hk, heq h31, Int.toNat_ofNat]
      omega
    rw [htab, hkN, heq h31, Int.toNat_ofNat, Nat.sub_self]
    apply write_run_all
    rw [← hkN, hvals, hkN, hlen]

/-- C4, worked example: a table of 4 samples and the blocks of 3 and 3
samples; the table ends up as the first 4 raw-input samples. -/
theorem C4_table_contents_witness :
    ∃ x1 : t_wavecap ℚ,
      process_all demo_libm (wavecap_table_record (wavecap_table_size demo_new 4).1)
        [{ sr := 44100, vec_table := [1, 2, 3], vec_env := [0, 0, 0] },
         { sr := 44100, vec_table := [4, 5, 6], vec_env := [0, 0, 0] }] = some x1 ∧
      x1.table = [1, 2, 3, 4] := by
  obtain ⟨x1, h1, -, -, -, -, h6⟩ := C4_table_contents demo_libm
    (wavecap_table_size demo_new 4).1
    [{ sr := 44100, vec_table := [1, 2, 3], vec_env := [0, 0, 0] },
     { sr := 44100, vec_table := [4, 5, 6], vec_env := [0, 0, 0] }]
    (reachable_table_ok demo_libm _ (reachable.table_size 4 (reachable.new 0)))
    (by
      intro b hb
      simp only [List.mem_cons, List.mem_singleton, List.not_mem_nil, or_false] at hb
      rcases hb with rfl | rfl <;> rfl)
  exact ⟨x1, h1, (h6 (by decide!) (by decide!)).trans (by decide!)⟩

/-! ## Claims about the receivers -/

/-- C5: a `table_size` request whose size (the value of `(uint32_t) f`) is
zero or not a power of two is rejected with `error` and the whole object is
left as it was. -/
theorem C5_table_size_rejects (x : t_wavecap F) (f : F)
    (h : cast_uint32 f = 0 ∨ ¬ ∃ e : Nat, cast_uint32 f = 2 ^ e) :
    wavecap_table_size x f = (x, pd_log.error) :=
  table_size_reject x f h

/-- C5, worked example: the resize from 1024 to 3 is rejected. -/
theorem C5_table_size_rejects_witness :
    demo_new.table_size = 1024 ∧
    wavecap_table_size demo_new 3 = (demo_new, pd_log.error) :=
  ⟨rfl, C5_table_size_rejects demo_new 3 (Or.inr (by
    have h3 : cast_uint32 (3 : ℚ) = 3 := by decide!
    rw [h3]
    rintro ⟨e, he⟩
    match e with
    | 0 => simp at he
    | 1 => simp at he
    | k + 2 =>
      rw [pow_succ, pow_succ] at he
      omega))⟩

/-- C6: a `table_size` request whose size `2 ^ e` is a power of two and
differs from the current size leaves a table of exactly `2 ^ e` samples, all
zero, with `table_size = 2 ^ e` and `table_mask = 2 ^ e - 1`; a request for
the current size changes nothing. -/
theorem C6_table_size_accepts (x : t_wavecap F) (f : F) (e : Nat)
    (h : cast_uint32 f = 2 ^ e) :
    (2 ^ e ≠ x.table_size →
      (wavecap_table_size x f).1.table = List.replicate (2 ^ e) 0 ∧
      (wavecap_table_size x f).1.table.length = 2 ^ e ∧
      (∀ v ∈ (wavecap_table_size x f).1.table, v = 0) ∧
      (wavecap_table_size x f).1.table_size = 2 ^ e ∧
      (wavecap_table_size x f).1.table_mask = 2 ^ e - 1 ∧
      (wavecap_table_size x f).2 = pd_log.post) ∧
    (2 ^ e = x.table_size → wavecap_table_size x f = (x, pd_log.post)) := by
  rw [table_size_accept x f e h]
  constructor
  · intro hne
    rw [if_pos hne]
    refine ⟨rfl, List.length_replicate _ _, ?_, rfl, rfl, rfl⟩
    intro v hv
    exact List.eq_of_mem_replicate hv
  · intro heq
    rw [if_neg (not_not.mpr heq)]

/-- C6, worked example: on a fresh object (size 1024) the request for size 8
is accepted and the request for size 1024 changes nothing. -/
theorem C6_table_size_accepts_witness :
    ((wavecap_table_size demo_new 8).1.table = List.replicate (2 ^ 3) 0 ∧
      (wavecap_table_size demo_new 8).1.table_size = 2 ^ 3 ∧
      (wavecap_table_size demo_new 8).1.table_mask = 2 ^ 3 - 1) ∧
    wavecap_table_size demo_new 1024 = (demo_new, pd_log.post) :=
  ⟨by
    have h := (C6_table_size_accepts demo_new 8 3 (by decide!)).1 (by decide!)
    exact ⟨h.1, h.2.2.2.1, h.2.2.2.2.1⟩,
   (C6_table_size_accepts demo_new 1024 10 (by decide!)).2 (by decide!)⟩

/-- C7, the code at the failing input: after `bang` on a fresh object (countdown
1024) the accepted request `table_size 2` leaves the countdown at 1024 while
the table now has 2 samples, and the next process call of one sample stores
outside the table. -/
theorem C7_resize_keeps_countdown :
    (wavecap_table_size (wavecap_table_record demo_new) 2).2 = pd_log.post ∧
    (wavecap_table_size (wavecap_table_record demo_new) 2).1.table_size = 2 ∧
    (wavecap_table_size (wavecap_table_record demo_new) 2).1.table.length = 2 ∧
    (wavecap_table_size (wavecap_table_record demo_new) 2).1.table_record = 1024 ∧
    process demo_libm (wavecap_table_size (wavecap_table_record demo_new) 2).1
      { sr := 44100, vec_table := [1], vec_env := [0] } = none := by
  decide!

/-- C8: in every reachable state `table_mask = table_size - 1`, and
`table_size` is a power of two and the length of the table. -/
theorem C8_table_invariant (m : libm F) (x : t_wavecap F) (h : reachable m x) :
    x.table_mask = x.table_size - 1 ∧ (∃ e : Nat, x.table_size = 2 ^ e) ∧
    x.table.length = x.table_size := by
  obtain ⟨h1, h2, h3, -⟩ := reachable_table_ok m x h
  exact ⟨h2, h3, h1⟩

/-- C8, worked example: the state after `bang`, `table_size 2`, `env_enable`. -/
theorem C8_table_invariant_witness :
    (wavecap_env_enable (wavecap_table_size (wavecap_table_record demo_new) 2).1).table_mask =
      (wavecap_env_enable (wavecap_table_size (wavecap_table_record demo_new) 2).1).table_size
        - 1 ∧
    (∃ e : Nat,
      (wavecap_env_enable (wavecap_table_size (wavecap_table_record demo_new) 2).1).table_size
        = 2 ^ e) ∧
    (wavecap_env_enable (wavecap_table_size (wavecap_table_record demo_new) 2).1).table.length =
      (wavecap_env_enable (wavecap_table_size (wavecap_table_record demo_new) 2).1).table_size :=
  C8_table_invariant demo_libm _
    (reachable.env_enable (reachable.table_size 2 (reachable.bang (reachable.new 0))))

/-- C9 fails as stated: the request `table_size 1` is accepted on a fresh
object and yields a reachable state with a one-sample table. -/
theorem C9_counterexample :
    reachable demo_libm (wavecap_table_size demo_new 1).1 ∧
    (wavecap_table_size demo_new 1).2 = pd_log.post ∧
    (wavecap_table_size demo_new 1).1.table_size = 1 ∧
    ¬ 2 ≤ (wavecap_table_size demo_new 1).1.table_size :=
  ⟨reachable.table_size 1 (reachable.new 0), by decide!, by decide!, by decide!⟩

/-- C9 as amended: in every reachable state the table size is at least 1. -/
theorem C9_table_size_pos (m : libm F) (x : t_wavecap F) (h : reachable m x) :
    1 ≤ x.table_size :=
  (table_ok_pos x (reachable_table_ok m x h)).1

/-- C9 as amended, worked example: the state after `table_size 1`. -/
theorem C9_table_size_pos_witness : 1 ≤ (wavecap_table_size demo_new 1).1.table_size :=
  C9_table_size_pos demo_libm _ (reachable.table_size 1 (reachable.new 0))

/-- C10: a `table_interp` request whose integer value `(int) f` is outside
0, 1, 2 is rejected with `error` and the object is left as it was; for 0, 1, 2
the mode becomes `truncate`, `lin_2`, `lin_4` and nothing else changes. -/
theorem C10_table_interp (x : t_wavecap F) (f : F) :
    ((cast_long f < 0 ∨ 2 < cast_long f) → wavecap_table_interp x f = (x, pd_log.error)) ∧
    (cast_long f = 0 →
      wavecap_table_interp x f = ({ x with table_interp := truncate }, pd_log.post)) ∧
    (cast_long f = 1 →
      wavecap_table_interp x f = ({ x with table_interp := lin_2 }, pd_log.post)) ∧
    (cast_long f = 2 →
      wavecap_table_interp x f = ({ x with table_interp := lin_4 }, pd_log.post)) := by
  unfold wavecap_table_interp interp_types_num truncate lin_2 lin_4
  refine ⟨fun h => ?_, fun h => ?_, fun h => ?_, fun h => ?_⟩
  · exact if_pos (by omega)
  · rw [h]; rfl
  · rw [h]; rfl
  · rw [h]; rfl

/-- C10, worked example: mode 5 is rejected on a fresh object. -/
theorem C10_table_interp_witness :
    wavecap_table_interp demo_new 5 = (demo_new, pd_log.error) :=
  (C10_table_interp demo_new 5).1 (Or.inr (by decide!))

/-! ## The interpolation kernels -/

theorem cast_long_nonneg (p : F) (hp : 0 ≤ p) : cast_long p = ⌊p⌋ := by
  unfold cast_long
  exact if_pos hp

theorem land_natCast (n m : Nat) : Int.land (n : Int) (m : Int) = ((n &&& m : Nat) : Int) :=
  rfl

theorem wavetable_read_natCast (wavetable : List F) (i : Nat) :
    wavetable_read wavetable (i : Int) = wavetable[i]? := by
  unfold wavetable_read
  rw [if_pos (Int.ofNat_nonneg i), Int.toNat_ofNat]

/-- The masked index of a non-negative phase: `floor(p) & mask` is
`floor(p) mod N` for `N = 2 ^ e`, `mask = N - 1`. -/
theorem masked_index (p : F) (hp : 0 ≤ p) (e : Nat) :
    Int.land (cast_long p) ((2 ^ e - 1 : Nat) : Int) = ((⌊p⌋.toNat % 2 ^ e : Nat) : Int) := by
  rw [cast_long_nonneg p hp]
  have h0 : 0 ≤ ⌊p⌋ := Int.floor_nonneg.mpr hp
  have hn : ⌊p⌋ = ((⌊p⌋.toNat : Nat) : Int) := (Int.toNat_of_nonneg h0).symm
  rw [hn, land_natCast, Nat.and_pow_two_sub_one_eq_mod, Int.toNat_ofNat]

theorem floor_toNat_lt (p : F) (hp : 0 ≤ p) (N : Nat) (hlt : p < N) : ⌊p⌋.toNat < N := by
  have h0 : 0 ≤ ⌊p⌋ := Int.floor_nonneg.mpr hp
  have h1 : ⌊p⌋ < (N : Int) := by
    rw [Int.floor_lt]
    exact_mod_cast hlt
  omega

/-- One playback sample: a call in the Idle state on a block of one sample. -/
theorem perform_one (x : t_wavecap F) (vec_table : List F) (c o p : F)
    (hidle : x.table_record ≤ 0) (hbs : x.block_size = 1)
    (ho : interpolate x.table_interp x.table_mask x.table x.phase = some o)
    (hp : wrap_phase x.table_size
      (x.phase + |envelope x x.env_last c| * (x.table_size : F)) = some p) :
    wavecap_perform x vec_table [c] = some
      ({ x with
          env_last := envelope x x.env_last c
          phase := p
          phaseIncrement := |envelope x x.env_last c| * (x.table_size : F) }, [o]) := by
  have hr : ¬ x.table_record > 0 := by omega
  simp [wavecap_perform, record_block, hr, hbs, play_loop, play_body, ho, hp]

theorem truncate_eq (table : List F) (e : Nat) (p : F) (hp : 0 ≤ p) :
    interpolate truncate (2 ^ e - 1) table p = table[⌊p⌋.toNat % 2 ^ e]? := by
  unfold interpolate
  rw [if_pos rfl]
  dsimp only
  rw [masked_index p hp e, wavetable_read_natCast]

theorem lin_2_eq (table : List F) (e : Nat) (p : F) (hp : 0 ≤ p) :
    interpolate lin_2 (2 ^ e - 1) table p =
      (table[⌊p⌋.toNat % 2 ^ e]?).bind fun xa =>
        (table[(⌊p⌋.toNat % 2 ^ e + 1) % 2 ^ e]?).map fun xb =>
          xa + (p - ((⌊p⌋.toNat % 2 ^ e : Nat) : F)) * (xb - xa) := by
  unfold interpolate
  rw [if_neg (by decide), if_pos rfl]
  dsimp only
  rw [masked_index p hp e, wavetable_read_natCast]
  have h1 : Int.land (((⌊p⌋.toNat % 2 ^ e : Nat) : Int) + 1) ((2 ^ e - 1 : Nat) : Int) =
      (((⌊p⌋.toNat % 2 ^ e + 1) % 2 ^ e : Nat) : Int) := by
    have : ((⌊p⌋.toNat % 2 ^ e : Nat) : Int) + 1 = ((⌊p⌋.toNat % 2 ^ e + 1 : Nat) : Int) := by
      push_cast
      rfl
    rw [this, land_natCast, Nat.and_pow_two_sub_one_eq_mod]
  rw [h1, wavetable_read_natCast, Int.cast_natCast]
  cases table[⌊p⌋.toNat % 2 ^ e]? <;> cases table[(⌊p⌋.toNat % 2 ^ e + 1) % 2 ^ e]? <;> rfl

/-! ## Claims about the interpolation kernels -/

/-- C11: in truncate mode, on a table of power-of-two size N with mask N - 1
and a non-negative phase p, the index `floor(p) & mask` is `floor(p) mod N`,
and the playback sample (the value of the `switch`, and the one output sample
of a process call of one sample in the Idle state) is exactly the stored
value `table[floor(p) & mask]`. -/
theorem C11_truncate_sample (x : t_wavecap F) (vec_table : List F) (c : F)
    (hok : table_ok x) (htr : x.table_interp = truncate) (hp : 0 ≤ x.phase) :
    Int.land ⌊x.phase⌋ (x.table_mask : Int) = ((⌊x.phase⌋.toNat % x.table_size : Nat) : Int) ∧
    ∃ v : F, x.table[⌊x.phase⌋.toNat % x.table_size]? = some v ∧
      interpolate x.table_interp x.table_mask x.table x.phase = some v ∧
      (x.table_record ≤ 0 → x.block_size = 1 →
        ∃ x1 : t_wavecap F, wavecap_perform x vec_table [c] = some (x1, [v])) := by
  obtain ⟨hpos, -⟩ := table_ok_pos x hok
  obtain ⟨hlen, hmask, ⟨e, he⟩, -⟩ := hok
  have hidx : ⌊x.phase⌋.toNat % x.table_size < x.table.length := by
    rw [hlen]
    exact Nat.mod_lt _ hpos
  have hopt : interpolate x.table_interp x.table_mask x.table x.phase =
      x.table[⌊x.phase⌋.toNat % x.table_size]? := by
    rw [htr, hmask, he, truncate_eq x.table e x.phase hp]
  have hint : interpolate x.table_interp x.table_mask x.table x.phase =
      some x.table[⌊x.phase⌋.toNat % x.table_size] :=
    hopt.trans (List.getElem?_eq_getElem hidx)
  refine ⟨?_, x.table[⌊x.phase⌋.toNat % x.table_size], List.getElem?_eq_getElem hidx, hint,
    fun hidle hbs => ?_⟩
  · have h := masked_index x.phase hp e
    rw [cast_long_nonneg x.phase hp] at h
    rw [hmask, he]
    exact h
  · obtain ⟨p, hw, -⟩ := wrap_phase_spec x.table_size hpos
      (x.phase + |envelope x x.env_last c| * (x.table_size : F))
    exact ⟨_, perform_one x vec_table c _ p hidle hbs hint hw⟩

/-- C12: in Linear2 mode, on a table of power-of-two size N with mask N - 1 and
a phase p in [0, N), with i = floor(p) and f = p - floor(p), the playback
sample is `table[i] + f * (table[(i + 1) & mask] - table[i])`. -/
theorem C12_lin_2_sample (x : t_wavecap F) (vec_table : List F) (c : F)
    (hok : table_ok x) (hl : x.table_interp = lin_2) (hp0 : 0 ≤ x.phase)
    (hp1 : x.phase < x.table_size) :
    ∃ a b : F, x.table[⌊x.phase⌋.toNat]? = some a ∧
      x.table[(⌊x.phase⌋.toNat + 1) &&& x.table_mask]? = some b ∧
      interpolate x.table_interp x.table_mask x.table x.phase =
        some (a + (x.phase - (⌊x.phase⌋ : F)) * (b - a)) ∧
      (x.table_record ≤ 0 → x.block_size = 1 →
        ∃ x1 : t_wavecap F, wavecap_perform x vec_table [c] =
          some (x1, [a + (x.phase - (⌊x.phase⌋ : F)) * (b - a)])) := by
  obtain ⟨hpos, -⟩ := table_ok_pos x hok
  obtain ⟨hlen, hmask, ⟨e, he⟩, -⟩ := hok
  have hi : ⌊x.phase⌋.toNat < x.table_size := floor_toNat_lt x.phase hp0 _ hp1
  have hmod : ⌊x.phase⌋.toNat % 2 ^ e = ⌊x.phase⌋.toNat := Nat.mod_eq_of_lt (he ▸ hi)
  have hj : (⌊x.phase⌋.toNat + 1) % 2 ^ e < x.table.length := by
    rw [hlen, he]
    exact Nat.mod_lt _ (he ▸ hpos)
  have hi2 : ⌊x.phase⌋.toNat < x.table.length := by rw [hlen]; exact hi
  have hfl : ((⌊x.phase⌋.toNat : Nat) : F) = (⌊x.phase⌋ : F) := by
    have h0 : 0 ≤ ⌊x.phase⌋ := Int.floor_nonneg.mpr hp0
    have : ((⌊x.phase⌋.toNat : Nat) : Int) = ⌊x.phase⌋ := Int.toNat_of_nonneg h0
    exact_mod_cast congrArg (fun z : Int => (z : F)) this
  have hint : interpolate x.table_interp x.table_mask x.table x.phase =
      some (x.table[⌊x.phase⌋.toNat] + (x.phase - (⌊x.phase⌋ : F)) *
        (x.table[(⌊x.phase⌋.toNat + 1) % 2 ^ e] - x.table[⌊x.phase⌋.toNat])) := by
    rw [hl, hmask, he, lin_2_eq x.table e x.phase hp0, hmod, List.getElem?_eq_getElem hi2,
      List.getElem?_eq_getElem hj, hfl, Option.some_bind, Option.map_some']
  refine ⟨x.table[⌊x.phase⌋.toNat], x.table[(⌊x.phase⌋.toNat + 1) % 2 ^ e],
    List.getElem?_eq_getElem hi2, ?_, hint, fun hidle hbs => ?_⟩
  · rw [hmask, he, Nat.and_pow_two_sub_one_eq_mod, List.getElem?_eq_getElem hj]
  · obtain ⟨p, hw, -⟩ := wrap_phase_spec x.table_size hpos
      (x.phase + |envelope x x.env_last c| * (x.table_size : F))
    exact ⟨_, perform_one x vec_table c _ p hidle hbs hint hw⟩

/-- C13: on a table of power-of-two size N with mask N - 1 and an
integer-valued phase i in [0, N), the Linear2 playback sample is the truncate
playback sample, namely `table[i]`; a process call of one sample in the Idle
state gives the same output vector in both modes. -/
theorem C13_lin_2_at_integer (x : t_wavecap F) (vec_table : List F) (c : F) (i : Nat)
    (hok : table_ok x) (hph : x.phase = (i : F)) (hi : i < x.table_size) :
    ∃ v : F, x.table[i]? = some v ∧
      interpolate lin_2 x.table_mask x.table x.phase = some v ∧
      interpolate truncate x.table_mask x.table x.phase = some v ∧
      (x.table_record ≤ 0 → x.block_size = 1 →
        ∃ x1 x2 : t_wavecap F,
          wavecap_perform { x with table_interp := lin_2 } vec_table [c] = some (x1, [v]) ∧
          wavecap_perform { x with table_interp := truncate } vec_table [c] =
            some (x2, [v])) := by
  obtain ⟨hpos, -⟩ := table_ok_pos x hok
  obtain ⟨hlen, hmask, ⟨e, he⟩, -⟩ := hok
  have hp0 : 0 ≤ x.phase := by rw [hph]; exact Nat.cast_nonneg i
  have hfl : ⌊x.phase⌋.toNat = i := by
    rw [hph, Int.floor_natCast, Int.toNat_ofNat]
  have hmod : i % 2 ^ e = i := Nat.mod_eq_of_lt (he ▸ hi)
  have hi2 : i < x.table.length := by rw [hlen]; exact hi
  have hj : (i + 1) % 2 ^ e < x.table.length := by
    rw [hlen, he]
    exact Nat.mod_lt _ (he ▸ hpos)
  have ht : interpolate truncate x.table_mask x.table x.phase = some x.table[i] := by
    rw [hmask, he, truncate_eq x.table e x.phase hp0, hfl, hmod, List.getElem?_eq_getElem hi2]
  have hl : interpolate lin_2 x.table_mask x.table x.phase = some x.table[i] := by
    rw [hmask, he, lin_2_eq x.table e x.phase hp0, hfl, hmod, List.getElem?_eq_getElem hi2,
      List.getElem?_eq_getElem hj, hph, Option.some_bind, Option.map_some', sub_self, zero_mul,
      add_zero]
  refine ⟨x.table[i], List.getElem?_eq_getElem hi2, hl, ht, fun hidle hbs => ?_⟩
  obtain ⟨p, hw, -⟩ := wrap_phase_spec x.table_size hpos
    (x.phase + |envelope x x.env_last c| * (x.table_size : F))
  exact ⟨_, _, perform_one { x with table_interp := lin_2 } vec_table c _ p hidle hbs hl hw,
    perform_one { x with table_interp := truncate } vec_table c _ p hidle hbs ht hw⟩

theorem demo_table4_ok_base : table_ok demo_table4 :=
  ⟨by decide!, by decide!, ⟨2, by decide!⟩, by decide!⟩

theorem demo_table4_ok (p : ℚ) (i : Int) :
    table_ok { demo_table4 with phase := p, table_interp := i } :=
  demo_table4_ok_base

/-- C11, worked example: table [0, 1, 2, 3], phase 1.5, truncate mode: the
sample is table[1] = 1. -/
theorem C11_truncate_sample_witness :
    interpolate truncate 3 [0, 1, 2, 3] (3 / 2 : ℚ) = some 1 ∧
    ∃ x1 : t_wavecap ℚ, wavecap_perform demo_table4 [0] [0] = some (x1, [1]) := by
  obtain ⟨-, v, hv, hint, hper⟩ := C11_truncate_sample demo_table4 [0] 0
    (demo_table4_ok (3 / 2) truncate) (by decide!) (by decide!)
  have h1 : demo_table4.table[⌊demo_table4.phase⌋.toNat % demo_table4.table_size]? =
      some 1 := by decide!
  rw [h1] at hv
  cases hv
  exact ⟨hint, hper (by decide!) (by decide!)⟩

/-- C12, worked example: table [0, 1, 2, 3], phase 1.5, Linear2 mode: the
sample is 1 + 0.5 * (2 - 1) = 1.5. -/
theorem C12_lin_2_sample_witness :
    interpolate lin_2 3 [0, 1, 2, 3] (3 / 2 : ℚ) = some (3 / 2) ∧
    ∃ x1 : t_wavecap ℚ,
      wavecap_perform { demo_table4 with table_interp := lin_2 } [0] [0] =
        some (x1, [3 / 2]) := by
  obtain ⟨a, b, ha, hb, hint, hper⟩ := C12_lin_2_sample
    { demo_table4 with table_interp := lin_2 } [0] 0
    (demo_table4_ok (3 / 2) lin_2) (by decide!) (by decide!) (by decide!)
  have h1 : ({ demo_table4 with table_interp := lin_2 } : t_wavecap ℚ).table[
      ⌊({ demo_table4 with table_interp := lin_2 } : t_wavecap ℚ).phase⌋.toNat]? =
      some 1 := by decide!
  have h2 : ({ demo_table4 with table_interp := lin_2 } : t_wavecap ℚ).table[
      (⌊({ demo_table4 with table_interp := lin_2 } : t_wavecap ℚ).phase⌋.toNat + 1) &&&
        ({ demo_table4 with table_interp := lin_2 } : t_wavecap ℚ).table_mask]? =
      some 2 := by decide!
  rw [h1] at ha
  rw [h2] at hb
  cases ha
  cases hb
  have hval : (1 : ℚ) + (({ demo_table4 with table_interp := lin_2 } : t_wavecap ℚ).phase -
      (⌊({ demo_table4 with table_interp := lin_2 } : t_wavecap ℚ).phase⌋ : ℚ)) * (2 - 1) =
      3 / 2 := by decide!
  rw [hval] at hint hper
  exact ⟨hint, hper (by decide!) (by decide!)⟩

/-- C13, worked example: table [0, 1, 2, 3] at the integer phase 2: both modes
give table[2] = 2. -/
theorem C13_lin_2_at_integer_witness :
    interpolate lin_2 3 [0, 1, 2, 3] (2 : ℚ) = some 2 ∧
    interpolate truncate 3 [0, 1, 2, 3] (2 : ℚ) = some 2 := by
  obtain ⟨v, hv, hl, ht, -⟩ := C13_lin_2_at_integer
    { demo_table4 with phase := 2 } [0] 0 2
    (demo_table4_ok 2 demo_table4.table_interp) (by decide!) (by decide!)
  have h1 : ({ demo_table4 with phase := 2 } : t_wavecap ℚ).table[2]? = some 2 := by decide!
  rw [h1] at hv
  cases hv
  exact ⟨hl, ht⟩

/-! ## Claims about the phase -/

theorem wrap_down_loop_mono (size : F) :
    ∀ (fuel : Nat) (p q : F), wrap_down_loop size fuel p = some q →
      ∀ k : Nat, wrap_down_loop size (fuel + k) p = some q := by
  intro fuel
  induction fuel with
  | zero =>
    intro p q h k
    unfold wrap_down_loop at h
    split_ifs at h with hc
    rw [Nat.zero_add]
    cases k with
    | zero => rw [wrap_down_loop, if_neg hc]; exact h
    | succ k => rw [wrap_down_loop, if_neg hc]; exact h
  | succ n ih =>
    intro p q h k
    rw [show n + 1 + k = (n + k) + 1 by omega, wrap_down_loop]
    rw [wrap_down_loop] at h
    split_ifs at h with hc
    · rw [if_pos hc]
      exact ih _ _ h k
    · rw [if_neg hc]
      exact h

theorem wrap_up_loop_mono (size : F) :
    ∀ (fuel : Nat) (p q : F), wrap_up_loop size fuel p = some q →
      ∀ k : Nat, wrap_up_loop size (fuel + k) p = some q := by
  intro fuel
  induction fuel with
  | zero =>
    intro p q h k
    unfold wrap_up_loop at h
    split_ifs at h with hc
    rw [Nat.zero_add]
    cases k with
    | zero => rw [wrap_up_loop, if_neg hc]; exact h
    | succ k => rw [wrap_up_loop, if_neg hc]; exact h
  | succ n ih =>
    intro p q h k
    rw [show n + 1 + k = (n + k) + 1 by omega, wrap_up_loop]
    rw [wrap_up_loop] at h
    split_ifs at h with hc
    · rw [if_pos hc]
      exact ih _ _ h k
    · rw [if_neg hc]
      exact h

/-- C14: for a table size N ≥ 1 and any phase and increment in an ordered
field with a floor function (the reals among them), both wrap loops end: the
first after `j` rounds with a value `q`, the second after `i` rounds with a
value `p`, whatever larger number of rounds is allowed; and `p` lies in
[0, N) and differs from `phase + increment` by an integer multiple of N. -/
theorem C14_wrap_terminates (table_size : Nat) (hN : 1 ≤ table_size) (phase increment : F) :
    ∃ (p q : F) (j i : Nat),
      (∀ fuel : Nat, j ≤ fuel →
        wrap_down_loop (table_size : F) fuel (phase + increment) = some q) ∧
      (∀ fuel : Nat, i ≤ fuel → wrap_up_loop (table_size : F) fuel q = some p) ∧
      wrap_phase table_size (phase + increment) = some p ∧
      0 ≤ p ∧ p < table_size ∧ ∃ z : Int, p = phase + increment + z * table_size := by
  obtain ⟨p, hw, h0, h1, hz⟩ := wrap_phase_spec table_size (by omega) (phase + increment)
  unfold wrap_phase at hw
  cases hq : wrap_down_loop (table_size : F)
      ⌊(phase + increment) / (table_size : F)⌋.toNat (phase + increment) with
  | none => rw [hq] at hw; cases hw
  | some q =>
    rw [hq, Option.some_bind] at hw
    refine ⟨p, q, ⌊(phase + increment) / (table_size : F)⌋.toNat,
      ⌈-q / (table_size : F)⌉.toNat, fun fuel hf => ?_, fun fuel hf => ?_, ?_, h0, h1, hz⟩
    · obtain ⟨k, rfl⟩ := Nat.exists_eq_add_of_le hf
      exact wrap_down_loop_mono _ _ _ _ hq k
    · obtain ⟨k, rfl⟩ := Nat.exists_eq_add_of_le hf
      exact wrap_up_loop_mono _ _ _ _ hw k
    · unfold wrap_phase
      rw [hq, Option.some_bind]
      exact hw

/-- C14, worked example: table size 4, phase 1.5, increment 1000. -/
theorem C14_wrap_terminates_witness :
    ∃ (p q : ℚ) (j i : Nat),
      (∀ fuel : Nat, j ≤ fuel →
        wrap_down_loop ((4 : Nat) : ℚ) fuel (3 / 2 + 1000) = some q) ∧
      (∀ fuel : Nat, i ≤ fuel → wrap_up_loop ((4 : Nat) : ℚ) fuel q = some p) ∧
      wrap_phase 4 ((3 / 2 : ℚ) + 1000) = some p ∧
      0 ≤ p ∧ p < ((4 : Nat) : ℚ) ∧ ∃ z : Int, p = 3 / 2 + 1000 + z * ((4 : Nat) : ℚ) :=
  C14_wrap_terminates 4 (by decide) (3 / 2) 1000
theorem play_body_inv (x : t_wavecap F) (vec_env : List F) (s s1 : perform_vars F)
    (h : play_body x vec_env s = some s1) :
    ∃ e o p : F, vec_env[s.in_env]? = some e ∧
      interpolate x.table_interp x.table_mask s.mem s.phase = some o ∧
      wrap_phase x.table_size
        (s.phase + |envelope x s.env_last e| * (x.table_size : F)) = some p ∧
      s1 = { s with
        in_env := s.in_env + 1
        env_last := envelope x s.env_last e
        phaseIncrement := |envelope x s.env_last e| * (x.table_size : F)
        out := s.out ++ [o]
        n_computed := s.n_computed + 1
        phase := p } := by
  unfold play_body at h
  cases hv : vec_env[s.in_env]? with
  | none => simp [hv] at h
  | some e =>
    simp only [hv] at h
    cases hi : interpolate x.table_interp x.table_mask s.mem s.phase with
    | none => simp [hi] at h
    | some o =>
      simp only [hi] at h
      cases hw : wrap_phase x.table_size
          (s.phase + |envelope x s.env_last e| * (x.table_size : F)) with
      | none => simp [hw] at h
      | some p =>
        simp only [hw, Option.some.injEq] at h
        exact ⟨e, o, p, rfl, rfl, hw, h.symm⟩

theorem play_loop_phase (x : t_wavecap F) (n : Int) (vec_env : List F)
    (hsize : 0 < x.table_size) :
    ∀ (fuel : Nat) (s s1 : perform_vars F), play_loop x n vec_env fuel s = some s1 →
      (s.n_computed < n → 0 ≤ s1.phase ∧ s1.phase < x.table_size) ∧
      (¬ s.n_computed < n → s1 = s) := by
  intro fuel
  induction fuel with
  | zero =>
    intro s s1 h
    unfold play_loop at h
    split_ifs at h with hc
    cases h
    exact ⟨fun c => absurd c hc, fun _ => rfl⟩
  | succ k ih =>
    intro s s1 h
    rw [play_loop] at h
    split_ifs at h with hc
    · cases hb : play_body x vec_env s with
      | none => rw [hb] at h; cases h
      | some s2 =>
        rw [hb, Option.some_bind] at h
        obtain ⟨e, o, p, -, -, hw, hs2⟩ := play_body_inv x vec_env s s2 hb
        obtain ⟨q, hq, hq0, hq1, -⟩ := wrap_phase_spec x.table_size hsize
          (s.phase + |envelope x s.env_last e| * (x.table_size : F))
        rw [hw] at hq
        cases hq
        obtain ⟨hrun, hstop⟩ := ih s2 s1 h
        refine ⟨fun _ => ?_, fun c => absurd hc c⟩
        by_cases hc2 : s2.n_computed < n
        · exact hrun hc2
        · rw [hstop hc2, hs2]
          exact ⟨hq0, hq1⟩
    · cases h
      exact ⟨fun c => absurd c hc, fun _ => rfl⟩

theorem record_loop_inv (n : Int) (vec_table : List F) :
    ∀ (fuel : Nat) (s s1 : perform_vars F), record_loop n vec_table fuel s = some s1 →
      s1.phase = s.phase ∧ s1.env_last = s.env_last ∧
      s1.phaseIncrement = s.phaseIncrement ∧ s1.in_env = s.in_env ∧
      s1.n_computed - s.n_computed = s.table_record - s1.table_record ∧
      s.n_computed ≤ s1.n_computed ∧
      (s1.table_record ≤ 0 ∨ n ≤ s1.n_computed) ∧
      (0 ≤ s.table_record → 0 ≤ s1.table_record) := by
  intro fuel
  induction fuel with
  | zero =>
    intro s s1 h
    unfold record_loop at h
    split_ifs at h with hc
    cases h
    exact ⟨rfl, rfl, rfl, rfl, by omega, le_refl _, by omega, fun c => c⟩
  | succ k ih =>
    intro s s1 h
    rw [record_loop] at h
    split_ifs at h with hc
    · unfold record_body at h
      cases hv : vec_table[s.in_table]? with
      | none => simp [hv] at h
      | some v =>
        by_cases hm : s.table < s.mem.length
        · simp only [hv, if_pos hm, Option.some_bind] at h
          obtain ⟨h1, h2, h3, h4, h5, h6, h7, h8⟩ := ih _ _ h
          dsimp only at h1 h2 h3 h4 h5 h6 h7 h8
          exact ⟨h1, h2, h3, h4, by omega, by omega, h7, fun _ => h8 (by omega)⟩
        · simp [hv, hm] at h
    · cases h
      exact ⟨rfl, rfl, rfl, rfl, by omega, le_refl _, by omega, fun c => c⟩

theorem record_block_inv (x x2 : t_wavecap F) (vec_table : List F) (s s2 : perform_vars F)
    (h : record_block x vec_table s = some (x2, s2)) (hc0 : s.n_computed = 0) :
    s2.phase = s.phase ∧ s2.env_last = s.env_last ∧ s2.phaseIncrement = s.phaseIncrement ∧
    s2.in_env = s.in_env ∧ x2.table_size = x.table_size ∧
    (0 < x.block_size → s.table_record < x.block_size → s2.n_computed < x.block_size) := by
  unfold record_block at h
  split_ifs at h with hc
  · dsimp only at h
    split at h
    · cases h
    · rename_i s3 hl
      obtain ⟨h1, h2, h3, h4, h5, h6, h7, h8⟩ := record_loop_inv _ _ _ _ _ hl
      dsimp only at h1 h2 h3 h4 h5 h6 h7 h8
      split_ifs at h with hz
      · simp only [Option.some.injEq, Prod.mk.injEq] at h
        obtain ⟨e1, e2⟩ := h
        subst e1 e2
        exact ⟨h1, h2, h3, h4, rfl, fun _ _ => by dsimp only; omega⟩
      · simp only [Option.some.injEq, Prod.mk.injEq] at h
        obtain ⟨e1, e2⟩ := h
        subst e1 e2
        exact ⟨h1, h2, h3, h4, rfl, fun _ _ => by
          have := h8 (by omega)
          omega⟩
  · simp only [Option.some.injEq, Prod.mk.injEq] at h
    obtain ⟨e1, e2⟩ := h
    subst e1 e2
    exact ⟨rfl, rfl, rfl, rfl, rfl, fun hn _ => by omega⟩

/-- After a returning call the stored phase is the one at entry or lies in
[0, N); it lies in [0, N) when at least one sample was played. -/
theorem perform_phase (x x1 : t_wavecap F) (vec_table vec_env out : List F)
    (h : wavecap_perform x vec_table vec_env = some (x1, out)) (hsize : 0 < x.table_size) :
    (x1.phase = x.phase ∨ (0 ≤ x1.phase ∧ x1.phase < x.table_size)) ∧
    (0 < x.block_size → x.table_record < x.block_size →
      0 ≤ x1.phase ∧ x1.phase < x.table_size) := by
  unfold wavecap_perform at h
  dsimp only at h
  split at h
  · cases h
  · rename_i x2 s2 hr
    obtain ⟨r1, -, -, -, -, r6⟩ := record_block_inv x x2 vec_table _ s2 hr rfl
    dsimp only at r1 r6
    split at h
    · cases h
    · rename_i s3 hp
      simp only [Option.some.injEq, Prod.mk.injEq] at h
      obtain ⟨e1, -⟩ := h
      subst e1
      obtain ⟨hrun, hstop⟩ := play_loop_phase x x.block_size vec_env hsize _ _ _ hp
      dsimp only at hrun hstop ⊢
      refine ⟨?_, fun hn hrn => hrun (r6 hn hrn)⟩
      by_cases hc : s2.n_computed < x.block_size
      · exact Or.inr (hrun hc)
      · rw [hstop hc]
        exact Or.inl r1

theorem table_size_phase (x : t_wavecap F) (f : F) :
    (wavecap_table_size x f).1.phase = x.phase := by
  unfold wavecap_table_size _wavecap_table_alloc _wavecap_table_free
  dsimp only
  split_ifs <;> rfl

theorem table_interp_phase (x : t_wavecap F) (f : F) :
    (wavecap_table_interp x f).1.phase = x.phase := by
  unfold wavecap_table_interp
  dsimp only
  split_ifs <;> rfl

theorem reachable_phase_nonneg (m : libm F) (x : t_wavecap F) (h : reachable m x) :
    0 ≤ x.phase := by
  induction h with
  | new f => exact le_refl _
  | bang _ ih => exact ih
  | @table_size x f _ ih => rw [table_size_phase]; exact ih
  | @table_interp x f _ ih => rw [table_interp_phase]; exact ih
  | env_atk_ms f _ ih => exact ih
  | env_dcy_ms f _ ih => exact ih
  | env_enable _ ih => exact ih
  | env_disable _ ih => exact ih
  | @dsp x sr s_n _ ih =>
    rw [(wavecap_dsp_frame m x sr s_n).2.2.2.2.2.2]
    exact ih
  | @perform x x1 vt ve out hx hp ih =>
    obtain ⟨hpos, -⟩ := table_ok_pos x (reachable_table_ok m x hx)
    rcases (perform_phase x x1 vt ve out hp hpos).1 with h1 | h1
    · rw [h1]; exact ih
    · exact h1.1

/-- What holds of the stored phase in every reachable state: it is
non-negative; a `table_size` request never changes it (so it is not brought
back below a smaller N); and after every returning process call that plays at
least one sample it lies in [0, N) for the current table size N. -/
theorem reachable_phase_range (m : libm F) (x : t_wavecap F) (h : reachable m x) :
    0 ≤ x.phase ∧
    (∀ f : F, (wavecap_table_size x f).1.phase = x.phase) ∧
    ∀ (vec_table vec_env out : List F) (x1 : t_wavecap F),
      wavecap_perform x vec_table vec_env = some (x1, out) →
      0 < x.block_size → x.table_record < x.block_size →
      0 ≤ x1.phase ∧ x1.phase < x1.table_size := by
  refine ⟨reachable_phase_nonneg m x h, table_size_phase x, ?_⟩
  intro vt ve out x1 hp hn hr
  obtain ⟨hpos, -⟩ := table_ok_pos x (reachable_table_ok m x h)
  rw [(perform_frame x x1 vt ve out hp).2.1]
  exact (perform_phase x x1 vt ve out hp hpos).2 hn hr

/-- C15, the code at the failing input: a fresh object plays one sample with
control value 1/2 on its table of 1024 samples, which leaves the stored phase
at 512; the accepted request `table_size 2` then replaces the table and the
mask and leaves the phase as it is, so in this reachable state the table size
is 2 and the stored phase is 512, outside [0, 2). -/
theorem C15_resize_keeps_phase :
    wavecap_perform (wavecap_dsp demo_libm demo_new 44100 1) [0] [1 / 2] =
      some (demo_played, [0]) ∧
    reachable demo_libm (wavecap_table_size demo_played 2).1 ∧
    (wavecap_table_size demo_played 2).2 = pd_log.post ∧
    (wavecap_table_size demo_played 2).1.table_size = 2 ∧
    (wavecap_table_size demo_played 2).1.phase = 512 ∧
    ¬ (wavecap_table_size demo_played 2).1.phase <
      ((wavecap_table_size demo_played 2).1.table_size : ℚ) :=
  ⟨by decide!,
    reachable.table_size 2
      (reachable.perform [0] [1 / 2] [0] (reachable.dsp 44100 1 (reachable.new 0))
        (by decide! :
          wavecap_perform (wavecap_dsp demo_libm demo_new 44100 1) [0] [1 / 2] =
            some (demo_played, [0]))),
    by decide!, by decide!, by decide!, by decide!⟩
/-! ## Claims about the envelope follower -/

theorem play_loop_env (x : t_wavecap F) (n : Int) (vec_env : List F) :
    ∀ (fuel : Nat) (s s1 : perform_vars F), play_loop x n vec_env fuel s = some s1 →
      s1.env_last = List.foldl (envelope x) s.env_last
        ((vec_env.drop s.in_env).take (n - s.n_computed).toNat) := by
  intro fuel
  induction fuel with
  | zero =>
    intro s s1 h
    unfold play_loop at h
    split_ifs at h with hc
    cases h
    rw [show (n - s.n_computed).toNat = 0 by omega]
    rfl
  | succ k ih =>
    intro s s1 h
    rw [play_loop] at h
    split_ifs at h with hc
    · cases hb : play_body x vec_env s with
      | none => rw [hb] at h; cases h
      | some s2 =>
        rw [hb, Option.some_bind] at h
        obtain ⟨e, o, p, he, -, -, hs2⟩ := play_body_inv x vec_env s s2 hb
        have hlt : s.in_env < vec_env.length := by
          by_contra hge
          rw [List.getElem?_eq_none (by omega)] at he
          cases he
        have hget : vec_env[s.in_env] = e := by
          rw [List.getElem?_eq_getElem hlt] at he
          exact Option.some.inj he
        obtain ⟨j, hj⟩ : ∃ j : Nat, (n - s.n_computed).toNat = j + 1 :=
          ⟨(n - s.n_computed).toNat - 1, by omega⟩
        rw [ih s2 s1 h, hs2]
        dsimp only
        rw [hj, show (n - (s.n_computed + 1)).toNat = j by omega,
          List.drop_eq_getElem_cons hlt, List.take_succ_cons, List.foldl_cons, hget]
    · cases h
      rw [show (n - s.n_computed).toNat = 0 by omega]
      rfl

/-- The follower memory after a returning call in the Idle state is the fold of
the follower statement over the control samples of the block. -/
theorem perform_env (x x1 : t_wavecap F) (vec_table vec_env out : List F)
    (h : wavecap_perform x vec_table vec_env = some (x1, out))
    (hidle : x.table_record ≤ 0) :
    x1.env_last = List.foldl (envelope x) x.env_last (vec_env.take x.block_size.toNat) := by
  have hr : ¬ x.table_record > 0 := by omega
  unfold wavecap_perform at h
  simp only [record_block, if_neg hr] at h
  split at h
  · cases h
  · rename_i s3 hp
    simp only [Option.some.injEq, Prod.mk.injEq] at h
    obtain ⟨e1, -⟩ := h
    subst e1
    have := play_loop_env x x.block_size vec_env _ _ _ hp
    simpa using this

theorem envelope_decay (x : t_wavecap F) (last c mag : F) (hen : x.env_enabled ≠ 0)
    (hc : |c| = mag) (hle : mag ≤ last) :
    envelope x last c = x.env_dcy_coeff * (last - mag) + mag := by
  unfold envelope
  rw [if_pos hen]
  dsimp only
  rw [hc, if_neg (not_lt.mpr hle)]

theorem envelope_decay_fold (x : t_wavecap F) (mag : F) (hen : x.env_enabled ≠ 0)
    (hd0 : 0 ≤ x.env_dcy_coeff) :
    ∀ (l : List F) (last : F), (∀ c ∈ l, |c| = mag) → mag ≤ last →
      List.foldl (envelope x) last l - mag = x.env_dcy_coeff ^ l.length * (last - mag) := by
  intro l
  induction l with
  | nil => intro last _ _; simp
  | cons c cs ih =>
    intro last hall hle
    have hc : |c| = mag := hall c (List.mem_cons_self _ _)
    have hstep := envelope_decay x last c mag hen hc hle
    have hle2 : mag ≤ envelope x last c := by
      rw [hstep]
      have : 0 ≤ x.env_dcy_coeff * (last - mag) := mul_nonneg hd0 (by linarith)
      linarith
    rw [List.foldl_cons, ih (envelope x last c) (fun d hd => hall d (List.mem_cons_of_mem _ hd))
      hle2, hstep, List.length_cons, pow_succ]
    ring

/-- C16: with the envelope follower enabled, a decay coefficient d in (0, 1)
and a block of k control samples of constant magnitude m with m ≤ last_0, a
process call in the Idle state returns with the follower memory last_k such
that last_k - m = d ^ k * (last_0 - m), m ≤ last_k ≤ last_0; and a further
sample of magnitude m takes the decay branch again and does not raise the
memory. -/
theorem C16_decay_convergence (x : t_wavecap F) (vec_table vec_env : List F) (mag : F)
    (hok : table_ok x) (hidle : x.table_record ≤ 0) (hen : x.env_enabled ≠ 0)
    (hd0 : 0 < x.env_dcy_coeff) (hd1 : x.env_dcy_coeff < 1)
    (hbs : x.block_size = vec_env.length) (hmag : ∀ c ∈ vec_env, |c| = mag)
    (hle : mag ≤ x.env_last) :
    ∃ (x1 : t_wavecap F) (out : List F),
      wavecap_perform x vec_table vec_env = some (x1, out) ∧
      x1.env_last - mag = x.env_dcy_coeff ^ vec_env.length * (x.env_last - mag) ∧
      mag ≤ x1.env_last ∧ x1.env_last ≤ x.env_last ∧
      ∀ c : F, |c| = mag →
        envelope x x1.env_last c = x.env_dcy_coeff * (x1.env_last - mag) + mag ∧
        envelope x x1.env_last c ≤ x1.env_last := by
  obtain ⟨hpos, hmask⟩ := table_ok_pos x hok
  obtain ⟨hlen, -, -, h32⟩ := hok
  have hn : x.block_size.toNat = vec_env.length := by rw [hbs, Int.toNat_ofNat]
  obtain ⟨e, p, q, o, -, -, -, hsome⟩ := perform_spec x vec_table vec_env hpos hmask hlen h32
    (by omega) (by omega) (fun _ => by omega)
  have henv := perform_env x _ vec_table vec_env _ hsome hidle
  rw [hn, List.take_of_length_le (le_refl _)] at henv
  have hfold := envelope_decay_fold x mag hen (le_of_lt hd0) vec_env x.env_last hmag hle
  rw [← henv] at hfold
  have hpow0 : 0 ≤ x.env_dcy_coeff ^ vec_env.length := pow_nonneg (le_of_lt hd0) _
  have hpow1 : x.env_dcy_coeff ^ vec_env.length ≤ 1 :=
    pow_le_one₀ (le_of_lt hd0) (le_of_lt hd1)
  have hgap : 0 ≤ x.env_last - mag := by linarith
  have hge : mag ≤ e := by
    have : 0 ≤ x.env_dcy_coeff ^ vec_env.length * (x.env_last - mag) := mul_nonneg hpow0 hgap
    dsimp only at hfold
    linarith
  have hle1 : e ≤ x.env_last := by
    have : x.env_dcy_coeff ^ vec_env.length * (x.env_last - mag) ≤ 1 * (x.env_last - mag) :=
      mul_le_mul_of_nonneg_right hpow1 hgap
    dsimp only at hfold
    linarith
  refine ⟨_, _, hsome, hfold, hge, hle1, fun c hc => ?_⟩
  have hstep := envelope_decay x e c mag hen hc hge
  refine ⟨hstep, ?_⟩
  dsimp only
  rw [hstep]
  have : x.env_dcy_coeff * (e - mag) ≤ 1 * (e - mag) :=
    mul_le_mul_of_nonneg_right (le_of_lt hd1) (by linarith)
  linarith

/-- C16, worked example: decay coefficient 1/2, follower memory 1, three
control samples of magnitude 1/4. -/
theorem C16_decay_convergence_witness :
    ∃ (x1 : t_wavecap ℚ) (out : List ℚ),
      wavecap_perform demo_follow [0, 0, 0] [1 / 4, -1 / 4, 1 / 4] = some (x1, out) ∧
      x1.env_last - 1 / 4 = (1 / 2) ^ 3 * (1 - 1 / 4) ∧
      1 / 4 ≤ x1.env_last ∧ x1.env_last ≤ 1 := by
  obtain ⟨x1, out, h1, h2, h3, h4, -⟩ := C16_decay_convergence demo_follow [0, 0, 0]
    [1 / 4, -1 / 4, 1 / 4] (1 / 4)
    ⟨by decide!, by decide!, ⟨10, by decide!⟩, by decide!⟩ (by decide!) (by decide!)
    (by decide!) (by decide!) (by decide!)
    (by
      intro c hc
      simp only [List.mem_cons, List.mem_singleton, List.not_mem_nil, or_false] at hc
      rcases hc with rfl | rfl | rfl <;> decide!)
    (by decide!)
  have e1 : demo_follow.env_dcy_coeff = 1 / 2 := by decide!
  have e2 : demo_follow.env_last = 1 := by decide!
  rw [e1, e2] at h2
  rw [e2] at h4
  exact ⟨x1, out, h1, h2, h3, h4⟩

/-- C17: with the envelope follower enabled and an attack coefficient a in
(0, 1), for every follower memory `last` and control sample c with
|c| > last, the follower statement takes the attack branch,
last' = a * (last - |c|) + |c| with last < last' < |c|; this is the memory a
process call of one sample in the Idle state stores. -/
theorem C17_attack_step (x : t_wavecap F) (vec_table : List F) (c : F)
    (hen : x.env_enabled ≠ 0) (ha0 : 0 < x.env_atk_coeff) (ha1 : x.env_atk_coeff < 1)
    (hgt : x.env_last < |c|) :
    envelope x x.env_last c = x.env_atk_coeff * (x.env_last - |c|) + |c| ∧
    x.env_last < envelope x x.env_last c ∧ envelope x x.env_last c < |c| ∧
    (table_ok x → x.table_record ≤ 0 → x.block_size = 1 →
      ∃ (x1 : t_wavecap F) (out : List F),
        wavecap_perform x vec_table [c] = some (x1, out) ∧
        x1.env_last = x.env_atk_coeff * (x.env_last - |c|) + |c|) := by
  have hstep : envelope x x.env_last c = x.env_atk_coeff * (x.env_last - |c|) + |c| := by
    unfold envelope
    rw [if_pos hen]
    dsimp only
    rw [if_pos hgt]
  have hgap : 0 < |c| - x.env_last := by linarith
  refine ⟨hstep, ?_, ?_, fun hok hidle hbs => ?_⟩
  · rw [hstep]
    nlinarith [mul_pos (sub_pos.mpr ha1) hgap]
  · rw [hstep]
    nlinarith [mul_pos ha0 hgap]
  · obtain ⟨hpos, hmask⟩ := table_ok_pos x hok
    obtain ⟨o, ho⟩ := interpolate_total x.table_interp x.table_mask x.table x.phase
      (by rw [hok.1]; exact hmask)
    obtain ⟨p, hw, -⟩ := wrap_phase_spec x.table_size hpos
      (x.phase + |envelope x x.env_last c| * (x.table_size : F))
    exact ⟨_, _, perform_one x vec_table c o p hidle hbs ho hw, hstep⟩

/-- C17, worked example: attack coefficient 1/2, follower memory 1, control
sample -3: the new memory is 2. -/
theorem C17_attack_step_witness :
    envelope demo_follow demo_follow.env_last (-3) = 2 ∧
    demo_follow.env_last < envelope demo_follow demo_follow.env_last (-3) ∧
    envelope demo_follow demo_follow.env_last (-3) < |(-3 : ℚ)| := by
  obtain ⟨h1, h2, h3, -⟩ := C17_attack_step demo_follow [0] (-3)
    (by decide!) (by decide!) (by decide!) (by decide!)
  exact ⟨h1.trans (by decide!), h2, h3⟩
/-! ## Claims about the coefficients and the remaining receivers -/

/-- C19: `env_atk_ms t` stores `t`, recomputes the attack coefficient from `t`
and the stored sample rate, sets `env_last` to 0 and changes nothing else;
`env_dcy_ms t` does the same for the decay coefficient; `dsp` with a sample
rate different from the stored one stores it (and half of it as Nyquist rate),
recomputes both coefficients from it and sets `env_last` to 0; `dsp` with the
stored sample rate leaves coefficients and `env_last` as they are; in both
cases `dsp` stores the block size and changes nothing else. -/
theorem C19_env_frame (m : libm F) (x : t_wavecap F) (t sr : F) (s_n : Int) :
    wavecap_env_atk_ms m x t =
      { x with
        env_atk_ms := t
        env_atk_coeff := m.exp (m.log (1 / 100) / (t * x.sample_rate * (1 / 1000)))
        env_last := 0 } ∧
    wavecap_env_dcy_ms m x t =
      { x with
        env_dcy_ms := t
        env_dcy_coeff := m.exp (m.log (1 / 100) / (t * x.sample_rate * (1 / 1000)))
        env_last := 0 } ∧
    (x.sample_rate ≠ sr →
      wavecap_dsp m x sr s_n =
        { x with
          sample_rate := sr
          nyquist_rate := sr / 2
          env_atk_coeff := m.exp (m.log (1 / 100) / (x.env_atk_ms * sr * (1 / 1000)))
          env_dcy_coeff := m.exp (m.log (1 / 100) / (x.env_dcy_ms * sr * (1 / 1000)))
          env_last := 0
          block_size := s_n }) ∧
    (x.sample_rate = sr → wavecap_dsp m x sr s_n = { x with block_size := s_n }) := by
  refine ⟨rfl, rfl, fun h => ?_, fun h => ?_⟩
  · unfold wavecap_dsp
    rw [if_pos h]
    rfl
  · unfold wavecap_dsp
    rw [if_neg (not_not.mpr h)]

/-- C19, worked example: on `demo_follow` (sample rate 44100) a `dsp` call with
sample rate 48000 resets the follower memory, one with 44100 keeps it. -/
theorem C19_env_frame_witness :
    (wavecap_dsp demo_libm demo_follow 48000 64).env_last = 0 ∧
    (wavecap_dsp demo_libm demo_follow 48000 64).sample_rate = 48000 ∧
    wavecap_dsp demo_libm demo_follow 44100 64 = { demo_follow with block_size := 64 } := by
  obtain ⟨-, -, h3, h4⟩ := C19_env_frame demo_libm demo_follow 0 48000 64
  obtain ⟨-, -, -, h5⟩ := C19_env_frame demo_libm demo_follow 0 44100 64
  have e := h3 (by decide!)
  exact ⟨by rw [e], by rw [e], h5 (by decide!)⟩

/-- C20, the code at the failing input: in the reachable state with the table
size 2 ^ 31 `bang` assigns the `uint32_t` size to the `int` countdown and
leaves it at -2 ^ 31, not at the table size. -/
theorem C20_bang_overflow :
    reachable demo_libm (wavecap_table_size demo_new 2147483648).1 ∧
    (wavecap_table_size demo_new 2147483648).1.table_size = 2147483648 ∧
    (wavecap_table_record (wavecap_table_size demo_new 2147483648).1).table_record =
      -2147483648 ∧
    (wavecap_table_record (wavecap_table_size demo_new 2147483648).1).table_record ≠
      ((wavecap_table_size demo_new 2147483648).1.table_size : Int) := by
  have hsz : (wavecap_table_size demo_new 2147483648).1.table_size = 2147483648 := by
    rw [table_size_accept demo_new 2147483648 31 (by decide!), if_pos (by decide!)]
    rfl
  have hrec : (wavecap_table_record (wavecap_table_size demo_new 2147483648).1).table_record =
      -2147483648 := by
    show int_of_uint32 (wavecap_table_size demo_new 2147483648).1.table_size = -2147483648
    rw [hsz]
    decide
  refine ⟨reachable.table_size 2147483648 (reachable.new 0), hsz, hrec, ?_⟩
  rw [hrec, hsz]
  decide

/-- The effect of `bang` on every object whose table size N is below 2 ^ 31
(the statement of C20 for every table size but 2 ^ 31):
whatever its countdown, `bang` sets the countdown to N and changes no other
field (table, mask, phase, mode, envelope fields); and on a well-formed
object the capture that follows records the raw input from table index 0 on,
N samples in all: after process calls of `total` samples the countdown is
`N - min N total` and `table[j]` is the `j`-th raw-input sample for
`j < min N total`. -/
theorem bang_restart (m : libm F) (x : t_wavecap F) (blocks : List (block F))
    (h31 : x.table_size < 2147483648) :
    wavecap_table_record x = { x with table_record := (x.table_size : Int) } ∧
    (table_ok x → (∀ b ∈ blocks, block_ok b) →
      ∃ x1 : t_wavecap F, process_all m (wavecap_table_record x) blocks = some x1 ∧
        x1.table_record =
          (x.table_size : Int) - (min x.table_size (total_samples blocks) : Nat) ∧
        ∀ j : Nat, j < min x.table_size (total_samples blocks) →
          x1.table[j]? = (raw_input blocks)[j]?) := by
  have hbang : wavecap_table_record x = { x with table_record := (x.table_size : Int) } := by
    unfold wavecap_table_record int_of_uint32
    rw [if_pos h31]
  refine ⟨hbang, fun hok hb => ?_⟩
  obtain ⟨hpos, hmask⟩ := table_ok_pos x hok
  obtain ⟨hlen, -, -, h32⟩ := hok
  obtain ⟨x1, hx1, hrec, htab, -⟩ := process_all_spec m blocks (wavecap_table_record x)
    hpos hmask hlen h32 (by rw [hbang]) hb
  rw [hbang] at hrec htab
  dsimp only at hrec htab
  rw [Int.toNat_ofNat] at hrec htab
  rw [Nat.sub_self] at htab
  refine ⟨x1, hx1, hrec, fun j hj => ?_⟩
  have hvals : ((raw_input blocks).take (min x.table_size (total_samples blocks))).length =
      min x.table_size (total_samples blocks) := by
    rw [List.length_take, raw_input_length]
    omega
  rw [htab, write_run_getElem? _ _ _ _ (by rw [hvals]; omega), hvals,
    if_pos ⟨Nat.zero_le _, by omega⟩, Nat.sub_zero, List.getElem?_take]
  exact if_pos hj

/-- Worked example for `bang_restart`: `bang` on `demo_capture3` (table of 8
samples, countdown 3) puts the countdown back to 8, and the 8 samples that
follow fill the table from index 0. -/
theorem bang_restart_example :
    (wavecap_table_record demo_capture3).table_record = 8 ∧
    ∃ x1 : t_wavecap ℚ,
      process_all demo_libm (wavecap_table_record demo_capture3)
        [{ sr := 44100, vec_table := [11, 12, 13, 14, 15, 16, 17, 18],
           vec_env := [0, 0, 0, 0, 0, 0, 0, 0] }] = some x1 ∧
      x1.table_record = 0 ∧ x1.table[0]? = some 11 := by
  obtain ⟨h1, h2⟩ := bang_restart demo_libm demo_capture3
    [{ sr := 44100, vec_table := [11, 12, 13, 14, 15, 16, 17, 18],
       vec_env := [0, 0, 0, 0, 0, 0, 0, 0] }] (by decide!)
  obtain ⟨x1, hx1, hrec, htab⟩ := h2 ⟨by decide!, by decide!, ⟨3, by decide!⟩, by decide!⟩
    (by
      intro b hb
      simp only [List.mem_singleton] at hb
      subst hb
      rfl)
  refine ⟨by rw [h1]; decide!, x1, hx1, hrec.trans (by decide!), ?_⟩
  exact (htab 0 (by decide!)).trans (by decide!)

/-! ## The playback samples of a block -/

theorem play_loop_oscillator (x : t_wavecap F) (n : Int) (vec_env : List F) :
    ∀ (fuel : Nat) (s s1 : perform_vars F), play_loop x n vec_env fuel s = some s1 →
      ∃ os : List F,
        oscillator x s.mem s.env_last s.phase s.phaseIncrement
          ((vec_env.drop s.in_env).take (n - s.n_computed).toNat) =
          some (os, s1.env_last, s1.phase, s1.phaseIncrement) ∧
        s1.out = s.out ++ os ∧ s1.mem = s.mem ∧ os.length = (n - s.n_computed).toNat := by
  intro fuel
  induction fuel with
  | zero =>
    intro s s1 h
    unfold play_loop at h
    split_ifs at h with hc
    cases h
    rw [show (n - s.n_computed).toNat = 0 by omega, List.take_zero]
    exact ⟨[], rfl, (List.append_nil _).symm, rfl, rfl⟩
  | succ k ih =>
    intro s s1 h
    rw [play_loop] at h
    split_ifs at h with hc
    · cases hb : play_body x vec_env s with
      | none => rw [hb] at h; cases h
      | some s2 =>
        rw [hb, Option.some_bind] at h
        obtain ⟨e, o, p, he, ho, hw, hs2⟩ := play_body_inv x vec_env s s2 hb
        have hlt : s.in_env < vec_env.length := by
          by_contra hge
          rw [List.getElem?_eq_none (by omega)] at he
          cases he
        have hget : vec_env[s.in_env] = e := by
          rw [List.getElem?_eq_getElem hlt] at he
          exact Option.some.inj he
        obtain ⟨j, hj⟩ : ∃ j : Nat, (n - s.n_computed).toNat = j + 1 :=
          ⟨(n - s.n_computed).toNat - 1, by omega⟩
        obtain ⟨os, hos, hout, hmem, hlen⟩ := ih s2 s1 h
        rw [hs2] at hos hout hmem hlen
        dsimp only at hos hout hmem hlen
        rw [show (n - (s.n_computed + 1)).toNat = j by omega] at hos hlen
        refine ⟨o :: os, ?_, ?_, hmem, ?_⟩
        · rw [hj, List.drop_eq_getElem_cons hlt, List.take_succ_cons, hget, oscillator, ho, hw]
          dsimp only
          rw [hos]
        · rw [hout, List.append_assoc, List.singleton_append]
        · rw [hj, List.length_cons, hlen]
    · cases h
      rw [show (n - s.n_computed).toNat = 0 by omega, List.take_zero]
      exact ⟨[], rfl, (List.append_nil _).symm, rfl, rfl⟩

/-- A process call on a block of `n` samples, entered with a countdown not
above the table size: with `k = min table_record n`, the call stores the
first `k` raw-input samples in the table, writes `k` zeros, and then writes
the `n - k` samples of the playback loop run from the follower memory and the
phase of entry on the control samples `vec_env[k..n-1]`; the object after the
call holds what that loop leaves. -/
theorem perform_oscillator (x : t_wavecap F) (vec_table vec_env : List F) (n : Nat)
    (hok : table_ok x) (hrec : x.table_record ≤ x.table_size)
    (hn : x.block_size = n) (hvt : vec_table.length = n) (hve : vec_env.length = n) :
    ∃ (os : List F) (e p q : F),
      oscillator x
          (write_run x.table (x.table_size - x.table_record.toNat)
            (vec_table.take (min x.table_record.toNat n)))
          x.env_last x.phase x.phaseIncrement (vec_env.drop (min x.table_record.toNat n)) =
        some (os, e, p, q) ∧
      os.length = n - min x.table_record.toNat n ∧
      wavecap_perform x vec_table vec_env = some
        ({ x with
            table_record := x.table_record - (min x.table_record.toNat n : Nat)
            table := write_run x.table (x.table_size - x.table_record.toNat)
              (vec_table.take (min x.table_record.toNat n))
            env_last := e
            phase := p
            phaseIncrement := q },
          List.replicate (min x.table_record.toNat n) 0 ++ os) := by
  obtain ⟨hpos, hmask⟩ := table_ok_pos x hok
  obtain ⟨hlen, -, -, h32⟩ := hok
  have hbs : x.block_size.toNat = n := by rw [hn, Int.toNat_ofNat]
  obtain ⟨e, p, q, o, holen, -, -, hsome⟩ := perform_spec x vec_table vec_env hpos hmask hlen h32
    hrec (by rw [hbs, hvt]; exact min_le_right _ _) (fun _ => by rw [hbs, hve])
  obtain ⟨T, I, hfull⟩ := perform_eq x vec_table vec_env
    (Or.inr ⟨hrec, h32, hlen, by rw [hbs, hvt]; exact min_le_right _ _⟩)
  rw [hbs] at holen hsome hfull
  set k := min x.table_record.toNat n with hk
  have hkn : k ≤ n := min_le_right _ _
  cases hl : play_loop x x.block_size vec_env (x.block_size - (k : Int)).toNat
      { mem := write_run x.table (x.table_size - x.table_record.toNat) (vec_table.take k)
        table := T
        in_table := I
        in_env := k
        out := List.replicate k 0
        table_record := x.table_record - (k : Int)
        n_computed := (k : Int)
        env_last := x.env_last
        phase := x.phase
        phaseIncrement := x.phaseIncrement } with
  | none =>
    rw [hl, hsome] at hfull
    cases hfull
  | some s3 =>
    obtain ⟨os, hos, hout, hmem, hoslen⟩ := play_loop_oscillator x x.block_size vec_env _ _ s3 hl
    dsimp only at hos hout hmem hoslen
    have hcnt : (x.block_size - (k : Int)).toNat = n - k := by omega
    have hdl : (vec_env.drop k).length ≤ n - k := by rw [List.length_drop, hve]
    rw [hcnt, List.take_of_length_le hdl] at hos
    rw [hcnt] at hoslen
    rw [hl, Option.map_some', hsome] at hfull
    have h1 := (Prod.mk.inj (Option.some.inj hfull)).1
    have h2 := (Prod.mk.inj (Option.some.inj hfull)).2
    have he : e = s3.env_last := congrArg t_wavecap.env_last h1
    have hp : p = s3.phase := congrArg t_wavecap.phase h1
    have hq : q = s3.phaseIncrement := congrArg t_wavecap.phaseIncrement h1
    have ho : o = os := by
      rw [hout] at h2
      exact List.append_cancel_left h2
    refine ⟨os, e, p, q, ?_, hoslen, ?_⟩
    · rw [he, hp, hq]
      exact hos
    · rw [hsome, ho]

/-- Worked example: a block of 8 samples entered with countdown 3 on a table
of 8 samples (truncate mode, follower off, phase 0): the raw-input samples
6, 7, 8 complete the table, 3 zeros are written, and the control samples 3..7,
each 1/8, step the phase by 1 through the table: the last 5 output samples
are 1, 2, 3, 4, 5. -/
theorem perform_oscillator_example :
    oscillator demo_capture3 [1, 2, 3, 4, 5, 6, 7, 8] 0 0 0 [1 / 8, 1 / 8, 1 / 8, 1 / 8, 1 / 8] =
      some ([1, 2, 3, 4, 5], 1 / 8, 5, 1) ∧
    wavecap_perform demo_capture3 [6, 7, 8, 9, 10, 11, 12, 13]
        [1, 1, 1, 1 / 8, 1 / 8, 1 / 8, 1 / 8, 1 / 8] =
      some ({ demo_capture3 with
          table_record := 0
          table := [1, 2, 3, 4, 5, 6, 7, 8]
          env_last := 1 / 8
          phase := 5
          phaseIncrement := 1 }, [0, 0, 0, 1, 2, 3, 4, 5]) ∧
    ∃ (os : List ℚ) (e p q : ℚ),
      oscillator demo_capture3
          (write_run demo_capture3.table
            (demo_capture3.table_size - demo_capture3.table_record.toNat)
            (([6, 7, 8, 9, 10, 11, 12, 13] : List ℚ).take
              (min demo_capture3.table_record.toNat 8)))
          demo_capture3.env_last demo_capture3.phase demo_capture3.phaseIncrement
          (([1, 1, 1, 1 / 8, 1 / 8, 1 / 8, 1 / 8, 1 / 8] : List ℚ).drop
            (min demo_capture3.table_record.toNat 8)) = some (os, e, p, q) ∧
      os.length = 8 - min demo_capture3.table_record.toNat 8 ∧
      wavecap_perform demo_capture3 [6, 7, 8, 9, 10, 11, 12, 13]
          [1, 1, 1, 1 / 8, 1 / 8, 1 / 8, 1 / 8, 1 / 8] = some
        ({ demo_capture3 with
            table_record :=
              demo_capture3.table_record - (min demo_capture3.table_record.toNat 8 : Nat)
            table := write_run demo_capture3.table
              (demo_capture3.table_size - demo_capture3.table_record.toNat)
              (([6, 7, 8, 9, 10, 11, 12, 13] : List ℚ).take
                (min demo_capture3.table_record.toNat 8))
            env_last := e
            phase := p
            phaseIncrement := q },
          List.replicate (min demo_capture3.table_record.toNat 8) 0 ++ os) :=
  ⟨by decide!, by decide!,
    perform_oscillator demo_capture3 [6, 7, 8, 9, 10, 11, 12, 13]
      [1, 1, 1, 1 / 8, 1 / 8, 1 / 8, 1 / 8, 1 / 8] 8
      ⟨rfl, rfl, ⟨3, rfl⟩, by decide!⟩ (by decide!) rfl rfl rfl⟩

/-- C3, the code at the failing input: on a table of 4 samples `bang` sets the
countdown to 4; the accepted request `table_size 2` keeps it, so the
reachable state has countdown 4 on a table of 2 samples.  A process call on a
block of 8 samples then has k = min 4 8 = 4, and the first store of the
recording loop goes to offset 4294967294, outside the table: the call does
not produce the 4 zeros and 4 playback samples. -/
theorem C3_split_out_of_bounds :
    reachable demo_libm
      (wavecap_table_size (wavecap_table_record (wavecap_table_size demo_new 4).1) 2).1 ∧
    (wavecap_table_size (wavecap_table_record (wavecap_table_size demo_new 4).1) 2).2 =
      pd_log.post ∧
    (wavecap_table_size (wavecap_table_record (wavecap_table_size demo_new 4).1) 2).1.table_record
      = 4 ∧
    (wavecap_table_size (wavecap_table_record (wavecap_table_size demo_new 4).1) 2).1.table_size
      = 2 ∧
    (wavecap_table_size (wavecap_table_record (wavecap_table_size demo_new 4).1) 2).1.table.length
      = 2 ∧
    uint32_sub_int 2 4 = 4294967294 ∧
    process demo_libm
      (wavecap_table_size (wavecap_table_record (wavecap_table_size demo_new 4).1) 2).1
      { sr := 44100, vec_table := [1, 2, 3, 4, 5, 6, 7, 8],
        vec_env := [1 / 8, 1 / 8, 1 / 8, 1 / 8, 1 / 8, 1 / 8, 1 / 8, 1 / 8] } = none :=
  ⟨reachable.table_size 2 (reachable.bang (reachable.table_size 4 (reachable.new 0))),
    by decide!, by decide!, by decide!, by decide!, by decide!, by decide!⟩

/-! ## The default branch of the interpolation switch -/

theorem table_size_interp (x : t_wavecap F) (f : F) :
    (wavecap_table_size x f).1.table_interp = x.table_interp := by
  unfold wavecap_table_size _wavecap_table_alloc _wavecap_table_free
  dsimp only
  split_ifs <;> rfl

theorem reachable_interp (m : libm F) (x : t_wavecap F) (h : reachable m x) :
    x.table_interp = truncate ∨ x.table_interp = lin_2 ∨ x.table_interp = lin_4 := by
  induction h with
  | new f => exact Or.inl rfl
  | bang _ ih => exact ih
  | @table_size x f _ ih => rw [table_size_interp]; exact ih
  | @table_interp x f _ ih =>
    unfold wavecap_table_interp
    dsimp only
    split_ifs with hc
    · exact ih
    · dsimp only
      unfold interp_types_num at hc
      unfold truncate lin_2 lin_4
      omega
  | env_atk_ms f _ ih => exact ih
  | env_dcy_ms f _ ih => exact ih
  | env_enable _ ih => exact ih
  | env_disable _ ih => exact ih
  | @dsp x sr s_n _ ih =>
    rw [(wavecap_dsp_frame m x sr s_n).2.2.2.2.2.1]
    exact ih
  | @perform x x1 vt ve out _ hp ih =>
    rw [(perform_frame x x1 vt ve out hp).2.2.2.1]
    exact ih

theorem interpolate_default (table_interp : Int) (mask : Nat) (wavetable : List F) (phase : F)
    (h : table_interp ≠ truncate ∧ table_interp ≠ lin_2 ∧ table_interp ≠ lin_4) :
    interpolate table_interp mask wavetable phase = some 0 := by
  unfold interpolate
  rw [if_neg h.1, if_neg h.2.1, if_neg h.2.2]

theorem play_loop_default (x : t_wavecap F) (n : Int) (vec_env : List F)
    (hmode : x.table_interp ≠ truncate ∧ x.table_interp ≠ lin_2 ∧ x.table_interp ≠ lin_4) :
    ∀ (fuel : Nat) (s s1 : perform_vars F), play_loop x n vec_env fuel s = some s1 →
      (∀ v ∈ s.out, v = 0) → ∀ v ∈ s1.out, v = 0 := by
  intro fuel
  induction fuel with
  | zero =>
    intro s s1 h hz
    unfold play_loop at h
    split_ifs at h with hc
    cases h
    exact hz
  | succ k ih =>
    intro s s1 h hz
    rw [play_loop] at h
    split_ifs at h with hc
    · cases hb : play_body x vec_env s with
      | none => rw [hb] at h; cases h
      | some s2 =>
        rw [hb, Option.some_bind] at h
        obtain ⟨e, o, p, -, ho, -, hs2⟩ := play_body_inv x vec_env s s2 hb
        rw [interpolate_default _ _ _ _ hmode] at ho
        have ho0 : o = 0 := (Option.some.inj ho).symm
        refine ih s2 s1 h ?_
        rw [hs2]
        dsimp only
        intro v hv
        rcases List.mem_append.mp hv with hv | hv
        · exact hz v hv
        · rw [List.mem_singleton] at hv
          rw [hv, ho0]
    · cases h
      exact hz

/-- C21, counterexample: the table [0, 1, 2, 3] at phase 1.5 with the
interpolation-mode value 5: the process call of one sample returns, the output
sample is 0, and the object is as before. -/
theorem C21_counterexample :
    wavecap_perform { demo_table4 with table_interp := 5 } [0] [0] =
      some ({ demo_table4 with table_interp := 5 }, [0]) := by
  decide!

/-- C21 (amended): with an interpolation-mode value that is none of truncate,
Linear2, Cubic4 the process call returns as usual and every output sample of
the block is 0, nothing else happens: the follower memory, the phase and the
phase increment after the call are those the playback loop leaves on the
control samples it consumes; and no state reached through the receivers holds
such a value. -/
theorem C21_default_mode_zero (x : t_wavecap F) (vec_table vec_env : List F)
    (hok : table_ok x) (hrec : x.table_record ≤ x.table_size)
    (hvt : x.block_size.toNat ≤ vec_table.length)
    (hve : x.block_size.toNat ≤ vec_env.length)
    (hmode : x.table_interp ≠ truncate ∧ x.table_interp ≠ lin_2 ∧ x.table_interp ≠ lin_4) :
    (∃ x1 : t_wavecap F, wavecap_perform x vec_table vec_env =
      some (x1, List.replicate x.block_size.toNat 0) ∧ x1.table_interp = x.table_interp ∧
      ∃ os : List F,
        oscillator x
            (write_run x.table (x.table_size - x.table_record.toNat)
              (vec_table.take (min x.table_record.toNat x.block_size.toNat)))
            x.env_last x.phase x.phaseIncrement
            ((vec_env.drop (min x.table_record.toNat x.block_size.toNat)).take
              (x.block_size.toNat - min x.table_record.toNat x.block_size.toNat)) =
          some (os, x1.env_last, x1.phase, x1.phaseIncrement)) ∧
    ∀ m : libm F, ¬ reachable m x := by
  refine ⟨?_, fun m hr => ?_⟩
  · obtain ⟨hpos, hmask⟩ := table_ok_pos x hok
    obtain ⟨hlen, -, -, h32⟩ := hok
    obtain ⟨e, p, q, o, holen, -, -, hper⟩ := perform_spec x vec_table vec_env hpos hmask hlen h32
      hrec (by omega) (fun _ => hve)
    obtain ⟨T, I, heq⟩ := perform_eq x vec_table vec_env (Or.inr ⟨hrec, h32, hlen, by omega⟩)
    rw [hper] at heq
    cases hl : play_loop x x.block_size vec_env
        (x.block_size - (min x.table_record.toNat x.block_size.toNat : Nat)).toNat
        { mem := write_run x.table (x.table_size - x.table_record.toNat)
            (vec_table.take (min x.table_record.toNat x.block_size.toNat))
          table := T
          in_table := I
          in_env := min x.table_record.toNat x.block_size.toNat
          out := List.replicate (min x.table_record.toNat x.block_size.toNat) 0
          table_record := x.table_record - (min x.table_record.toNat x.block_size.toNat : Nat)
          n_computed := (min x.table_record.toNat x.block_size.toNat : Nat)
          env_last := x.env_last
          phase := x.phase
          phaseIncrement := x.phaseIncrement } with
    | none => rw [hl] at heq; cases heq
    | some s3 =>
      rw [hl, Option.map_some'] at heq
      have hout : List.replicate (min x.table_record.toNat x.block_size.toNat) 0 ++ o = s3.out :=
        (Prod.mk.inj (Option.some.inj heq)).2
      have hst := (Prod.mk.inj (Option.some.inj heq)).1
      have he : e = s3.env_last := congrArg t_wavecap.env_last hst
      have hp : p = s3.phase := congrArg t_wavecap.phase hst
      have hq : q = s3.phaseIncrement := congrArg t_wavecap.phaseIncrement hst
      have hz := play_loop_default x x.block_size vec_env hmode _ _ s3 hl
        (fun v hv => (List.mem_replicate.mp hv).2)
      obtain ⟨os, hos, -, -, -⟩ := play_loop_oscillator x x.block_size vec_env _ _ s3 hl
      dsimp only at hos
      rw [show (x.block_size - (min x.table_record.toNat x.block_size.toNat : Nat)).toNat =
        x.block_size.toNat - min x.table_record.toNat x.block_size.toNat by omega] at hos
      have hall : List.replicate (min x.table_record.toNat x.block_size.toNat) 0 ++ o =
          List.replicate x.block_size.toNat 0 := by
        rw [List.eq_replicate_iff]
        refine ⟨?_, fun v hv => hz v (hout ▸ hv)⟩
        rw [List.length_append, List.length_replicate, holen]
        omega
      rw [hall] at hper
      refine ⟨_, hper, rfl, os, ?_⟩
      dsimp only
      rw [he, hp, hq]
      exact hos
  · rcases reachable_interp m x hr with h | h | h
    · exact hmode.1 h
    · exact hmode.2.1 h
    · exact hmode.2.2 h

/-- C21, worked example: the table [0, 1, 2, 3] with the mode value 5 and a
block of one sample. -/
theorem C21_default_mode_zero_witness :
    (∃ x1 : t_wavecap ℚ, wavecap_perform { demo_table4 with table_interp := 5 } [0] [0] =
      some (x1, List.replicate
        ({ demo_table4 with table_interp := 5 } : t_wavecap ℚ).block_size.toNat 0) ∧
      x1.table_interp = 5 ∧
      ∃ os : List ℚ,
        oscillator { demo_table4 with table_interp := 5 }
            (write_run ({ demo_table4 with table_interp := 5 } : t_wavecap ℚ).table
              (({ demo_table4 with table_interp := 5 } : t_wavecap ℚ).table_size -
                ({ demo_table4 with table_interp := 5 } : t_wavecap ℚ).table_record.toNat)
              (([0] : List ℚ).take
                (min ({ demo_table4 with table_interp := 5 } : t_wavecap ℚ).table_record.toNat
                  ({ demo_table4 with table_interp := 5 } : t_wavecap ℚ).block_size.toNat)))
            ({ demo_table4 with table_interp := 5 } : t_wavecap ℚ).env_last
            ({ demo_table4 with table_interp := 5 } : t_wavecap ℚ).phase
            ({ demo_table4 with table_interp := 5 } : t_wavecap ℚ).phaseIncrement
            ((([0] : List ℚ).drop
                (min ({ demo_table4 with table_interp := 5 } : t_wavecap ℚ).table_record.toNat
                  ({ demo_table4 with table_interp := 5 } : t_wavecap ℚ).block_size.toNat)).take
              (({ demo_table4 with table_interp := 5 } : t_wavecap ℚ).block_size.toNat -
                min ({ demo_table4 with table_interp := 5 } : t_wavecap ℚ).table_record.toNat
                  ({ demo_table4 with table_interp := 5 } : t_wavecap ℚ).block_size.toNat)) =
          some (os, x1.env_last, x1.phase, x1.phaseIncrement)) ∧
    ∀ m : libm ℚ, ¬ reachable m { demo_table4 with table_interp := 5 } :=
  C21_default_mode_zero { demo_table4 with table_interp := 5 } [0] [0]
    (demo_table4_ok (3 / 2) 5) (by decide!) (by decide!) (by decide!) (by decide!)

/-! ## The countdown after a resize during a capture -/

/-- C26, the code at the failing input: on a table of 8 samples `bang` and a
block of 3 samples leave the countdown at 5; the accepted request
`table_size 4` in this state keeps the countdown, so the reachable state has
countdown 5 above the table size 4, the write offset `table_size -
table_record` in `uint32_t` is 4294967295, and the next process call stores
outside the table. -/
theorem C26_countdown_above_size :
    wavecap_perform
      (wavecap_dsp demo_libm (wavecap_table_record (wavecap_table_size demo_new 8).1) 44100 3)
      [1, 2, 3] [0, 0, 0] = some (demo_capture5, [0, 0, 0]) ∧
    reachable demo_libm (wavecap_table_size demo_capture5 4).1 ∧
    (wavecap_table_size demo_capture5 4).2 = pd_log.post ∧
    (wavecap_table_size demo_capture5 4).1.table_record = 5 ∧
    (wavecap_table_size demo_capture5 4).1.table_size = 4 ∧
    (wavecap_table_size demo_capture5 4).1.table.length = 4 ∧
    uint32_sub_int (wavecap_table_size demo_capture5 4).1.table_size
      (wavecap_table_size demo_capture5 4).1.table_record = 4294967295 ∧
    process demo_libm (wavecap_table_size demo_capture5 4).1
      { sr := 44100, vec_table := [1], vec_env := [0] } = none :=
  ⟨by decide!,
    reachable.table_size 4
      (reachable.perform [1, 2, 3] [0, 0, 0] [0, 0, 0]
        (reachable.dsp 44100 3 (reachable.bang (reachable.table_size 8 (reachable.new 0))))
        (by decide! :
          wavecap_perform
            (wavecap_dsp demo_libm (wavecap_table_record (wavecap_table_size demo_new 8).1)
              44100 3)
            [1, 2, 3] [0, 0, 0] = some (demo_capture5, [0, 0, 0]))),
    by decide!, by decide!, by decide!, by decide!, by decide!, by decide!⟩

/-! ## The fraction of the two-sample interpolation -/

/-- C27, the code at the failing input: on the table [0, 1, 2, 3] (N = 4) the
`lin_2` sample at phase 5.5 is 5.5 and at phase 1.5 it is 1.5, while `lin_4`
gives the same sample at both phases.  In a run: a fresh object in `lin_2`
mode plays one sample with control value 1/2 (phase 512), is resized to 4
samples, and after `bang` a block of 5 samples records 0, 1, 2, 3 and plays one
sample, which is 512. -/
theorem C27_lin_2_stale_fraction :
    interpolate lin_2 3 [0, 1, 2, 3] (11 / 2 : ℚ) = some (11 / 2) ∧
    interpolate lin_2 3 [0, 1, 2, 3] (3 / 2 : ℚ) = some (3 / 2) ∧
    interpolate lin_4 3 [0, 1, 2, 3] (11 / 2 : ℚ) = some (3 / 2) ∧
    interpolate lin_4 3 [0, 1, 2, 3] (3 / 2 : ℚ) = some (3 / 2) ∧
    ((process demo_libm (wavecap_table_interp demo_new 1).1
        { sr := 44100, vec_table := [0], vec_env := [1 / 2] }).bind
      fun r => (process demo_libm (wavecap_table_record (wavecap_table_size r.1 4).1)
        { sr := 44100, vec_table := [0, 1, 2, 3, 0], vec_env := [0, 0, 0, 0, 0] }).map
        fun r2 => (r.1.table_interp, r.1.phase, r2.1.table, r2.2)) =
      some (lin_2, 512, [0, 1, 2, 3], [0, 0, 0, 0, 512]) := by
  decide!

/-! ## The four-sample polynomial -/

/-- C28: the `lin_4` sample is the polynomial `lin_4_poly` of the four taps
read around the truncated phase and of the fraction; the polynomial equals
`in` at fraction 0 and `inp1` at fraction 1, and on equally spaced taps
a - d, a, a + d, a + 2d it equals a + f * d. -/
theorem C28_lin_4_polynomial (inm1 in0 inp1 inp2 a d f : F) (mask : Nat) (wavetable : List F)
    (phase : F) :
    interpolate lin_4 mask wavetable phase =
      ((wavetable_read wavetable (Int.land (cast_long phase - 1) mask)).bind fun t0 =>
        (wavetable_read wavetable (Int.land (cast_long phase + 0) mask)).bind fun t1 =>
        (wavetable_read wavetable (Int.land (cast_long phase + 1) mask)).bind fun t2 =>
        (wavetable_read wavetable (Int.land (cast_long phase + 2) mask)).map fun t3 =>
          lin_4_poly t0 t1 t2 t3 (phase - (cast_long phase : F))) ∧
    lin_4_poly inm1 in0 inp1 inp2 0 = in0 ∧
    lin_4_poly inm1 in0 inp1 inp2 1 = inp1 ∧
    lin_4_poly (a - d) a (a + d) (a + 2 * d) f = a + f * d := by
  refine ⟨?_, ?_, ?_, ?_⟩
  · unfold interpolate
    rw [if_neg (by decide), if_neg (by decide), if_pos rfl]
    dsimp only
    cases wavetable_read wavetable (Int.land (cast_long phase - 1) mask) <;>
    cases wavetable_read wavetable (Int.land (cast_long phase + 0) mask) <;>
    cases wavetable_read wavetable (Int.land (cast_long phase + 1) mask) <;>
    cases wavetable_read wavetable (Int.land (cast_long phase + 2) mask) <;> rfl
  · unfold lin_4_poly; ring
  · unfold lin_4_poly; ring
  · unfold lin_4_poly; ring

end Wavecap

/-! # blend~ and folder~ : theorems -/

namespace Blend

variable {F : Type} [LinearOrderedField F] [FloorRing F]

/-! ## blend~ -/

theorem blend_loop_spec (gain_ctrl : F) (in_ctrl in_sig1 in_sig2 : List F) :
    ∀ (n idx : Nat) (out : List F),
      idx + n ≤ in_ctrl.length → idx + n ≤ in_sig1.length → idx + n ≤ in_sig2.length →
      ∃ out1 : List F, blend_loop gain_ctrl in_ctrl in_sig1 in_sig2 n idx out = some out1 ∧
        out1.length = out.length + n ∧
        (∀ j : Nat, j < out.length → out1[j]? = out[j]?) ∧
        ∀ (j : Nat) (c sig1 sig2 : F), j < n → in_ctrl[idx + j]? = some c →
          in_sig1[idx + j]? = some sig1 → in_sig2[idx + j]? = some sig2 →
          out1[out.length + j]? = some (blend_frame gain_ctrl c sig1 sig2) := by
  intro n
  induction n with
  | zero =>
    intro idx out _ _ _
    exact ⟨out, rfl, rfl, fun _ _ => rfl, fun j _ _ _ hj => absurd hj (Nat.not_lt_zero j)⟩
  | succ k ih =>
    intro idx out h1 h2 h3
    have e1 : in_ctrl[idx]? = some in_ctrl[idx] := List.getElem?_eq_getElem (by omega)
    have e2 : in_sig1[idx]? = some in_sig1[idx] := List.getElem?_eq_getElem (by omega)
    have e3 : in_sig2[idx]? = some in_sig2[idx] := List.getElem?_eq_getElem (by omega)
    obtain ⟨out1, hrun, hlen, hold, hnew⟩ := ih (idx + 1)
      (out ++ [blend_frame gain_ctrl in_ctrl[idx] in_sig1[idx] in_sig2[idx]])
      (by omega) (by omega) (by omega)
    rw [List.length_append, List.length_singleton] at hlen hold hnew
    refine ⟨out1, ?_, by omega, ?_, ?_⟩
    · rw [blend_loop, e1, e2, e3]
      exact hrun
    · intro j hj
      rw [hold j (by omega), List.getElem?_append_left hj]
    · intro j c sig1 sig2 hj hc hs1 hs2
      rcases Nat.eq_zero_or_pos j with h0 | hpos
      · subst h0
        rw [Nat.add_zero] at hc hs1 hs2 ⊢
        rw [e1] at hc
        rw [e2] at hs1
        rw [e3] at hs2
        rw [hold out.length (by omega), List.getElem?_append_right (le_refl _), Nat.sub_self,
          ← Option.some.inj hc, ← Option.some.inj hs1, ← Option.some.inj hs2]
        rfl
      · obtain ⟨i, rfl⟩ : ∃ i : Nat, j = i + 1 := ⟨j - 1, by omega⟩
        have := hnew i c sig1 sig2 (by omega)
          (by rw [show idx + 1 + i = idx + (i + 1) by omega]; exact hc)
          (by rw [show idx + 1 + i = idx + (i + 1) by omega]; exact hs1)
          (by rw [show idx + 1 + i = idx + (i + 1) by omega]; exact hs2)
        rw [show out.length + (i + 1) = out.length + 1 + i by omega]
        exact this

theorem blend_frame_eq (gain_ctrl c sig1 sig2 : F) :
    (1 ≤ c * gain_ctrl → blend_frame gain_ctrl c sig1 sig2 = sig1) ∧
    (c * gain_ctrl ≤ -1 → blend_frame gain_ctrl c sig1 sig2 = sig2) ∧
    (-1 < c * gain_ctrl → c * gain_ctrl < 1 →
      blend_frame gain_ctrl c sig1 sig2 =
        ((c * gain_ctrl + 1) * sig1 + (1 - c * gain_ctrl) * sig2) / 2) := by
  unfold blend_frame
  dsimp only
  refine ⟨fun h => ?_, fun h => ?_, fun h1 h2 => ?_⟩
  · by_cases hgt : c * gain_ctrl > 1
    · rw [if_pos hgt]
      norm_num
    · have h1 : c * gain_ctrl = 1 := le_antisymm (not_lt.mp hgt) h
      rw [if_neg hgt, if_neg (by rw [h1]; norm_num), h1]
      norm_num
  · have hgt : ¬ c * gain_ctrl > 1 := by
      intro hc
      linarith
    by_cases hlt : c * gain_ctrl < -1
    · rw [if_neg hgt, if_pos hlt]
      norm_num
    · have h1 : c * gain_ctrl = -1 := le_antisymm h (not_lt.mp hlt)
      rw [if_neg hgt, if_neg hlt, h1]
      norm_num
  · rw [if_neg (not_lt.mpr h2.le), if_neg (not_lt.mpr h1.le),
      abs_of_nonpos (by linarith)]
    ring

/-- C22, counterexample: an object whose `gain_ctrl` field is 1/2, control
sample 1, audio samples 1 and 0: the output sample is 3/4, not the sample 1 of
audio signal 1. -/
theorem C22_counterexample :
    blend_perform ({ gain_ctrl := 1 / 2 } : t_blend ℚ) [1] [1] [0] 1 = some [3 / 4] := by
  decide!

/-- C22 (amended): blend~, for every object state and every sample index, with
c the control sample multiplied by the field `gain_ctrl` of the object: if c is
at or above 1 the output equals audio signal 1 at that index, if c is at or
below -1 it equals audio signal 2, and if c is strictly between -1 and 1 it
equals ((c + 1) * sig1 + (1 - c) * sig2) / 2.  For an object whose `gain_ctrl`
is 1, as `blend_new` leaves it, c is the control sample itself. -/
theorem C22_blend_output (x : t_blend F) (in_ctrl in_sig1 in_sig2 : List F) (n : Nat)
    (h1 : n ≤ in_ctrl.length) (h2 : n ≤ in_sig1.length) (h3 : n ≤ in_sig2.length) :
    (blend_new : t_blend F).gain_ctrl = 1 ∧
    ∃ out : List F, blend_perform x in_ctrl in_sig1 in_sig2 n = some out ∧ out.length = n ∧
      ∀ (i : Nat) (c sig1 sig2 : F), i < n → in_ctrl[i]? = some c →
        in_sig1[i]? = some sig1 → in_sig2[i]? = some sig2 →
        ((1 ≤ c * x.gain_ctrl → out[i]? = some sig1) ∧
          (c * x.gain_ctrl ≤ -1 → out[i]? = some sig2) ∧
          (-1 < c * x.gain_ctrl → c * x.gain_ctrl < 1 → out[i]? =
            some (((c * x.gain_ctrl + 1) * sig1 + (1 - c * x.gain_ctrl) * sig2) / 2))) ∧
        (x.gain_ctrl = 1 →
          (1 ≤ c → out[i]? = some sig1) ∧ (c ≤ -1 → out[i]? = some sig2) ∧
          (-1 < c → c < 1 → out[i]? = some (((c + 1) * sig1 + (1 - c) * sig2) / 2))) := by
  refine ⟨rfl, ?_⟩
  obtain ⟨out, hrun, hlen, -, hnew⟩ := blend_loop_spec x.gain_ctrl in_ctrl in_sig1 in_sig2 n 0 []
    (by omega) (by omega) (by omega)
  refine ⟨out, hrun, by simpa using hlen, ?_⟩
  intro i c sig1 sig2 hi hc hs1 hs2
  have hout := hnew i c sig1 sig2 hi (by rw [Nat.zero_add]; exact hc)
    (by rw [Nat.zero_add]; exact hs1) (by rw [Nat.zero_add]; exact hs2)
  rw [List.length_nil, Nat.zero_add] at hout
  obtain ⟨f1, f2, f3⟩ := blend_frame_eq x.gain_ctrl c sig1 sig2
  have key : (1 ≤ c * x.gain_ctrl → out[i]? = some sig1) ∧
      (c * x.gain_ctrl ≤ -1 → out[i]? = some sig2) ∧
      (-1 < c * x.gain_ctrl → c * x.gain_ctrl < 1 → out[i]? =
        some (((c * x.gain_ctrl + 1) * sig1 + (1 - c * x.gain_ctrl) * sig2) / 2)) :=
    ⟨fun h => by rw [hout, f1 h], fun h => by rw [hout, f2 h],
      fun ha hb => by rw [hout, f3 ha hb]⟩
  refine ⟨key, fun hg => ?_⟩
  rw [hg, mul_one] at key
  exact key

/-- C22, worked example: a new object, control samples 2, -3, 1/2, audio
signal 1 = 10, 20, 30, audio signal 2 = 1, 2, 3: the block of 3 samples is
processed, and the claim holds at every index. -/
theorem C22_blend_output_witness :
    (blend_new : t_blend ℚ).gain_ctrl = 1 ∧
    ∃ out : List ℚ, blend_perform (blend_new : t_blend ℚ) [2, -3, 1 / 2] [10, 20, 30] [1, 2, 3] 3 =
        some out ∧ out.length = 3 ∧
      ∀ (i : Nat) (c sig1 sig2 : ℚ), i < 3 → [2, -3, 1 / 2][i]? = some c →
        [10, 20, 30][i]? = some sig1 → [1, 2, 3][i]? = some sig2 →
        ((1 ≤ c * (blend_new : t_blend ℚ).gain_ctrl → out[i]? = some sig1) ∧
          (c * (blend_new : t_blend ℚ).gain_ctrl ≤ -1 → out[i]? = some sig2) ∧
          (-1 < c * (blend_new : t_blend ℚ).gain_ctrl →
            c * (blend_new : t_blend ℚ).gain_ctrl < 1 → out[i]? =
            some (((c * (blend_new : t_blend ℚ).gain_ctrl + 1) * sig1 +
              (1 - c * (blend_new : t_blend ℚ).gain_ctrl) * sig2) / 2))) ∧
        ((blend_new : t_blend ℚ).gain_ctrl = 1 →
          (1 ≤ c → out[i]? = some sig1) ∧ (c ≤ -1 → out[i]? = some sig2) ∧
          (-1 < c → c < 1 → out[i]? = some (((c + 1) * sig1 + (1 - c) * sig2) / 2))) :=
  C22_blend_output blend_new [2, -3, 1 / 2] [10, 20, 30] [1, 2, 3] 3
    (by decide) (by decide) (by decide)

end Blend

namespace Folder

variable {F : Type} [LinearOrderedField F] [FloorRing F]

/-! ## folder~ -/

theorem folder_loop_spec (gain : F) (in_sig in_lower_thresh in_upper_thresh : List F) :
    ∀ (n idx : Nat) (out : List F),
      idx + n ≤ in_sig.length → idx + n ≤ in_lower_thresh.length →
      idx + n ≤ in_upper_thresh.length →
      ∃ out1 : List F,
        folder_loop gain in_sig in_lower_thresh in_upper_thresh n idx out = some out1 ∧
        out1.length = out.length + n ∧
        (∀ j : Nat, j < out.length → out1[j]? = out[j]?) ∧
        ∀ (j : Nat) (sig lower upper : F), j < n → in_sig[idx + j]? = some sig →
          in_lower_thresh[idx + j]? = some lower → in_upper_thresh[idx + j]? = some upper →
          out1[out.length + j]? = some (folder_frame gain sig lower upper) := by
  intro n
  induction n with
  | zero =>
    intro idx out _ _ _
    exact ⟨out, rfl, rfl, fun _ _ => rfl, fun j _ _ _ hj => absurd hj (Nat.not_lt_zero j)⟩
  | succ k ih =>
    intro idx out h1 h2 h3
    have e1 : in_sig[idx]? = some in_sig[idx] := List.getElem?_eq_getElem (by omega)
    have e2 : in_lower_thresh[idx]? = some in_lower_thresh[idx] :=
      List.getElem?_eq_getElem (by omega)
    have e3 : in_upper_thresh[idx]? = some in_upper_thresh[idx] :=
      List.getElem?_eq_getElem (by omega)
    obtain ⟨out1, hrun, hlen, hold, hnew⟩ := ih (idx + 1)
      (out ++ [folder_frame gain in_sig[idx] in_lower_thresh[idx] in_upper_thresh[idx]])
      (by omega) (by omega) (by omega)
    rw [List.length_append, List.length_singleton] at hlen hold hnew
    refine ⟨out1, ?_, by omega, ?_, ?_⟩
    · rw [folder_loop, e1, e2, e3]
      exact hrun
    · intro j hj
      rw [hold j (by omega), List.getElem?_append_left hj]
    · intro j sig lower upper hj hs hl hu
      rcases Nat.eq_zero_or_pos j with h0 | hpos
      · subst h0
        rw [Nat.add_zero] at hs hl hu ⊢
        rw [e1] at hs
        rw [e2] at hl
        rw [e3] at hu
        rw [hold out.length (by omega), List.getElem?_append_right (le_refl _), Nat.sub_self,
          ← Option.some.inj hs, ← Option.some.inj hl, ← Option.some.inj hu]
        rfl
      · obtain ⟨i, rfl⟩ : ∃ i : Nat, j = i + 1 := ⟨j - 1, by omega⟩
        have := hnew i sig lower upper (by omega)
          (by rw [show idx + 1 + i = idx + (i + 1) by omega]; exact hs)
          (by rw [show idx + 1 + i = idx + (i + 1) by omega]; exact hl)
          (by rw [show idx + 1 + i = idx + (i + 1) by omega]; exact hu)
        rw [show out.length + (i + 1) = out.length + 1 + i by omega]
        exact this

theorem folder_frame_eq (gain sig lower upper : F) :
    (lower * gain ≤ sig * gain → sig * gain ≤ upper * gain →
      folder_frame gain sig lower upper = sig * gain) ∧
    (sig * gain > upper * gain →
      folder_frame gain sig lower upper = 2 * (upper * gain) - sig * gain) ∧
    (sig * gain < lower * gain → sig * gain ≤ upper * gain →
      folder_frame gain sig lower upper = 2 * (lower * gain) - sig * gain) := by
  unfold folder_frame
  dsimp only
  refine ⟨fun h1 h2 => ?_, fun h => ?_, fun h1 h2 => ?_⟩
  · rw [if_neg (by linarith), if_neg (by linarith)]
  · rw [if_pos (by linarith)]
    ring
  · rw [if_neg (by linarith), if_pos (by linarith)]
    ring

/-- C25: folder~ processes a block of `n` samples, and at every index, with
s, lo, hi the signal sample, the lower threshold sample and the upper threshold
sample each multiplied by the gain: if lo ≤ s ≤ hi the output is s; if s > hi
the output is 2 * hi - s; if s < lo and s ≤ hi the output is 2 * lo - s. -/
theorem C25_folder_output (x : t_folder F) (in_sig in_lower_thresh in_upper_thresh : List F)
    (n : Nat) (h1 : n ≤ in_sig.length) (h2 : n ≤ in_lower_thresh.length)
    (h3 : n ≤ in_upper_thresh.length) :
    ∃ out : List F, folder_perform x in_sig in_lower_thresh in_upper_thresh n = some out ∧
      out.length = n ∧
      ∀ (i : Nat) (sig lower upper : F), i < n → in_sig[i]? = some sig →
        in_lower_thresh[i]? = some lower → in_upper_thresh[i]? = some upper →
        (lower * x.gain ≤ sig * x.gain → sig * x.gain ≤ upper * x.gain →
          out[i]? = some (sig * x.gain)) ∧
        (sig * x.gain > upper * x.gain →
          out[i]? = some (2 * (upper * x.gain) - sig * x.gain)) ∧
        (sig * x.gain < lower * x.gain → sig * x.gain ≤ upper * x.gain →
          out[i]? = some (2 * (lower * x.gain) - sig * x.gain)) := by
  obtain ⟨out, hrun, hlen, -, hnew⟩ := folder_loop_spec x.gain in_sig in_lower_thresh
    in_upper_thresh n 0 [] (by omega) (by omega) (by omega)
  refine ⟨out, hrun, by simpa using hlen, ?_⟩
  intro i sig lower upper hi hs hl hu
  have hout := hnew i sig lower upper hi (by rw [Nat.zero_add]; exact hs)
    (by rw [Nat.zero_add]; exact hl) (by rw [Nat.zero_add]; exact hu)
  rw [List.length_nil, Nat.zero_add] at hout
  obtain ⟨f1, f2, f3⟩ := folder_frame_eq x.gain sig lower upper
  exact ⟨fun ha hb => by rw [hout, f1 ha hb], fun h => by rw [hout, f2 h],
    fun ha hb => by rw [hout, f3 ha hb]⟩

/-- C25, worked example: gain 2, thresholds -1 and 1 (scaled: -2 and 2), signal
samples 1/2, 3, -3 (scaled: 1, 6, -6): the outputs are 1, -2 and 2. -/
theorem C25_folder_output_witness :
    folder_perform (folder_new (2 : ℚ)) [1 / 2, 3, -3] [-1, -1, -1] [1, 1, 1] 3 =
      some [1, -2, 2] ∧
    ∃ out : List ℚ, folder_perform (folder_new (2 : ℚ)) [1 / 2, 3, -3] [-1, -1, -1] [1, 1, 1] 3 =
        some out ∧ out.length = 3 ∧
      ∀ (i : Nat) (sig lower upper : ℚ), i < 3 → [1 / 2, 3, -3][i]? = some sig →
        [-1, -1, -1][i]? = some lower → [1, 1, 1][i]? = some upper →
        (lower * (folder_new (2 : ℚ)).gain ≤ sig * (folder_new (2 : ℚ)).gain →
          sig * (folder_new (2 : ℚ)).gain ≤ upper * (folder_new (2 : ℚ)).gain →
          out[i]? = some (sig * (folder_new (2 : ℚ)).gain)) ∧
        (sig * (folder_new (2 : ℚ)).gain > upper * (folder_new (2 : ℚ)).gain →
          out[i]? = some (2 * (upper * (folder_new (2 : ℚ)).gain) -
            sig * (folder_new (2 : ℚ)).gain)) ∧
        (sig * (folder_new (2 : ℚ)).gain < lower * (folder_new (2 : ℚ)).gain →
          sig * (folder_new (2 : ℚ)).gain ≤ upper * (folder_new (2 : ℚ)).gain →
          out[i]? = some (2 * (lower * (folder_new (2 : ℚ)).gain) -
            sig * (folder_new (2 : ℚ)).gain)) :=
  ⟨by decide!, C25_folder_output (folder_new 2) [1 / 2, 3, -3] [-1, -1, -1] [1, 1, 1] 3
    (by decide) (by decide) (by decide)⟩

end Folder

/-! # wraparound~ : theorems -/

namespace Wraparound

variable {F : Type} [LinearOrderedField F] [FloorRing F]

/-! ## wraparound~ : the wrap loops -/

theorem wrap_low_loop_spec :
    ∀ (fuel : Nat) (frame : F) (w : Int), (-1 - frame) / 2 ≤ fuel →
      ∃ (k : Nat) (w1 : Int), wrap_low_loop fuel frame w = some (frame + 2 * k, w1) ∧
        -1 ≤ frame + 2 * k ∧ (frame < -1 → frame + 2 * k < 1) ∧
        (-1 ≤ frame → k = 0 ∧ w1 = w) := by
  intro fuel
  induction fuel with
  | zero =>
    intro frame w h
    have hge : -1 ≤ frame := by
      simp only [Nat.cast_zero] at h
      linarith
    refine ⟨0, w, ?_, by simpa using hge, fun hc => absurd hc (not_lt.mpr hge),
      fun _ => ⟨rfl, rfl⟩⟩
    simp [wrap_low_loop, not_lt.mpr hge]
  | succ n ih =>
    intro frame w h
    by_cases hc : frame < -1
    · have h2 : (-1 - (frame + 2)) / 2 ≤ (n : F) := by
        push_cast at h
        linarith
      obtain ⟨k, w1, hk, hlo, hhi, hid⟩ := ih (frame + 2) 1 h2
      have e : frame + 2 * ((k + 1 : Nat) : F) = frame + 2 + 2 * k := by
        push_cast
        ring
      refine ⟨k + 1, w1, ?_, ?_, fun _ => ?_, fun hge => absurd hc (not_lt.mpr hge)⟩
      · rw [wrap_low_loop, if_pos hc, hk, e]
      · rw [e]
        exact hlo
      · rw [e]
        by_cases h3 : frame + 2 < -1
        · exact hhi h3
        · obtain ⟨hk0, -⟩ := hid (not_lt.mp h3)
          subst hk0
          simp only [Nat.cast_zero, mul_zero, add_zero]
          linarith
    · have hge : -1 ≤ frame := not_lt.mp hc
      refine ⟨0, w, ?_, by simpa using hge, fun hlt => absurd hlt hc, fun _ => ⟨rfl, rfl⟩⟩
      simp [wrap_low_loop, hc]

theorem wrap_high_loop_spec :
    ∀ (fuel : Nat) (frame : F) (w : Int), (frame - 1) / 2 ≤ fuel →
      ∃ (k : Nat) (w1 : Int), wrap_high_loop fuel frame w = some (frame - 2 * k, w1) ∧
        frame - 2 * k ≤ 1 ∧ (frame > 1 → -1 < frame - 2 * k) ∧
        (frame ≤ 1 → k = 0 ∧ w1 = w) := by
  intro fuel
  induction fuel with
  | zero =>
    intro frame w h
    have hle : frame ≤ 1 := by
      simp only [Nat.cast_zero] at h
      linarith
    refine ⟨0, w, ?_, by simpa using hle, fun hc => absurd hc (not_lt.mpr hle),
      fun _ => ⟨rfl, rfl⟩⟩
    simp [wrap_high_loop, not_lt.mpr hle]
  | succ n ih =>
    intro frame w h
    by_cases hc : frame > 1
    · have h2 : (frame - 2 - 1) / 2 ≤ (n : F) := by
        push_cast at h
        linarith
      obtain ⟨k, w1, hk, hhi, hlo, hid⟩ := ih (frame - 2) 1 h2
      have e : frame - 2 * ((k + 1 : Nat) : F) = frame - 2 - 2 * k := by
        push_cast
        ring
      refine ⟨k + 1, w1, ?_, ?_, fun _ => ?_, fun hle => absurd hc (not_lt.mpr hle)⟩
      · rw [wrap_high_loop, if_pos hc, hk, e]
      · rw [e]
        exact hhi
      · rw [e]
        by_cases h3 : frame - 2 > 1
        · exact hlo h3
        · obtain ⟨hk0, -⟩ := hid (not_lt.mp h3)
          subst hk0
          simp only [Nat.cast_zero, mul_zero, sub_zero]
          linarith
    · have hle : frame ≤ 1 := not_lt.mp hc
      refine ⟨0, w, ?_, by simpa using hle, fun hgt => absurd hgt hc, fun _ => ⟨rfl, rfl⟩⟩
      simp [wrap_high_loop, hc]

theorem ceil_toNat_ge (a : F) : a ≤ ((⌈a⌉.toNat : Nat) : F) := by
  have h1 : a ≤ (⌈a⌉ : F) := Int.le_ceil a
  have h2 : (⌈a⌉ : F) ≤ ((⌈a⌉.toNat : Nat) : F) := by
    have := Int.self_le_toNat ⌈a⌉
    exact_mod_cast this
  linarith

theorem wrap_frame_spec (frame : F) :
    ∃ (y : F) (wrapped_current : Int), wrap_frame frame = some (y, wrapped_current) ∧
      -1 ≤ y ∧ y ≤ 1 ∧ (∃ z : Int, y = frame + 2 * z) ∧
      (-1 ≤ frame → frame ≤ 1 → y = frame) := by
  obtain ⟨k, w1, hk, hlo, hhi, hid⟩ := wrap_low_loop_spec ⌈(-1 - frame) / 2⌉.toNat frame 0
    (ceil_toNat_ge _)
  obtain ⟨j, w2, hj, hle, hgt, hid2⟩ :=
    wrap_high_loop_spec ⌈(frame + 2 * k - 1) / 2⌉.toNat (frame + 2 * k) w1 (ceil_toNat_ge _)
  refine ⟨frame + 2 * k - 2 * j, w2, ?_, ?_, hle, ⟨(k : Int) - j, ?_⟩, ?_⟩
  · unfold wrap_frame
    rw [hk]
    exact hj
  · by_cases h1 : frame + 2 * k > 1
    · exact (hgt h1).le
    · obtain ⟨hj0, -⟩ := hid2 (not_lt.mp h1)
      subst hj0
      simpa using hlo
  · push_cast
    ring
  · intro ha hb
    obtain ⟨hk0, -⟩ := hid ha
    subst hk0
    have hb2 : frame + 2 * ((0 : Nat) : F) ≤ 1 := by simpa using hb
    obtain ⟨hj0, -⟩ := hid2 hb2
    subst hj0
    simp

theorem hard_loop_spec (gain : F) (vec_in : List F) :
    ∀ (n idx : Nat) (out : List F) (w : Int), idx + n ≤ vec_in.length →
      ∃ (out1 : List F) (w1 : Int), hard_loop gain vec_in n idx out w = some (out1, w1) ∧
        out1.length = out.length + n ∧
        (∀ j : Nat, j < out.length → out1[j]? = out[j]?) ∧
        ((∀ v ∈ out, -1 ≤ v ∧ v ≤ 1) → ∀ v ∈ out1, -1 ≤ v ∧ v ≤ 1) ∧
        ∀ (j : Nat) (s : F), j < n → vec_in[idx + j]? = some s →
          ∃ (y : F) (wc : Int), wrap_frame (s * gain) = some (y, wc) ∧
            out1[out.length + j]? = some y := by
  intro n
  induction n with
  | zero =>
    intro idx out w _
    exact ⟨out, w, rfl, rfl, fun _ _ => rfl, fun h => h,
      fun j _ hj => absurd hj (Nat.not_lt_zero j)⟩
  | succ k ih =>
    intro idx out w h1
    have e1 : vec_in[idx]? = some vec_in[idx] := List.getElem?_eq_getElem (by omega)
    obtain ⟨y, wc, hw, hy1, hy2, -, -⟩ := wrap_frame_spec (vec_in[idx] * gain)
    obtain ⟨out1, w1, hrun, hlen, hold, hrange, hnew⟩ := ih (idx + 1) (out ++ [y]) wc (by omega)
    rw [List.length_append, List.length_singleton] at hlen hold hnew
    refine ⟨out1, w1, ?_, by omega, ?_, ?_, ?_⟩
    · rw [hard_loop, e1]
      dsimp only
      rw [hw]
      exact hrun
    · intro j hj
      rw [hold j (by omega), List.getElem?_append_left hj]
    · intro hall
      refine hrange ?_
      intro v hv
      rcases List.mem_append.mp hv with hv | hv
      · exact hall v hv
      · rw [List.mem_singleton] at hv
        rw [hv]
        exact ⟨hy1, hy2⟩
    · intro j s hj hs
      rcases Nat.eq_zero_or_pos j with h0 | hpos
      · subst h0
        rw [Nat.add_zero] at hs ⊢
        rw [e1] at hs
        rw [← Option.some.inj hs]
        refine ⟨y, wc, hw, ?_⟩
        rw [hold out.length (by omega), List.getElem?_append_right (le_refl _), Nat.sub_self]
        rfl
      · obtain ⟨i, rfl⟩ : ∃ i : Nat, j = i + 1 := ⟨j - 1, by omega⟩
        have := hnew i s (by omega)
          (by rw [show idx + 1 + i = idx + (i + 1) by omega]; exact hs)
        rw [show out.length + (i + 1) = out.length + 1 + i by omega]
        exact this

/-- C23: wraparound~ in hard mode processes a block of `n` samples (the wrap
loops end), and at every index the output y satisfies -1 ≤ y ≤ 1, differs
from the input sample times the gain by an integer multiple of 2, and equals
it when that product lies in [-1, 1]. -/
theorem C23_hard_wrap (x : t_wraparound F) (vec_in : List F) (n : Nat)
    (hhard : int_of_long x.hard ≠ 0) (hn : n ≤ vec_in.length) :
    ∃ (x1 : t_wraparound F) (out : List F),
      wraparound_perform x vec_in n = some (x1, out) ∧ out.length = n ∧
      ∀ (i : Nat) (s : F), i < n → vec_in[i]? = some s →
        ∃ y : F, out[i]? = some y ∧ -1 ≤ y ∧ y ≤ 1 ∧ (∃ z : Int, y = s * x.gain + 2 * z) ∧
          (-1 ≤ s * x.gain → s * x.gain ≤ 1 → y = s * x.gain) := by
  obtain ⟨out, w1, hrun, hlen, -, -, hnew⟩ := hard_loop_spec x.gain vec_in n 0 [] 0 (by omega)
  refine ⟨{ x with wrapped_last := w1 }, out, ?_, by simpa using hlen, ?_⟩
  · unfold wraparound_perform
    dsimp only
    rw [if_pos hhard, hrun]
  · intro i s hi hs
    obtain ⟨y, wc, hw, hout⟩ := hnew i s hi (by rw [Nat.zero_add]; exact hs)
    rw [List.length_nil, Nat.zero_add] at hout
    obtain ⟨y2, wc2, hw2, h1, h2, h3, h4⟩ := wrap_frame_spec (s * x.gain)
    rw [hw] at hw2
    obtain ⟨rfl, -⟩ := Prod.mk.inj (Option.some.inj hw2)
    exact ⟨y, hout, h1, h2, h3, h4⟩

/-- C23, worked example: a new object with gain 2 (hard mode) and the input
samples 1/4, 2, -7/4, that is 1/2, 4, -7/2 after the gain: the outputs are
1/2, 0 and 1/2. -/
theorem C23_hard_wrap_witness :
    wraparound_perform (wraparound_new (2 : ℚ)) [1 / 4, 2, -7 / 4] 3 =
      some ({ wraparound_new (2 : ℚ) with wrapped_last := 1 }, [1 / 2, 0, 1 / 2]) ∧
    ∃ (x1 : t_wraparound ℚ) (out : List ℚ),
      wraparound_perform (wraparound_new (2 : ℚ)) [1 / 4, 2, -7 / 4] 3 = some (x1, out) ∧
      out.length = 3 ∧
      ∀ (i : Nat) (s : ℚ), i < 3 → [1 / 4, 2, -7 / 4][i]? = some s →
        ∃ y : ℚ, out[i]? = some y ∧ -1 ≤ y ∧ y ≤ 1 ∧
          (∃ z : Int, y = s * (wraparound_new (2 : ℚ)).gain + 2 * z) ∧
          (-1 ≤ s * (wraparound_new (2 : ℚ)).gain → s * (wraparound_new (2 : ℚ)).gain ≤ 1 →
            y = s * (wraparound_new (2 : ℚ)).gain) :=
  ⟨by decide!, C23_hard_wrap (wraparound_new 2) [1 / 4, 2, -7 / 4] 3 (by decide) (by decide)⟩

/-! ## wraparound~ : the two moving averages -/

end Wraparound
